import Mathlib

/-!
EEMS population graph: a shallow embedding of `graph.cpp`.

The definitions below follow `src/runeems_sats/src/graph.cpp` function by
function.  Conventions of the embedding:

* C++ `int` is `Int` (no overflow is modelled: every index is bounded by the
  size of an allocated vector); `double` is `ℚ`, i.e. exact arithmetic.
* `VectorXi` is `List Int`; the two-column matrices `DemeCoord` and
  `DemePairs` are lists of rows.  `v(i)` is `coeff v i`, an assignment
  `v(i) = x` is `setCoeff v i x`.
* a `for` loop over `0 .. n-1` is a `List.foldl` over `List.range n` that
  threads the variables the loop body modifies.
* `check_condition` (declared in `util.hpp`) ends the run with its message; it
  is the `Except.error` of the embedding.  The messages are those of the source
  without the file name; two more messages mark the Eigen operations that are
  not defined: `minCoeff` of an empty matrix, and a coefficient read outside of
  a matrix.
* `readMatrixXd` (declared in `util.hpp`) is not modelled: the functions take
  the tables that it returns.
* `pairwise_distance` (declared in `util.hpp`) is a parameter `dist` with values
  in a linear order; `euclidean_sq` is the exact squared Euclidean distance.
-/

namespace Eems

/-! ## Vectors and matrices -/

/-- A point of the plane, one row of a two-column `MatrixXd`. -/
abbrev Point := ℚ × ℚ

/-- The coefficient `v(i)` of a vector. -/
def coeff {α : Type} [Inhabited α] (v : List α) (i : Int) : α := v.getD i.toNat default

/-- The assignment `v(i) = x`. -/
def setCoeff {α : Type} (v : List α) (i : Int) (x : α) : List α := v.set i.toNat x

/-- The result of `check_condition(condition, message)`: the run goes on when the
condition holds and ends with the message otherwise. -/
def check_condition (condition : Bool) (message : String) : Except String Unit :=
  if condition then .ok () else .error message

/-- Eigen's visitor behind `minCoeff(&index)`: the running minimum `res`, its
index `idx`, and the index `i` of the next coefficient; a coefficient replaces
the minimum only when it is strictly smaller. -/
def minVisit {δ : Type} [LinearOrder δ] (res : δ) (idx i : Nat) : List δ → δ × Nat
  | [] => (res, idx)
  | v :: vs => if v < res then minVisit v i (i + 1) vs else minVisit res idx (i + 1) vs

/-- Eigen's visitor behind `maxCoeff(&index)`. -/
def maxVisit {δ : Type} [LinearOrder δ] (res : δ) (idx i : Nat) : List δ → δ × Nat
  | [] => (res, idx)
  | v :: vs => if res < v then maxVisit v i (i + 1) vs else maxVisit res idx (i + 1) vs

/-- The value and index computed by `minCoeff(&index)`; Eigen requires a
non-empty vector, an empty one gives `none`. -/
def minCoeff {δ : Type} [LinearOrder δ] : List δ → Option (δ × Nat)
  | [] => none
  | v :: vs => some (minVisit v 0 1 vs)

/-- The value and index computed by `maxCoeff(&index)`. -/
def maxCoeff {δ : Type} [LinearOrder δ] : List δ → Option (δ × Nat)
  | [] => none
  | v :: vs => some (maxVisit v 0 1 vs)

/-- All coefficients of a two-column integer matrix. -/
def coeffs (M : List (Int × Int)) : List Int := M.flatMap (fun p => [p.1, p.2])

/-- The test `M.minCoeff() >= 0 && M.maxCoeff() < n`; `none` when `M` is empty,
where Eigen's reductions are not defined. -/
def inRange (v : List Int) (n : Int) : Option Bool :=
  match minCoeff v, maxCoeff v with
  | some lo, some hi => some (decide (lo.1 ≥ 0) && decide (hi.1 < n))
  | _, _ => none

/-- The exact squared Euclidean distance between two points; it orders pairs of
points as the Euclidean distance does. -/
def euclidean_sq (p q : Point) : ℚ := (p.1 - q.1) ^ 2 + (p.2 - q.2) ^ 2

/-! ## The graph object -/

/-- The data members of `Graph`. -/
structure Graph where
  DemeCoord : List Point
  DemePairs : List (Int × Int)
  indiv2deme : List Int
  DemeSizes : List Int
deriving DecidableEq, Inhabited

namespace Graph

/-- The observed demes are counted by `DemeSizes.size()`. -/
def get_num_obsrv_demes (g : Graph) : Int := g.DemeSizes.length

/-- The number of demes is `DemeCoord.rows()`. -/
def get_num_total_demes (g : Graph) : Int := g.DemeCoord.length

/-- The number of edges is `DemePairs.rows()`. -/
def get_num_edges (g : Graph) : Int := g.DemePairs.length

/-- The deme of sample `i`. -/
def get_deme_of_indiv (g : Graph) (i : Int) : Int := coeff g.indiv2deme i

end Graph

/-! ## Nearest deme and nearest seed -/

/-- A table read by `readMatrixXd`: its number of columns and its rows. -/
structure Table where
  cols : Nat
  rows : List (List ℚ)
deriving DecidableEq, Inhabited

/-- Row `r` of a table as a point (its first two coefficients). -/
def rowPoint (r : List ℚ) : Point := (r.getD 0 0, r.getD 1 0)

/-- The loop `for i < n : column(i).minCoeff(&v(i))` shared by
`map_indiv_to_deme` and `index_closest_to_deme`: entry `i` of the vector gets
the index found by `minCoeff` in the column `col i`. -/
def argminLoop {δ : Type} [LinearOrder δ] (col : Nat → List δ) (n : Nat) (v0 : List Int) :
    Option (List Int) :=
  (List.range n).foldl
    (fun st i => st.bind fun v => (minCoeff (col i)).map fun m => v.set i (m.2 : Int))
    (some v0)

/-- The function `Graph::map_indiv_to_deme`: `coord` is the table read from
`datapath + ".coord"`; `indiv2deme.resize(nIndiv)` keeps a vector that has the
size already and gives an unspecified one (zeros here) otherwise. -/
def map_indiv_to_deme {δ : Type} [LinearOrder δ] (dist : Point → Point → δ)
    (coord : Table) (nIndiv : Int) (g : Graph) : Except String Graph := do
  check_condition (decide ((coord.rows.length : Int) = nIndiv) && decide (coord.cols = 2))
    "Check that .coord is a list of locations, two coordinates per row."
  match argminLoop
      (fun i => g.DemeCoord.map fun d => dist d (rowPoint (coord.rows.getD i default)))
      nIndiv.toNat
      (if g.indiv2deme.length ≠ nIndiv.toNat then List.replicate nIndiv.toNat 0
        else g.indiv2deme) with
  | some v => pure { g with indiv2deme := v }
  | none => .error "minCoeff of an empty matrix"

/-- The function `Graph::index_closest_to_deme`: `Closest(i)` is the index found
by `minCoeff` in column `i` of the seed-by-deme distance matrix. -/
def index_closest_to_deme {δ : Type} [LinearOrder δ] (dist : Point → Point → δ)
    (g : Graph) (Seeds : List Point) (Closest : List Int) : Option (List Int) :=
  let nDemes := g.DemeCoord.length
  argminLoop (fun i => Seeds.map fun s => dist s (g.DemeCoord.getD i default)) nDemes
    (if Closest.length ≠ nDemes then List.replicate nDemes 0 else Closest)

/-- Modelled from the spec: the per-deme rate of `calc_q`, whose body is not
among the sources: the value of the tile that covers the deme. -/
def tile_value (Effcts : List ℚ) (Colors : List Int) (deme : Int) : ℚ :=
  coeff Effcts (coeff Colors deme)

/-! ## Reindexing the demes -/

/-- The variables of the first loop of `reindex_demes`. -/
structure ReindexState where
  newIndex : List Int
  oDemes : Int
  indiv2deme : List Int
deriving DecidableEq, Inhabited

/-- One pass of the first loop of `reindex_demes` (sample `i`). -/
def observedStep (st : ReindexState) (i : Nat) : ReindexState :=
  let alpha := coeff st.indiv2deme i
  let st1 : ReindexState :=
    if coeff st.newIndex alpha = -1 then
      { st with newIndex := setCoeff st.newIndex alpha st.oDemes, oDemes := st.oDemes + 1 }
    else st
  { st1 with indiv2deme := setCoeff st1.indiv2deme i (coeff st1.newIndex alpha) }

/-- One pass of the loop `DemeSizes(indiv2deme(i))++`. -/
def sizesStep (indiv2deme : List Int) (DemeSizes : List Int) (i : Nat) : List Int :=
  setCoeff DemeSizes (coeff indiv2deme i) (coeff DemeSizes (coeff indiv2deme i) + 1)

/-- One pass of the loop that numbers the unobserved demes (deme `i`). -/
def unobservedStep (st : List Int × Int) (i : Nat) : List Int × Int :=
  if coeff st.1 i = -1 then (setCoeff st.1 i st.2, st.2 + 1) else st

/-- The variables `newIndex`, `oDemes`, `indiv2deme` of `reindex_demes` after its
first loop, which numbers the observed demes. -/
def reindex_observed (g : Graph) : ReindexState :=
  (List.range g.indiv2deme.length).foldl observedStep
    { newIndex := List.replicate g.DemeCoord.length (-1), oDemes := 0,
      indiv2deme := g.indiv2deme }

/-- The vector `newIndex` of `reindex_demes` after the loop that numbers the
unobserved demes: the new index of every deme. -/
def reindex_newIndex (g : Graph) : List Int :=
  ((List.range g.DemeCoord.length).foldl unobservedStep
    ((reindex_observed g).newIndex, (reindex_observed g).oDemes)).1

/-- The body of `reindex_demes` after its two checks. -/
def reindex_body (g : Graph) : Graph :=
  let st1 := reindex_observed g
  let DemeSizes := (List.range g.indiv2deme.length).foldl (sizesStep st1.indiv2deme)
    (List.replicate st1.oDemes.toNat 0)
  let newIndex := reindex_newIndex g
  let InputDemes := g.DemeCoord
  let DemeCoord := (List.range g.DemeCoord.length).foldl
    (fun M (i : Nat) => setCoeff M (coeff newIndex i) (coeff InputDemes i)) g.DemeCoord
  let DemePairs := (List.range g.DemePairs.length).foldl
    (fun M (i : Nat) =>
      let alpha := coeff newIndex (coeff M i).1
      let beta := coeff newIndex (coeff M i).2
      setCoeff M i (alpha, beta)) g.DemePairs
  { DemeCoord := DemeCoord, DemePairs := DemePairs, indiv2deme := st1.indiv2deme,
    DemeSizes := DemeSizes }

/-- The function `Graph::reindex_demes`.  `minCoeff` and `maxCoeff` are not
defined on an empty matrix, so an empty `DemePairs` or `indiv2deme` ends the run
as well. -/
def reindex_demes (g : Graph) : Except String Graph := do
  let nDemes : Int := g.DemeCoord.length
  match inRange (coeffs g.DemePairs) nDemes with
  | none => .error "minCoeff of an empty matrix"
  | some c => check_condition c "[Graph::reindex_demes] DemePairs input error."
  match inRange g.indiv2deme nDemes with
  | none => .error "minCoeff of an empty matrix"
  | some c => check_condition c "[Graph::reindex_demes] indiv2deme input error."
  pure (reindex_body g)

/-! ## Connectivity -/

/-- The number of vertices of the Boost graph `testG` after the calls of
`add_edge`: with a `vecS` vertex list, `add_edge(u,v,g)` enlarges the vertex set
to `max(u,v)+1` when needed; the graph starts with no vertex. -/
def num_vertices (DemePairs : List (Int × Int)) : Nat :=
  DemePairs.foldl (fun n e => max n (max e.1.toNat e.2.toNat + 1)) 0

/-- Merging the components of the two endpoints of an edge: `comp` maps each
vertex to the label of its component. -/
def mergeComponents (comp : List Nat) (e : Int × Int) : List Nat :=
  let cu := comp.getD e.1.toNat 0
  let cv := comp.getD e.2.toNat 0
  comp.map fun c => if c = cv then cu else c

/-- Boost's `connected_components`: the number of connected components of the
undirected graph on the vertices `0 .. n-1` with the given edges. -/
def connected_components (n : Nat) (edges : List (Int × Int)) : Nat :=
  (edges.foldl mergeComponents (List.range n)).dedup.length

/-- The function `Graph::is_connected`. -/
def is_connected (g : Graph) : Bool :=
  connected_components (num_vertices g.DemePairs) g.DemePairs == 1

/-! ## Writing the grid -/

/-- What is written to an output file (the text layout is not modelled). -/
inductive Written where
  | ints (v : List Int)
  | reals (M : List Point)
  | pairs (M : List (Int × Int))
deriving DecidableEq, Inhabited

/-- The function `Graph::dlmwrite_grid`: `canOpen` tells whether a file can be
opened for writing, `files` are the files written so far (oldest first). -/
def dlmwrite_grid (canOpen : String → Bool) (mcmcpath : String) (g : Graph)
    (files : List (String × Written)) : List (String × Written) × Except String Unit :=
  if !canOpen (mcmcpath ++ "/ipmap.txt") then
    (files, .error ("Cannot open " ++ mcmcpath ++ "/ipmap.txt for writing"))
  else
    let files1 := files ++ [(mcmcpath ++ "/ipmap.txt", .ints (g.indiv2deme.map (· + 1)))]
    if !canOpen (mcmcpath ++ "/demes.txt") then
      (files1, .error ("Cannot open " ++ mcmcpath ++ "/demes.txt for writing"))
    else
      let files2 := files1 ++ [(mcmcpath ++ "/demes.txt", .reals g.DemeCoord)]
      if !canOpen (mcmcpath ++ "/edges.txt") then
        (files2, .error ("Cannot open " ++ mcmcpath ++ "/edges.txt for writing"))
      else
        (files2 ++ [(mcmcpath ++ "/edges.txt",
          .pairs (g.DemePairs.map fun p => (p.1 + 1, p.2 + 1)))], .ok ())

/-! ## The triangular grid -/

/-- The chain of tests of `neighbors_in_grid` that sets the outputs `r2`, `c2`
(both `-1` when no test succeeds).  `%` is C++ remainder, `Int.tmod`. -/
def neighbor_cell (r1 c1 pos nx ny : Int) : Int × Int :=
  let alpha := r1 * nx + c1
  if pos = 0 ∧ alpha.tmod nx > 0 then (r1, c1 - 1)
  else if pos = 3 ∧ (alpha + 1).tmod nx > 0 then (r1, c1 + 1)
  else if pos = 5 ∧ r1 > 0 ∧ alpha.tmod (2 * nx) > 0 then
    (r1 - 1, c1 - (r1 + 1).tmod 2)
  else if pos = 4 ∧ r1 > 0 ∧ (alpha + 1).tmod (2 * nx) > 0 then
    (r1 - 1, c1 + 1 - (r1 + 1).tmod 2)
  else if pos = 1 ∧ r1 < ny - 1 ∧ alpha.tmod (2 * nx) > 0 then
    (r1 + 1, c1 - (r1 + 1).tmod 2)
  else if pos = 2 ∧ r1 < ny - 1 ∧ (alpha + 1).tmod (2 * nx) > 0 then
    (r1 + 1, c1 + 1 - (r1 + 1).tmod 2)
  else (-1, -1)

/-- The function `Graph::neighbors_in_grid`: the returned index `beta` and the
outputs `r2`, `c2`. -/
def neighbors_in_grid (r1 c1 pos nx ny : Int) : Int × Int × Int :=
  let rc := neighbor_cell r1 c1 pos nx ny
  let beta : Int := if rc.1 ≥ 0 ∧ rc.2 ≥ 0 then nx * rc.1 + rc.2 else -1
  (beta, rc.1, rc.2)

/-- The part of `Habitat` (declared in `habitat.hpp`) that the grid uses. -/
structure Habitat where
  xmin : ℚ
  ymin : ℚ
  xspan : ℚ
  yspan : ℚ
  area : ℚ
  in_point : ℚ → ℚ → Bool

/-- The constants of the two double loops of `make_triangular_grid`. -/
structure Lattice where
  habitat : Habitat
  xDemes : Int
  yDemes : Int
  scalex : ℚ
  scaley : ℚ

/-- The abscissa `habitat.get_xmin() + scalex*(c+0.5*(r%2))` of a lattice node. -/
def nodeX (L : Lattice) (r c : Int) : ℚ :=
  L.habitat.xmin + L.scalex * ((c : ℚ) + (1 / 2) * ((r.tmod 2 : Int) : ℚ))

/-- The ordinate `habitat.get_ymin() + scaley*r` of a lattice node. -/
def nodeY (L : Lattice) (r : Int) : ℚ := L.habitat.ymin + L.scaley * (r : ℚ)

/-- Whether the lattice node `(r,c)` falls inside the habitat. -/
def nodeIn (L : Lattice) (r c : Int) : Bool := L.habitat.in_point (nodeX L r c) (nodeY L r)

/-- The test `(alpha<beta) && habitat.in_point(x2,y2)` on the neighbour of
`(r1,c1)` at position `pos`. -/
def edgeTest (L : Lattice) (r1 c1 pos : Int) : Bool :=
  let nb := neighbors_in_grid r1 c1 pos L.xDemes L.yDemes
  decide (r1 * L.xDemes + c1 < nb.1) && nodeIn L nb.2.1 nb.2.2

/-- The variables of the first double loop of `make_triangular_grid`. -/
structure GridCount where
  newIndex : List Int
  nDemes : Int
  nEdges : Int
deriving DecidableEq, Inhabited

/-- The body of the first double loop, at the node `(r1,c1)`. -/
def countCell (L : Lattice) (st : GridCount) (r1 c1 : Int) : GridCount :=
  let alpha := r1 * L.xDemes + c1
  if nodeIn L r1 c1 then
    (List.range 6).foldl
      (fun st (pos : Nat) =>
        if edgeTest L r1 c1 pos then { st with nEdges := st.nEdges + 1 } else st)
      { newIndex := setCoeff st.newIndex alpha st.nDemes, nDemes := st.nDemes + 1,
        nEdges := st.nEdges }
  else st

/-- The first double loop: it numbers the demes and counts demes and edges. -/
def countLoop (L : Lattice) (st : GridCount) : GridCount :=
  (List.range L.yDemes.toNat).foldl
    (fun st (r1 : Nat) =>
      (List.range L.xDemes.toNat).foldl (fun st (c1 : Nat) => countCell L st r1 c1) st) st

/-- The variables of the second double loop of `make_triangular_grid`. -/
structure GridFill where
  DemeCoord : List Point
  DemePairs : List (Int × Int)
  e : Int
deriving DecidableEq, Inhabited

/-- The body of the second double loop, at the node `(r1,c1)`. -/
def fillCell (L : Lattice) (newIndex : List Int) (st : GridFill) (r1 c1 : Int) : GridFill :=
  let alpha := r1 * L.xDemes + c1
  if nodeIn L r1 c1 then
    (List.range 6).foldl
      (fun st (pos : Nat) =>
        let beta := (neighbors_in_grid r1 c1 pos L.xDemes L.yDemes).1
        if edgeTest L r1 c1 pos then
          { st with
            DemePairs := setCoeff st.DemePairs st.e (coeff newIndex alpha, coeff newIndex beta),
            e := st.e + 1 }
        else st)
      { st with
        DemeCoord := setCoeff st.DemeCoord (coeff newIndex alpha) (nodeX L r1 c1, nodeY L r1) }
  else st

/-- The second double loop: it fills in the coordinates and the edges. -/
def fillLoop (L : Lattice) (newIndex : List Int) (st : GridFill) : GridFill :=
  (List.range L.yDemes.toNat).foldl
    (fun st (r1 : Nat) =>
      (List.range L.xDemes.toNat).foldl
        (fun st (c1 : Nat) => fillCell L newIndex st r1 c1) st) st

/-- The lattice constants for given numbers of columns and rows. -/
def mkLattice (habitat : Habitat) (xDemes yDemes : Int) : Lattice :=
  { habitat := habitat, xDemes := xDemes, yDemes := yDemes,
    scalex := if xDemes > 1 then habitat.xspan / ((xDemes : ℚ) - 1 / 2) else 1,
    scaley := if yDemes > 1 then habitat.yspan / ((yDemes : ℚ) - 1) else 1 }

/-- The function `Graph::make_triangular_grid` from the point where `xDemes` and
`yDemes` are known; `resize` gives matrices of zeros. -/
def make_triangular_grid_sized (habitat : Habitat) (xDemes yDemes : Int) (g : Graph) : Graph :=
  let L := mkLattice habitat xDemes yDemes
  let cnt := countLoop L
    { newIndex := List.replicate (xDemes * yDemes).toNat (-1), nDemes := 0, nEdges := 0 }
  let fill := fillLoop L cnt.newIndex
    { DemeCoord := List.replicate cnt.nDemes.toNat (0, 0),
      DemePairs := List.replicate cnt.nEdges.toNat (0, 0), e := 0 }
  { g with DemeCoord := fill.DemeCoord, DemePairs := fill.DemePairs }

/-- The conversion `(int)sqrt(q)` in exact arithmetic (zero for a negative `q`). -/
def intSqrt (q : ℚ) : Int := (Nat.sqrt ⌊q⌋.toNat : Nat)

/-- The function `Graph::make_triangular_grid`. -/
def make_triangular_grid (habitat : Habitat) (nDemeDensity : Int) (g : Graph) : Graph :=
  let xDemes := intSqrt ((nDemeDensity : ℚ) * habitat.xspan * habitat.xspan / habitat.area)
  let yDemes := intSqrt ((nDemeDensity : ℚ) * habitat.yspan * habitat.yspan / habitat.area)
  make_triangular_grid_sized habitat xDemes yDemes g

/-! ## Reading a grid -/

/-- The test of the duplicate removal: rows `a` and `b` hold the same pair, in
the same or in the opposite order. -/
def sameEdge (a b : ℚ × ℚ) : Bool :=
  (a.1 == b.1 && a.2 == b.2) || (a.1 == b.2 && a.2 == b.1)

/-- Modelled from the spec: `removeRow(M,r)` (declared in `util.hpp`) deletes
row `r` and shifts the later rows up. -/
def removeRow (M : List (ℚ × ℚ)) (r : Nat) : List (ℚ × ℚ) := M.eraseIdx r

/-- One pass of the inner loop of the duplicate removal: it reads rows `e2` and
`e1` of the current table; reading a row the table does not have is undefined
and ends the run (`none`). -/
def dedupInner (e2 : Nat) (tempi : Option (List (ℚ × ℚ))) (e1 : Nat) :
    Option (List (ℚ × ℚ)) :=
  tempi.bind fun t =>
    match t[e2]?, t[e1]? with
    | some a, some b => if sameEdge a b then some (removeRow t e2) else some t
    | _, _ => none

/-- The double loop of the duplicate removal: `e2` runs from `nEdges-1` down to
`1`, and `e1` from `0` to `e2-1`. -/
def dedupLoop (tempi : List (ℚ × ℚ)) : Option (List (ℚ × ℚ)) :=
  ((List.range' 1 (tempi.length - 1)).reverse).foldl
    (fun t e2 => (List.range e2).foldl (dedupInner e2) t) (some tempi)

/-- The conversion `cast<int>()` of a coefficient: truncation towards zero. -/
def castInt (q : ℚ) : Int := if 0 ≤ q then ⌊q⌋ else ⌈q⌉

/-- The message of the embedding for a coefficient read outside of a matrix. -/
def outsideMatrix : String := "coefficient access outside of the matrix"

/-- The message of the range check of `read_input_grid`. -/
def notInRange : String :=
  "Check that .edges is a list of two indices per row, in the range [0,nDemes)."

/-- The function `Graph::read_input_grid`: `demes` and `edges` are the tables
read from `gridpath + ".demes"` and `gridpath + ".edges"`; the result is the
pair `DemeCoord`, `DemePairs`. -/
def read_input_grid (demes edges : Table) : Except String (List Point × List (Int × Int)) := do
  let DemeCoord := demes.rows.map rowPoint
  check_condition (decide (demes.cols = 2))
    "Check that .demes is a list of demes, two coordinates per row."
  check_condition (decide (edges.cols = 2))
    "Check that .edges is a list of connected demes, one pair per row."
  match dedupLoop (edges.rows.map rowPoint) with
  | none => .error outsideMatrix
  | some tempi =>
    let DemePairs : List (Int × Int) := tempi.map fun p => (castInt p.1 - 1, castInt p.2 - 1)
    match inRange (coeffs DemePairs) (DemeCoord.length : Int) with
    | none => .error "minCoeff of an empty matrix"
    | some c =>
      check_condition c notInRange
      pure (DemeCoord, DemePairs)

/-! ## Building the graph -/

/-- The first step of `generate_grid`: the grid is generated when `gridpath` is
empty and read from `gridpath + ".demes"`, `gridpath + ".edges"` otherwise. -/
def build_grid (readMatrixXd : String → Table) (gridpath : String) (habitat : Habitat)
    (nDemeDensity : Int) (g : Graph) : Except String Graph :=
  if gridpath.isEmpty then .ok (make_triangular_grid habitat nDemeDensity g)
  else
    match read_input_grid (readMatrixXd (gridpath ++ ".demes"))
        (readMatrixXd (gridpath ++ ".edges")) with
    | .ok (DemeCoord, DemePairs) => .ok { g with DemeCoord := DemeCoord, DemePairs := DemePairs }
    | .error msg => .error msg

/-- The message of the connectivity check of `generate_grid`. -/
def notConnected : String := "The population grid is not connected."

/-- The function `Graph::generate_grid`.  `readMatrixXd` gives the table stored
under a path and `canOpen` tells which files can be written; the result is the
list of the files written during the run and the graph, or the message of the
check that ended the run. -/
def generate_grid {δ : Type} [LinearOrder δ] (dist : Point → Point → δ)
    (readMatrixXd : String → Table) (canOpen : String → Bool)
    (datapath gridpath mcmcpath : String) (habitat : Habitat) (nDemeDensity nIndiv : Int)
    (g : Graph) : List (String × Written) × Except String Graph :=
  match build_grid readMatrixXd gridpath habitat nDemeDensity g with
  | .error msg => ([], .error msg)
  | .ok g1 =>
    match map_indiv_to_deme dist (readMatrixXd (datapath ++ ".coord")) nIndiv g1 with
    | .error msg => ([], .error msg)
    | .ok g2 =>
      match dlmwrite_grid canOpen mcmcpath g2 [] with
      | (files, .error msg) => (files, .error msg)
      | (files, .ok ()) =>
        if is_connected g2 then (files, reindex_demes g2)
        else (files, .error notConnected)

/-! ## The index found by `minCoeff` -/

/-- The first index of a minimum of a list: what `minCoeff(&index)` computes. -/
def IsFirstMin {δ : Type} [LinearOrder δ] (l : List δ) (m : δ) (k : Nat) : Prop :=
  l[k]? = some m ∧ (∀ (u : Nat) (x : δ), l[u]? = some x → m ≤ x) ∧
    (∀ (u : Nat) (x : δ), u < k → l[u]? = some x → m < x)

/-! ## Inputs used to instantiate the theorems -/

/-- Four demes on a line, joined in a path, with four samples. -/
def lineGraph : Graph :=
  { DemeCoord := [(0, 0), (1, 0), (2, 0), (3, 0)], DemePairs := [(0, 1), (1, 2), (2, 3)],
    indiv2deme := [2, 0, 2, 3], DemeSizes := [] }

/-- Three sample locations, two coordinates per row. -/
def lineSamples : Table := { cols := 2, rows := [[1 / 2, 0], [6 / 5, 3], [9, 9]] }

/-! ## Specification predicates for `reindex_demes` -/

/-- Sample `s` is the first sample (lowest sample index) assigned to deme `a`. -/
def IsFirstSample (indiv2deme : List Int) (a : Int) (s : Nat) : Prop :=
  s < indiv2deme.length ∧ indiv2deme.getD s 0 = a ∧ ∀ t, t < s → indiv2deme.getD t 0 ≠ a

/-- The invariant of the first loop of `reindex_demes` before sample `i` is
processed: `xs` is the sample assignment on entry and `n` the number of demes. -/
structure ObsInv (xs : List Int) (n i : Nat) (st : ReindexState) : Prop where
  len_new : st.newIndex.length = n
  len_smp : st.indiv2deme.length = xs.length
  o_nonneg : 0 ≤ st.oDemes
  rest : ∀ s, i ≤ s → st.indiv2deme.getD s 0 = xs.getD s 0
  done : ∀ s, s < i → st.indiv2deme.getD s 0 = st.newIndex.getD (xs.getD s 0).toNat 0
  range : ∀ a, a < n →
    st.newIndex.getD a 0 = -1 ∨ (0 ≤ st.newIndex.getD a 0 ∧ st.newIndex.getD a 0 < st.oDemes)
  seen : ∀ a, a < n → (st.newIndex.getD a 0 ≠ -1 ↔ ∃ s, s < i ∧ xs.getD s 0 = (a : Int))
  onto : ∀ k : Int, 0 ≤ k → k < st.oDemes → ∃ a, a < n ∧ st.newIndex.getD a 0 = k
  inj : ∀ a b, a < n → b < n → st.newIndex.getD a 0 ≠ -1 →
    st.newIndex.getD a 0 = st.newIndex.getD b 0 → a = b
  order : ∀ a b sa sb, a < n → b < n → IsFirstSample xs (a : Int) sa →
    IsFirstSample xs (b : Int) sb → sa < i → sb < i →
    (st.newIndex.getD a 0 < st.newIndex.getD b 0 ↔ sa < sb)

/-- The invariant of the loop of `reindex_demes` that numbers the unobserved
demes, before deme `i` is processed: `ni1` and `o1` are `newIndex` and `oDemes`
on entry. -/
structure UnobsInv (ni1 : List Int) (o1 : Int) (n i : Nat) (st : List Int × Int) : Prop where
  len : st.1.length = n
  o_le : o1 ≤ st.2
  keep : ∀ a, a < n → ni1.getD a 0 ≠ -1 → st.1.getD a 0 = ni1.getD a 0
  rest : ∀ a, i ≤ a → st.1.getD a 0 = ni1.getD a 0
  fresh : ∀ a, a < i → ni1.getD a 0 = -1 → o1 ≤ st.1.getD a 0 ∧ st.1.getD a 0 < st.2
  onto : ∀ k : Int, o1 ≤ k → k < st.2 → ∃ a, a < i ∧ ni1.getD a 0 = -1 ∧ st.1.getD a 0 = k
  order : ∀ a b, a < b → b < i → ni1.getD a 0 = -1 → ni1.getD b 0 = -1 →
    st.1.getD a 0 < st.1.getD b 0

/-- The line graph after `reindex_demes`. -/
def lineGraphReindexed : Graph :=
  { DemeCoord := [(2, 0), (0, 0), (3, 0), (1, 0)], DemePairs := [(1, 3), (3, 0), (0, 2)],
    indiv2deme := [0, 1, 0, 2], DemeSizes := [2, 1, 1] }

/-! ## Connectivity of the whole lattice -/

/-- Two demes are joined by a row of `DemePairs`, in either orientation. -/
def Adjacent (g : Graph) (a b : Int) : Prop := (a, b) ∈ g.DemePairs ∨ (b, a) ∈ g.DemePairs

/-- The undirected graph on all the demes `0 .. nDemes-1` whose edges are the
rows of `DemePairs` is a single connected component: any two demes are joined
by a path. -/
def SpansAllDemes (g : Graph) : Prop :=
  ∀ a b : Int, 0 ≤ a → a < g.get_num_total_demes → 0 ≤ b → b < g.get_num_total_demes →
    Relation.ReflTransGen (Adjacent g) a b

deriving instance DecidableEq for Except

/-- A stored grid of three demes on a line whose only edge joins the first two
demes, and two sample locations. -/
def trailingStore (path : String) : Table :=
  if path = "grid.demes" then { cols := 2, rows := [[0, 0], [1, 0], [2, 0]] }
  else if path = "grid.edges" then { cols := 2, rows := [[1, 2]] }
  else if path = "data.coord" then { cols := 2, rows := [[0, 0], [1, 0]] }
  else { cols := 0, rows := [] }

/-- The graph read from `trailingStore`, with its samples assigned. -/
def trailingGraph : Graph :=
  { DemeCoord := [(0, 0), (1, 0), (2, 0)], DemePairs := [(0, 1)], indiv2deme := [0, 1],
    DemeSizes := [] }

/-- A stored grid of four demes in two components, and two sample locations. -/
def splitStore (path : String) : Table :=
  if path = "grid.demes" then { cols := 2, rows := [[0, 0], [1, 0], [0, 1], [1, 1]] }
  else if path = "grid.edges" then { cols := 2, rows := [[1, 2], [3, 4]] }
  else if path = "data.coord" then { cols := 2, rows := [[0, 0], [1, 1]] }
  else { cols := 0, rows := [] }

/-- The unit square as a habitat. -/
def unitSquare : Habitat :=
  { xmin := 0, ymin := 0, xspan := 1, yspan := 1, area := 1,
    in_point := fun x y => decide (0 ≤ x ∧ x ≤ 1 ∧ 0 ≤ y ∧ y ≤ 1) }

/-- A graph object before `generate_grid`. -/
def emptyGraph : Graph := { DemeCoord := [], DemePairs := [], indiv2deme := [], DemeSizes := [] }

/-! ## Specification of the triangular grid by raw lattice index -/

/-- The number of columns the loops of `make_triangular_grid` run over. -/
def Lattice.cols (L : Lattice) : Nat := L.xDemes.toNat

/-- The number of rows the loops of `make_triangular_grid` run over. -/
def Lattice.rows (L : Lattice) : Nat := L.yDemes.toNat

/-- Whether the lattice node of raw index `k` (row `k / cols`, column
`k % cols`) falls inside the habitat. -/
def rawIn (L : Lattice) (k : Nat) : Bool :=
  nodeIn L ((k / L.cols : Nat) : Int) ((k % L.cols : Nat) : Int)

/-- The number of lattice nodes inside the habitat among the raw indices below
`m`: the deme index that the node of raw index `m` receives. -/
def rank (L : Lattice) (m : Nat) : Nat := ((List.range m).filter (rawIn L)).length

/-- The coordinates of the lattice node of raw index `k`. -/
def rawPoint (L : Lattice) (k : Nat) : Point :=
  (nodeX L ((k / L.cols : Nat) : Int) ((k % L.cols : Nat) : Int),
    nodeY L ((k / L.cols : Nat) : Int))

/-- The index returned by `neighbors_in_grid` for the node of raw index `k`. -/
def rawBeta (L : Lattice) (k pos : Nat) : Int :=
  (neighbors_in_grid ((k / L.cols : Nat) : Int) ((k % L.cols : Nat) : Int) (pos : Int)
    L.xDemes L.yDemes).1

/-- The edge test at the node of raw index `k` and position `pos`. -/
def rawTest (L : Lattice) (k pos : Nat) : Bool :=
  edgeTest L ((k / L.cols : Nat) : Int) ((k % L.cols : Nat) : Int) (pos : Int)

/-- The rows of `DemePairs` written at the node of raw index `k`. -/
def rowsOf (L : Lattice) (newIndex : List Int) (k : Nat) : List (Int × Int) :=
  if rawIn L k then
    ((List.range 6).filter (rawTest L k)).map fun pos =>
      (coeff newIndex (k : Int), coeff newIndex (rawBeta L k pos))
  else []

/-- The rows of `DemePairs` written at the nodes of raw index below `m`. -/
def rowsUpTo (L : Lattice) (newIndex : List Int) (m : Nat) : List (Int × Int) :=
  (List.range m).flatMap (rowsOf L newIndex)

/-- The invariant of the first double loop of `make_triangular_grid` before the
node of raw index `m`; `N` is the size of `newIndex`. -/
structure CountInv (L : Lattice) (N m : Nat) (st : GridCount) : Prop where
  len : st.newIndex.length = N
  demes : st.nDemes = (rank L m : Int)
  edges : st.nEdges = ((rowsUpTo L [] m).length : Int)
  index : ∀ k, k < m → rawIn L k = true → st.newIndex.getD k 0 = (rank L k : Int)

/-- The invariant of the second double loop of `make_triangular_grid` before the
node of raw index `m`. -/
structure FillInv (L : Lattice) (newIndex : List Int) (nD nE m : Nat) (st : GridFill) :
    Prop where
  len_coord : st.DemeCoord.length = nD
  len_pairs : st.DemePairs.length = nE
  count : st.e = ((rowsUpTo L newIndex m).length : Int)
  coord : ∀ k, k < m → rawIn L k = true → st.DemeCoord.getD (rank L k) default = rawPoint L k
  pairs : ∀ j, j < (rowsUpTo L newIndex m).length →
    st.DemePairs.getD j default = (rowsUpTo L newIndex m).getD j default

/-- Two rows of an edge table denote the same unordered pair of demes. -/
def SamePair (p q : Int × Int) : Prop := (p.1 = q.1 ∧ p.2 = q.2) ∨ (p.1 = q.2 ∧ p.2 = q.1)

/-- The edge table of a graph has no two rows that denote the same unordered
pair, and both endpoints of every row are demes whose coordinates lie inside
the habitat. -/
def EdgesDistinctInside (habitat : Habitat) (g : Graph) : Prop :=
  (∀ i j, i < j → j < g.DemePairs.length →
    ¬ SamePair (g.DemePairs.getD i default) (g.DemePairs.getD j default)) ∧
  ∀ p, p ∈ g.DemePairs →
    (0 ≤ p.1 ∧ p.1 < g.get_num_total_demes ∧
      habitat.in_point (coeff g.DemeCoord p.1).1 (coeff g.DemeCoord p.1).2 = true) ∧
    (0 ≤ p.2 ∧ p.2 < g.get_num_total_demes ∧
      habitat.in_point (coeff g.DemeCoord p.2).1 (coeff g.DemeCoord p.2).2 = true)

/-- A stored deme table with three demes. -/
def threeDemes : Table := { cols := 2, rows := [[0, 0], [1, 0], [2, 0]] }

/-- A stored edge table whose last row repeats the first one; every index lies
in `[1, 3]`. -/
def repeatedEdges : Table := { cols := 2, rows := [[1, 2], [2, 3], [1, 2]] }

/-! ## Specification predicates for the duplicate removal -/

/-- The invariant of the inner loop of the duplicate removal, in the pass for
row `e2`, before row `e1` is compared: `t0` is the table read from the file.
The rows above `e2` differ from all the rows before them, the table holds the
same unordered pairs as `t0`, and row `e2` differs from the rows below `e1`. -/
structure DedupInv (t0 : List (ℚ × ℚ)) (e2 e1 : Nat) (t : List (ℚ × ℚ)) : Prop where
  above : ∀ (i j : Nat) (a b : ℚ × ℚ), i < j → e2 < j → t[i]? = some a → t[j]? = some b →
    sameEdge a b = false
  pairs : ∀ p : ℚ × ℚ, (∃ q, q ∈ t0 ∧ sameEdge p q = true) ↔ (∃ q, q ∈ t ∧ sameEdge p q = true)
  below : ∀ (i : Nat) (a b : ℚ × ℚ), i < e1 → t[e2]? = some a → t[i]? = some b →
    sameEdge a b = false

/-- The invariant of the duplicate removal on the state of the loops, which is
a table or the end of the run. -/
def DedupState (t0 : List (ℚ × ℚ)) (e2 e1 : Nat) : Option (List (ℚ × ℚ)) → Prop
  | none => True
  | some t => DedupInv t0 e2 e1 t

/-- Both coefficients of a row of an edge table are indices in `[1, nDemes]`. -/
def InIndexRange (nDemes : Nat) (p : ℚ × ℚ) : Prop :=
  (1 ≤ p.1 ∧ p.1 ≤ (nDemes : ℚ)) ∧ (1 ≤ p.2 ∧ p.2 ≤ (nDemes : ℚ))

/-- Both coefficients of a row of an edge table are integers. -/
def IsIntRow (p : ℚ × ℚ) : Prop := ∃ a b : Int, p = ((a : ℚ), (b : ℚ))

/-- Every row `e` of the edge table satisfies
`0 <= DemePairs(e,0) < DemePairs(e,1) < nDemes`. -/
def EdgesOrdered (g : Graph) : Prop :=
  ∀ e : Nat, e < g.DemePairs.length →
    0 ≤ (coeff g.DemePairs (e : Int)).1 ∧
    (coeff g.DemePairs (e : Int)).1 < (coeff g.DemePairs (e : Int)).2 ∧
    (coeff g.DemePairs (e : Int)).2 < g.get_num_total_demes

/-- A habitat whose bounding rectangle is `[1,5] x [2,8]`. -/
def wideHabitat : Habitat :=
  { xmin := 1, ymin := 2, xspan := 4, yspan := 6, area := 24, in_point := fun _ _ => true }

/-- The lattice nodes of raw indices `k` and `j` are neighbours: one of them is
returned by `neighbors_in_grid` for the other at some position 0 to 5. -/
def RawNeighbours (L : Lattice) (k j : Nat) : Prop :=
  ∃ pos : Nat, pos < 6 ∧ (rawBeta L k pos = (j : Int) ∨ rawBeta L j pos = (k : Int))

/-- The coordinates of the lattice nodes inside the habitat, in the order of
their raw indices, and the pairs of demes whose nodes are neighbours inside
the habitat: the sub-lattice induced by the habitat. -/
def IsInducedSublattice (L : Lattice) (g : Graph) : Prop :=
  g.DemeCoord = ((List.range (L.rows * L.cols)).filter (rawIn L)).map (rawPoint L) ∧
  ∀ a b : Int, Adjacent g a b ↔
    ∃ k j : Nat, k < L.rows * L.cols ∧ j < L.rows * L.cols ∧
      rawIn L k = true ∧ rawIn L j = true ∧ RawNeighbours L k j ∧
      a = (rank L k : Int) ∧ b = (rank L j : Int)

/-- The map `pi` sends `[0,n)` one-to-one onto itself. -/
def IsPermutation (n : Nat) (pi : Int → Int) : Prop :=
  (∀ i : Int, 0 ≤ i → i < (n : Int) → 0 ≤ pi i ∧ pi i < (n : Int)) ∧
  (∀ i j : Int, 0 ≤ i → i < (n : Int) → 0 ≤ j → j < (n : Int) → pi i = pi j → i = j) ∧
  ∀ k : Int, 0 ≤ k → k < (n : Int) → ∃ i : Int, 0 ≤ i ∧ i < (n : Int) ∧ pi i = k

/-- The deme indices of the samples are in order of first appearance: every
index is at least zero, and every index below the one of sample `s` is the
index of an earlier sample. -/
def Canonical (ys : List Int) : Prop :=
  ∀ s, s < ys.length → 0 ≤ ys.getD s 0 ∧
    ∀ k : Int, 0 ≤ k → k < ys.getD s 0 → ∃ t, t < s ∧ ys.getD t 0 = k

/-! # Properties of the embedding -/

theorem minVisit_spec {δ : Type} [LinearOrder δ] (vs : List δ) :
    ∀ (pre : List δ) (res : δ) (idx : Nat), IsFirstMin pre res idx →
      IsFirstMin (pre ++ vs) (minVisit res idx pre.length vs).1
        (minVisit res idx pre.length vs).2 := by
  induction vs with
  | nil => intro pre res idx h; simpa [minVisit] using h
  | cons v vs ih =>
    intro pre res idx h
    obtain ⟨h1, h2, h3⟩ := h
    have hidx : idx < pre.length := by
      by_contra hc
      rw [List.getElem?_eq_none (by omega)] at h1
      exact absurd h1 (by simp)
    have key : pre ++ v :: vs = (pre ++ [v]) ++ vs := by simp
    have hlen : (pre ++ [v]).length = pre.length + 1 := by simp
    unfold minVisit
    split
    · rename_i hlt
      rw [key, ← hlen]
      apply ih
      refine ⟨by simp, ?_, ?_⟩
      · intro u x hu
        rcases Nat.lt_or_ge u pre.length with hul | hul
        · rw [List.getElem?_append_left hul] at hu
          exact le_of_lt (lt_of_lt_of_le hlt (h2 u x hu))
        · rw [List.getElem?_append_right hul] at hu
          have : u - pre.length = 0 := by
            by_contra hne
            rw [List.getElem?_eq_none (by simp; omega)] at hu
            exact absurd hu (by simp)
          rw [this] at hu
          simp at hu
          exact le_of_eq hu
      · intro u x hu hx
        rw [List.getElem?_append_left hu] at hx
        exact lt_of_lt_of_le hlt (h2 u x hx)
    · rename_i hnlt
      rw [key, ← hlen]
      apply ih
      refine ⟨?_, ?_, ?_⟩
      · rw [List.getElem?_append_left hidx]; exact h1
      · intro u x hu
        rcases Nat.lt_or_ge u pre.length with hul | hul
        · rw [List.getElem?_append_left hul] at hu
          exact h2 u x hu
        · rw [List.getElem?_append_right hul] at hu
          have : u - pre.length = 0 := by
            by_contra hne
            rw [List.getElem?_eq_none (by simp; omega)] at hu
            exact absurd hu (by simp)
          rw [this] at hu
          simp at hu
          rw [← hu]; exact not_lt.mp hnlt
      · intro u x hu hx
        rw [List.getElem?_append_left (by omega)] at hx
        exact h3 u x hu hx

theorem minCoeff_spec {δ : Type} [LinearOrder δ] (l : List δ) (m : δ) (k : Nat)
    (h : minCoeff l = some (m, k)) : IsFirstMin l m k := by
  cases l with
  | nil => simp [minCoeff] at h
  | cons v vs =>
    simp only [minCoeff, Option.some.injEq] at h
    have := minVisit_spec vs [v] v 0 ⟨by simp, by
      intro u x hu
      cases u with
      | zero => simp at hu; exact le_of_eq hu
      | succ n => simp at hu, by intro u x hu; omega⟩
    simp only [List.length_singleton, List.singleton_append] at this
    rw [h] at this
    exact this

theorem IsFirstMin_unique {δ : Type} [LinearOrder δ] (l : List δ) (m m' : δ) (k k' : Nat)
    (h : IsFirstMin l m k) (h' : IsFirstMin l m' k') : m = m' ∧ k = k' := by
  obtain ⟨a1, a2, a3⟩ := h
  obtain ⟨b1, b2, b3⟩ := h'
  have hk : k = k' := by
    rcases Nat.lt_trichotomy k k' with hlt | heq | hgt
    · exact absurd (a2 k' m' b1) (not_le.mpr (b3 k m hlt a1))
    · exact heq
    · exact absurd (b2 k m a1) (not_le.mpr (a3 k' m' hgt b1))
  subst hk
  rw [a1] at b1
  exact ⟨Option.some.inj b1, rfl⟩

theorem minCoeff_isSome {δ : Type} [LinearOrder δ] (l : List δ) (h : l ≠ []) :
    ∃ r, minCoeff l = some r := by
  cases l with
  | nil => exact absurd rfl h
  | cons v vs => exact ⟨_, rfl⟩

theorem IsFirstMin_map {α δ : Type} [LinearOrder δ] (l : List α) (f : α → δ) (d : α) (m : δ)
    (k : Nat) : IsFirstMin (l.map f) m k ↔
      (k < l.length ∧ m = f (l.getD k d) ∧ (∀ u, u < l.length → f (l.getD k d) ≤ f (l.getD u d)) ∧
        ∀ u, u < k → f (l.getD k d) < f (l.getD u d)) := by
  have hget : ∀ (u : Nat) (x : δ), (l.map f)[u]? = some x ↔ (u < l.length ∧ x = f (l.getD u d)) := by
    intro u x
    rcases Nat.lt_or_ge u l.length with hu | hu
    · simp [List.getD_eq_getElem?_getD, List.getElem?_eq_getElem hu, hu, eq_comm]
    · simp [List.getElem?_eq_none, hu, Nat.not_lt.mpr hu]
  constructor
  · rintro ⟨h1, h2, h3⟩
    obtain ⟨hk, hm⟩ := (hget k m).mp h1
    refine ⟨hk, hm, ?_, ?_⟩
    · intro u hu
      rw [← hm]
      exact h2 u _ ((hget u _).mpr ⟨hu, rfl⟩)
    · intro u hu
      rw [← hm]
      exact h3 u _ hu ((hget u _).mpr ⟨by omega, rfl⟩)
  · rintro ⟨hk, hm, h2, h3⟩
    refine ⟨(hget k m).mpr ⟨hk, hm⟩, ?_, ?_⟩
    · intro u x hx
      obtain ⟨hu, rfl⟩ := (hget u x).mp hx
      rw [hm]; exact h2 u hu
    · intro u x hu hx
      obtain ⟨_, rfl⟩ := (hget u x).mp hx
      rw [hm]; exact h3 u hu

theorem argminLoop_spec {δ : Type} [LinearOrder δ] (col : Nat → List δ) (n : Nat)
    (v0 : List Int) (hlen : v0.length = n) (hne : ∀ i, i < n → col i ≠ []) :
    ∃ v, argminLoop col n v0 = some v ∧ v.length = n ∧
      ∀ i, i < n → ∃ m k, minCoeff (col i) = some (m, k) ∧ v.getD i 0 = (k : Int) := by
  have main : ∀ j, j ≤ n → ∃ v, argminLoop col j v0 = some v ∧ v.length = n ∧
      ∀ i, i < j → ∃ m k, minCoeff (col i) = some (m, k) ∧ v.getD i 0 = (k : Int) := by
    intro j
    induction j with
    | zero => intro _; exact ⟨v0, rfl, hlen, fun i hi => absurd hi (Nat.not_lt_zero i)⟩
    | succ j ih =>
      intro hj
      obtain ⟨v, hv, hvl, hvi⟩ := ih (by omega)
      obtain ⟨⟨m, k⟩, hmk⟩ := minCoeff_isSome (col j) (hne j (by omega))
      refine ⟨v.set j (k : Int), ?_, by simpa using hvl, ?_⟩
      · unfold argminLoop at hv ⊢
        rw [List.range_succ, List.foldl_append, hv]
        simp [hmk]
      · intro i hi
        rcases Nat.lt_or_ge i j with hij | hij
        · obtain ⟨m', k', h1, h2⟩ := hvi i hij
          refine ⟨m', k', h1, ?_⟩
          rw [List.getD_eq_getElem?_getD, List.getElem?_set_ne (by omega),
            ← List.getD_eq_getElem?_getD]
          exact h2
        · have : i = j := by omega
          subst this
          refine ⟨m, k, hmk, ?_⟩
          rw [List.getD_eq_getElem?_getD, List.getElem?_set_self (by omega)]
          rfl
  exact main n (le_refl n)

theorem coeff_natCast (v : List Int) (i : Nat) : coeff v (i : Int) = v.getD i 0 := by
  simp [coeff]

theorem list_eq_of_getD (v w : List Int) (n : Nat) (hv : v.length = n) (hw : w.length = n)
    (h : ∀ i, i < n → v.getD i 0 = w.getD i 0) : v = w := by
  apply List.ext_getElem (by omega)
  intro i h1 h2
  have := h i (by omega)
  rw [List.getD_eq_getElem?_getD, List.getD_eq_getElem?_getD, List.getElem?_eq_getElem h1,
    List.getElem?_eq_getElem h2] at this
  simpa using this

/-- The vector computed by `argminLoop` does not depend on the initial vector. -/
theorem argminLoop_indep {δ : Type} [LinearOrder δ] (col : Nat → List δ) (n : Nat)
    (v0 w0 : List Int) (hv : v0.length = n) (hw : w0.length = n)
    (hne : ∀ i, i < n → col i ≠ []) : argminLoop col n v0 = argminLoop col n w0 := by
  obtain ⟨v, h1, h2, h3⟩ := argminLoop_spec col n v0 hv hne
  obtain ⟨w, k1, k2, k3⟩ := argminLoop_spec col n w0 hw hne
  rw [h1, k1]
  congr 1
  apply list_eq_of_getD v w n h2 k2
  intro i hi
  obtain ⟨m, k, a1, a2⟩ := h3 i hi
  obtain ⟨m', k', b1, b2⟩ := k3 i hi
  rw [a1] at b1
  cases b1
  rw [a2, b2]

/-- The entries computed by `argminLoop` over the columns `fun i => l.map (f i)`:
entry `i` is the first index at which `f i` is least on `l`. -/
theorem argminLoop_nearest {α δ : Type} [LinearOrder δ] (l : List α) (d : α)
    (f : Nat → α → δ) (n : Nat) (v0 : List Int) (hlen : v0.length = n) (hl : l ≠ []) :
    ∃ v, argminLoop (fun i => l.map (f i)) n v0 = some v ∧ v.length = n ∧
      ∀ i, i < n → ∃ k : Nat, v.getD i 0 = (k : Int) ∧ k < l.length ∧
        (∀ u, u < l.length → f i (l.getD k d) ≤ f i (l.getD u d)) ∧
        (∀ u, u < k → f i (l.getD k d) < f i (l.getD u d)) ∧
        (∀ a, a < l.length → (∀ u, u < l.length → f i (l.getD a d) ≤ f i (l.getD u d)) →
          (∀ u, u < a → f i (l.getD a d) < f i (l.getD u d)) → a = k) := by
  obtain ⟨v, h1, h2, h3⟩ := argminLoop_spec (fun i => l.map (f i)) n v0 hlen
    (fun i _ => by simpa using hl)
  refine ⟨v, h1, h2, ?_⟩
  intro i hi
  obtain ⟨m, k, a1, a2⟩ := h3 i hi
  have hmin := minCoeff_spec _ _ _ a1
  obtain ⟨b1, b2, b3, b4⟩ := (IsFirstMin_map l (f i) d m k).mp hmin
  refine ⟨k, a2, b1, b3, b4, ?_⟩
  intro a ha c1 c2
  have hmin' : IsFirstMin (l.map (f i)) (f i (l.getD a d)) a :=
    (IsFirstMin_map l (f i) d _ a).mpr ⟨ha, rfl, c1, c2⟩
  exact (IsFirstMin_unique _ _ _ _ _ hmin' hmin).2

/-- C7: for a deme table with at least one row and a sample table with `nIndiv`
rows of two coordinates, `map_indiv_to_deme` succeeds and sets `indiv2deme(i)`,
for every sample `i`, to the unique deme index `alpha` whose distance to the
sample is at most the distance of every deme and strictly below the distance
of every deme of lower index; the assignment is the same for every graph
object with the same deme table. -/
theorem map_indiv_to_deme_nearest {δ : Type} [LinearOrder δ] (dist : Point → Point → δ)
    (coord : Table) (nIndiv : Int) (g : Graph)
    (hrows : (coord.rows.length : Int) = nIndiv) (hcols : coord.cols = 2)
    (hdemes : g.DemeCoord ≠ []) :
    ∃ g', map_indiv_to_deme dist coord nIndiv g = .ok g' ∧
      g'.DemeCoord = g.DemeCoord ∧
      g'.indiv2deme.length = coord.rows.length ∧
      (∀ i, i < coord.rows.length → ∃ alpha : Nat,
        coeff g'.indiv2deme (i : Int) = (alpha : Int) ∧ alpha < g.DemeCoord.length ∧
        (∀ u, u < g.DemeCoord.length →
          dist (g.DemeCoord.getD alpha default) (rowPoint (coord.rows.getD i default)) ≤
            dist (g.DemeCoord.getD u default) (rowPoint (coord.rows.getD i default))) ∧
        (∀ u, u < alpha →
          dist (g.DemeCoord.getD alpha default) (rowPoint (coord.rows.getD i default)) <
            dist (g.DemeCoord.getD u default) (rowPoint (coord.rows.getD i default))) ∧
        (∀ a, a < g.DemeCoord.length →
          (∀ u, u < g.DemeCoord.length →
            dist (g.DemeCoord.getD a default) (rowPoint (coord.rows.getD i default)) ≤
              dist (g.DemeCoord.getD u default) (rowPoint (coord.rows.getD i default))) →
          (∀ u, u < a →
            dist (g.DemeCoord.getD a default) (rowPoint (coord.rows.getD i default)) <
              dist (g.DemeCoord.getD u default) (rowPoint (coord.rows.getD i default))) →
          a = alpha)) ∧
      (∀ g2 : Graph, g2.DemeCoord = g.DemeCoord →
        ∃ g2', map_indiv_to_deme dist coord nIndiv g2 = .ok g2' ∧
          g2'.indiv2deme = g'.indiv2deme) := by
  have hn : nIndiv.toNat = coord.rows.length := by omega
  have hinit : ∀ h : Graph, (if h.indiv2deme.length ≠ nIndiv.toNat then
      List.replicate nIndiv.toNat (0 : Int) else h.indiv2deme).length = nIndiv.toNat := by
    intro h
    split
    · simp
    · rename_i hh; simpa using hh
  obtain ⟨v, h1, h2, h3⟩ := argminLoop_nearest g.DemeCoord default
    (fun i d => dist d (rowPoint (coord.rows.getD i default))) nIndiv.toNat _ (hinit g) hdemes
  have hrun : ∀ h : Graph, h.DemeCoord = g.DemeCoord →
      map_indiv_to_deme dist coord nIndiv h = .ok { h with indiv2deme := v } := by
    intro h hh
    have e := argminLoop_indep
      (fun i => g.DemeCoord.map fun d => dist d (rowPoint (coord.rows.getD i default)))
      nIndiv.toNat _ _ (hinit h) (hinit g) (fun i _ => by simpa using hdemes)
    rw [h1] at e
    unfold map_indiv_to_deme
    simp only [hrows, hcols, decide_True, Bool.and_self, check_condition, hh]
    simp only [ite_true, bind, Except.bind]
    rw [e]
    rfl
  refine ⟨{ g with indiv2deme := v }, hrun g rfl, rfl, by simpa [hn] using h2, ?_, ?_⟩
  · intro i hi
    obtain ⟨k, a1, a2, a3, a4, a5⟩ := h3 i (by omega)
    exact ⟨k, by rw [coeff_natCast]; exact a1, a2, a3, a4, a5⟩
  · intro g2 hg2
    exact ⟨_, hrun g2 hg2, rfl⟩

/-- An instance of C7: three samples on the line graph, with the squared
Euclidean distance; the first sample is as far from deme 0 as from deme 1 and
goes to deme 0. -/
theorem map_indiv_to_deme_nearest_witness :
    ((lineSamples.rows.length : Int) = 3 ∧ lineSamples.cols = 2 ∧ lineGraph.DemeCoord ≠ []) ∧
    (∃ g', map_indiv_to_deme euclidean_sq lineSamples 3 lineGraph = .ok g' ∧
      g'.indiv2deme.length = lineSamples.rows.length) ∧
    map_indiv_to_deme euclidean_sq lineSamples 3 lineGraph =
      .ok { lineGraph with indiv2deme := [0, 1, 3] } :=
  ⟨⟨rfl, rfl, List.cons_ne_nil _ _⟩,
    (map_indiv_to_deme_nearest euclidean_sq lineSamples 3 lineGraph rfl rfl
      (List.cons_ne_nil _ _)).imp fun _ h => ⟨h.1, h.2.2.1⟩, by decide!⟩

theorem resize_length (v : List Int) (n : Nat) :
    (if v.length ≠ n then List.replicate n (0 : Int) else v).length = n := by
  split
  · simp
  · rename_i hh; simpa using hh

/-- C8: for a seed table with at least one row, `index_closest_to_deme` gives
`Closest` the length `nDemes` and sets `Closest(i)`, for every deme `i`, to the
index `t` of the seed whose distance to the deme is at most the distance of
every seed and strictly below the distance of every seed of lower index. -/
theorem index_closest_to_deme_nearest {δ : Type} [LinearOrder δ] (dist : Point → Point → δ)
    (g : Graph) (Seeds : List Point) (Closest : List Int) (hseeds : Seeds ≠ []) :
    ∃ Closest', index_closest_to_deme dist g Seeds Closest = some Closest' ∧
      Closest'.length = g.DemeCoord.length ∧
      ∀ i, i < g.DemeCoord.length → ∃ t : Nat,
        coeff Closest' (i : Int) = (t : Int) ∧ t < Seeds.length ∧
        (∀ u, u < Seeds.length →
          dist (Seeds.getD t default) (g.DemeCoord.getD i default) ≤
            dist (Seeds.getD u default) (g.DemeCoord.getD i default)) ∧
        (∀ u, u < t →
          dist (Seeds.getD t default) (g.DemeCoord.getD i default) <
            dist (Seeds.getD u default) (g.DemeCoord.getD i default)) := by
  obtain ⟨v, h1, h2, h3⟩ := argminLoop_nearest Seeds default
    (fun i s => dist s (g.DemeCoord.getD i default)) g.DemeCoord.length _
    (resize_length Closest g.DemeCoord.length) hseeds
  refine ⟨v, h1, h2, ?_⟩
  intro i hi
  obtain ⟨k, a1, a2, a3, a4, _⟩ := h3 i hi
  exact ⟨k, by rw [coeff_natCast]; exact a1, a2, a3, a4⟩

/-- An instance of C8: two seeds and the four demes of the line graph. -/
theorem index_closest_to_deme_nearest_witness :
    ([((2 : ℚ), (2 : ℚ)), (0, 1)] : List Point) ≠ [] ∧
    (∃ Closest',
      index_closest_to_deme euclidean_sq lineGraph [(2, 2), (0, 1)] [] = some Closest' ∧
        Closest'.length = lineGraph.DemeCoord.length) ∧
    index_closest_to_deme euclidean_sq lineGraph [(2, 2), (0, 1)] [] = some [1, 1, 0, 0] :=
  ⟨List.cons_ne_nil _ _,
    (index_closest_to_deme_nearest euclidean_sq lineGraph [(2, 2), (0, 1)] []
      (List.cons_ne_nil _ _)).imp fun _ h => ⟨h.1, h.2.1⟩, by decide!⟩

/-- C9: with a single tile, `index_closest_to_deme` gives every deme the tile
index 0, whatever the deme coordinates and the edges, and the rate looked up
through `Closest` is the value of that tile for every deme. -/
theorem index_closest_single_tile {δ : Type} [LinearOrder δ] (dist : Point → Point → δ)
    (g : Graph) (seed : Point) (Closest : List Int) (value : ℚ) :
    index_closest_to_deme dist g [seed] Closest = some (List.replicate g.DemeCoord.length 0) ∧
    ∀ i : Nat, i < g.DemeCoord.length →
      coeff (List.replicate g.DemeCoord.length (0 : Int)) (i : Int) = 0 ∧
      tile_value [value] (List.replicate g.DemeCoord.length 0) (i : Int) = value := by
  obtain ⟨v, h1, h2, h3⟩ := argminLoop_nearest [seed] default
    (fun i s => dist s (g.DemeCoord.getD i default)) g.DemeCoord.length _
    (resize_length Closest g.DemeCoord.length) (List.cons_ne_nil _ _)
  have hv : v = List.replicate g.DemeCoord.length 0 := by
    apply list_eq_of_getD v _ g.DemeCoord.length h2 (by simp)
    intro i hi
    obtain ⟨t, a1, a2, _⟩ := h3 i hi
    have : t = 0 := by simpa using a2
    subst this
    rw [a1, List.getD_eq_getElem?_getD, List.getElem?_replicate]
    simp [hi]
  subst hv
  refine ⟨h1, ?_⟩
  intro i hi
  have hz : coeff (List.replicate g.DemeCoord.length (0 : Int)) (i : Int) = 0 := by
    rw [coeff_natCast, List.getD_eq_getElem?_getD, List.getElem?_replicate]
    simp [hi]
  refine ⟨hz, ?_⟩
  unfold tile_value
  rw [hz]
  rfl

/-! ## Loops as invariants -/

theorem foldl_range_invariant {σ : Type} (f : σ → Nat → σ) (P : Nat → σ → Prop) (n : Nat)
    (s0 : σ) (h0 : P 0 s0) (hstep : ∀ i s, i < n → P i s → P (i + 1) (f s i)) :
    P n ((List.range n).foldl f s0) := by
  have main : ∀ m, m ≤ n → P m ((List.range m).foldl f s0) := by
    intro m
    induction m with
    | zero => intro _; simpa using h0
    | succ m ih =>
      intro hm
      rw [List.range_succ, List.foldl_append]
      exact hstep m _ (by omega) (ih (by omega))
  exact main n (le_refl n)

theorem getD_set_self {α : Type} (v : List α) (i : Nat) (x d : α) (h : i < v.length) :
    (v.set i x).getD i d = x := by
  rw [List.getD_eq_getElem?_getD, List.getElem?_set_self h]; rfl

theorem getD_set_ne {α : Type} (v : List α) (i j : Nat) (x d : α) (h : i ≠ j) :
    (v.set i x).getD j d = v.getD j d := by
  rw [List.getD_eq_getElem?_getD, List.getElem?_set_ne h, ← List.getD_eq_getElem?_getD]

theorem IsFirstSample_unique (xs : List Int) (a : Int) (s t : Nat)
    (hs : IsFirstSample xs a s) (ht : IsFirstSample xs a t) : s = t := by
  rcases Nat.lt_trichotomy s t with h | h | h
  · exact absurd hs.2.1 (ht.2.2 s h)
  · exact h
  · exact absurd ht.2.1 (hs.2.2 t h)

theorem observedStep_invariant (xs : List Int) (n i : Nat) (st : ReindexState)
    (hx : ∀ s, s < xs.length → 0 ≤ xs.getD s 0 ∧ xs.getD s 0 < (n : Int))
    (hi : i < xs.length) (inv : ObsInv xs n i st) : ObsInv xs n (i + 1) (observedStep st i) := by
  obtain ⟨hx0, hxn⟩ := hx i hi
  have halpha : coeff st.indiv2deme (i : Int) = xs.getD i 0 := by
    rw [coeff_natCast]; exact inv.rest i (le_refl i)
  obtain ⟨a, ha⟩ : ∃ a : Nat, xs.getD i 0 = (a : Int) := ⟨(xs.getD i 0).toNat, by omega⟩
  have han : a < n := by omega
  have hcast : ∀ s, s < xs.length → ((xs.getD s 0).toNat : Int) = xs.getD s 0 := by
    intro s hs; have := (hx s hs).1; omega
  have hprev : ∀ s, s < i → st.newIndex.getD (xs.getD s 0).toNat 0 ≠ -1 := by
    intro s hs
    have h1 := hx s (by omega)
    exact (inv.seen _ (by omega)).mpr ⟨s, hs, (hcast s (by omega)).symm⟩
  have hi2 : i < st.indiv2deme.length := by rw [inv.len_smp]; exact hi
  have ha2 : a < st.newIndex.length := by rw [inv.len_new]; exact han
  unfold observedStep
  simp only [halpha, ha, coeff_natCast, setCoeff, Int.toNat_ofNat]
  by_cases hnew : st.newIndex.getD a 0 = -1
  · -- a new observed deme
    simp only [hnew, ite_true]
    have hfresh : ∀ s, s < i → (xs.getD s 0).toNat ≠ a := by
      intro s hs heq
      exact hprev s hs (by rw [heq]; exact hnew)
    have hval : ∀ b, b < n → b ≠ a → st.newIndex.getD b 0 ≠ st.oDemes := by
      intro b hb _ heq
      rcases inv.range b hb with h | h
      · have := inv.o_nonneg; omega
      · omega
    refine ⟨by simpa using inv.len_new, by simpa using inv.len_smp,
      by have := inv.o_nonneg; simp only; omega, ?_, ?_, ?_, ?_, ?_, ?_, ?_⟩
    · intro s hs
      simp only
      rw [getD_set_ne _ _ _ _ _ (by omega)]
      exact inv.rest s (by omega)
    · intro s hs
      simp only
      rcases Nat.lt_or_ge s i with hlt | hge
      · rw [getD_set_ne _ _ _ _ _ (by omega), getD_set_ne _ _ _ _ _ (Ne.symm (hfresh s hlt))]
        exact inv.done s hlt
      · have : s = i := by omega
        subst this
        rw [getD_set_self _ _ _ _ hi2, ha, Int.toNat_ofNat]
    · intro b hb
      simp only
      by_cases hba : b = a
      · subst hba
        rw [getD_set_self _ _ _ _ ha2]
        right; have := inv.o_nonneg; omega
      · rw [getD_set_ne _ _ _ _ _ (Ne.symm hba)]
        rcases inv.range b hb with h | h
        · left; exact h
        · right; omega
    · intro b hb
      simp only
      by_cases hba : b = a
      · subst hba
        rw [getD_set_self _ _ _ _ ha2]
        constructor
        · intro _; exact ⟨i, by omega, ha⟩
        · intro _; have := inv.o_nonneg; omega
      · rw [getD_set_ne _ _ _ _ _ (Ne.symm hba), inv.seen b hb]
        constructor
        · rintro ⟨s, hs, h⟩; exact ⟨s, by omega, h⟩
        · rintro ⟨s, hs, h⟩
          rcases Nat.lt_or_ge s i with hlt | hge
          · exact ⟨s, hlt, h⟩
          · have : s = i := by omega
            subst this
            rw [ha] at h
            exact absurd (Int.ofNat_inj.mp h).symm hba
    · intro k hk0 hk
      simp only at hk ⊢
      by_cases hko : k = st.oDemes
      · exact ⟨a, han, by rw [getD_set_self _ _ _ _ ha2, hko]⟩
      · obtain ⟨b, hb, hbk⟩ := inv.onto k hk0 (by omega)
        have hba : b ≠ a := by
          intro h; subst h; rw [hnew] at hbk; omega
        exact ⟨b, hb, by rw [getD_set_ne _ _ _ _ _ (Ne.symm hba)]; exact hbk⟩
    · intro b c hb hc
      simp only
      by_cases hba : b = a <;> by_cases hca : c = a
      · intro _ _; rw [hba, hca]
      · subst hba
        rw [getD_set_self _ _ _ _ ha2, getD_set_ne _ _ _ _ _ (Ne.symm hca)]
        intro _ h
        exact absurd h.symm (hval c hc hca)
      · subst hca
        rw [getD_set_self _ _ _ _ ha2, getD_set_ne _ _ _ _ _ (Ne.symm hba)]
        intro _ h
        exact absurd h (hval b hb hba)
      · rw [getD_set_ne _ _ _ _ _ (Ne.symm hba), getD_set_ne _ _ _ _ _ (Ne.symm hca)]
        exact inv.inj b c hb hc
    · intro b c sb sc hb hc fb fc hsb hsc
      simp only
      have hold : ∀ (d sd : Nat), d < n → IsFirstSample xs (d : Int) sd → sd < i →
          d ≠ a ∧ 0 ≤ st.newIndex.getD d 0 ∧ st.newIndex.getD d 0 < st.oDemes := by
        intro d sd hd fd hsd
        have hne : st.newIndex.getD d 0 ≠ -1 := (inv.seen d hd).mpr ⟨sd, hsd, fd.2.1⟩
        refine ⟨?_, ?_⟩
        · intro h; subst h; exact hne hnew
        · rcases inv.range d hd with h | h
          · exact absurd h hne
          · exact h
      have hlast : ∀ (d sd : Nat), IsFirstSample xs (d : Int) sd → sd = i → d = a := by
        intro d sd fd hsd
        subst hsd
        have := fd.2.1
        rw [ha] at this
        exact (Int.ofNat_inj.mp this).symm
      rcases Nat.lt_or_ge sb i with hb1 | hb1 <;> rcases Nat.lt_or_ge sc i with hc1 | hc1
      · obtain ⟨hb2, _, _⟩ := hold b sb hb fb hb1
        obtain ⟨hc2, _, _⟩ := hold c sc hc fc hc1
        rw [getD_set_ne _ _ _ _ _ (Ne.symm hb2), getD_set_ne _ _ _ _ _ (Ne.symm hc2)]
        exact inv.order b c sb sc hb hc fb fc hb1 hc1
      · obtain ⟨hb2, _, hb4⟩ := hold b sb hb fb hb1
        have hc2 := hlast c sc fc (by omega)
        subst hc2
        rw [getD_set_ne _ _ _ _ _ (Ne.symm hb2), getD_set_self _ _ _ _ ha2]
        constructor
        · intro _; omega
        · intro _; exact hb4
      · obtain ⟨hc2, _, hc4⟩ := hold c sc hc fc hc1
        have hb2 := hlast b sb fb (by omega)
        subst hb2
        rw [getD_set_ne _ _ _ _ _ (Ne.symm hc2), getD_set_self _ _ _ _ ha2]
        constructor
        · intro h; omega
        · intro h; omega
      · have hb2 := hlast b sb fb (by omega)
        have hc2 := hlast c sc fc (by omega)
        subst hb2; subst hc2
        constructor
        · intro h; exact absurd h (lt_irrefl _)
        · intro h; omega
  · -- a deme that has its new index already
    simp only [hnew, ite_false]
    have hseen : ∃ s, s < i ∧ xs.getD s 0 = (a : Int) := (inv.seen a han).mp hnew
    refine ⟨inv.len_new, by simpa using inv.len_smp, inv.o_nonneg, ?_, ?_, inv.range, ?_,
      inv.onto, inv.inj, ?_⟩
    · intro s hs
      simp only
      rw [getD_set_ne _ _ _ _ _ (by omega)]
      exact inv.rest s (by omega)
    · intro s hs
      simp only
      rcases Nat.lt_or_ge s i with hlt | hge
      · rw [getD_set_ne _ _ _ _ _ (by omega)]
        exact inv.done s hlt
      · have : s = i := by omega
        subst this
        rw [getD_set_self _ _ _ _ hi2, ha, Int.toNat_ofNat]
    · intro b hb
      rw [inv.seen b hb]
      constructor
      · rintro ⟨s, hs, h⟩; exact ⟨s, by omega, h⟩
      · rintro ⟨s, hs, h⟩
        rcases Nat.lt_or_ge s i with hlt | hge
        · exact ⟨s, hlt, h⟩
        · have : s = i := by omega
          subst this
          rw [ha] at h
          have := Int.ofNat_inj.mp h
          subst this
          exact hseen
    · intro b c sb sc hb hc fb fc hsb hsc
      have hlt : ∀ (d sd : Nat), IsFirstSample xs (d : Int) sd → sd < i + 1 → sd < i := by
        intro d sd fd hsd
        by_contra hcon
        have : sd = i := by omega
        subst this
        have h1 := fd.2.1
        rw [ha] at h1
        have := Int.ofNat_inj.mp h1
        subst this
        obtain ⟨s, hs, h⟩ := hseen
        exact fd.2.2 s hs h
      exact inv.order b c sb sc hb hc fb fc (hlt b sb fb hsb) (hlt c sc fc hsc)

theorem getD_replicate_lt {α : Type} (n a : Nat) (x d : α) (h : a < n) :
    (List.replicate n x).getD a d = x := by
  rw [List.getD_eq_getElem?_getD, List.getElem?_replicate]; simp [h]

theorem observed_initial (xs : List Int) (n : Nat) :
    ObsInv xs n 0 { newIndex := List.replicate n (-1), oDemes := 0, indiv2deme := xs } := by
  refine ⟨by simp, rfl, le_refl _, fun _ _ => rfl, fun s hs => absurd hs (Nat.not_lt_zero s),
    ?_, ?_, ?_, ?_, ?_⟩
  · intro a ha; left; exact getD_replicate_lt n a _ _ ha
  · intro a ha
    simp only [getD_replicate_lt n a _ _ ha]
    constructor
    · intro h; exact absurd rfl h
    · rintro ⟨s, hs, _⟩; exact absurd hs (Nat.not_lt_zero s)
  · intro k h0 h1; simp only at h1; omega
  · intro a b ha _ h; simp only [getD_replicate_lt n a _ _ ha] at h; exact absurd rfl h
  · intro a b sa sb _ _ _ _ h; exact absurd h (Nat.not_lt_zero sa)

/-- The invariant holds when the first loop of `reindex_demes` ends. -/
theorem reindex_observed_invariant (g : Graph)
    (hx : ∀ s, s < g.indiv2deme.length →
      0 ≤ g.indiv2deme.getD s 0 ∧ g.indiv2deme.getD s 0 < (g.DemeCoord.length : Int)) :
    ObsInv g.indiv2deme g.DemeCoord.length g.indiv2deme.length (reindex_observed g) := by
  unfold reindex_observed
  exact foldl_range_invariant observedStep (ObsInv g.indiv2deme g.DemeCoord.length) _ _
    (observed_initial _ _)
    (fun i st hi inv => observedStep_invariant _ _ i st hx hi inv)

theorem unobservedStep_invariant (ni1 : List Int) (o1 : Int) (n i : Nat) (st : List Int × Int)
    (hi : i < n) (inv : UnobsInv ni1 o1 n i st) :
    UnobsInv ni1 o1 n (i + 1) (unobservedStep st i) := by
  have hrest : st.1.getD i 0 = ni1.getD i 0 := inv.rest i (le_refl i)
  have hlen : i < st.1.length := by rw [inv.len]; exact hi
  unfold unobservedStep
  simp only [coeff_natCast, setCoeff, Int.toNat_ofNat]
  by_cases hnew : st.1.getD i 0 = -1
  · simp only [hnew, ite_true]
    have hni : ni1.getD i 0 = -1 := by rw [← hrest]; exact hnew
    refine ⟨by simpa using inv.len, by have := inv.o_le; simp only; omega, ?_, ?_, ?_, ?_, ?_⟩
    · intro a ha hne
      simp only
      have : i ≠ a := by intro h; subst h; exact hne hni
      rw [getD_set_ne _ _ _ _ _ this]
      exact inv.keep a ha hne
    · intro a ha
      simp only
      rw [getD_set_ne _ _ _ _ _ (by omega)]
      exact inv.rest a (by omega)
    · intro a ha hne
      simp only
      rcases Nat.lt_or_ge a i with hlt | hge
      · rw [getD_set_ne _ _ _ _ _ (by omega)]
        have := inv.fresh a hlt hne
        omega
      · have : a = i := by omega
        subst this
        rw [getD_set_self _ _ _ _ hlen]
        have := inv.o_le
        omega
    · intro k hk0 hk
      simp only at hk ⊢
      by_cases hko : k = st.2
      · exact ⟨i, by omega, hni, by rw [getD_set_self _ _ _ _ hlen, hko]⟩
      · obtain ⟨a, ha, h1, h2⟩ := inv.onto k hk0 (by omega)
        exact ⟨a, by omega, h1, by rw [getD_set_ne _ _ _ _ _ (by omega)]; exact h2⟩
    · intro a b hab hb h1 h2
      simp only
      rcases Nat.lt_or_ge b i with hlt | hge
      · rw [getD_set_ne _ _ _ _ _ (by omega), getD_set_ne _ _ _ _ _ (by omega)]
        exact inv.order a b hab hlt h1 h2
      · have : b = i := by omega
        subst this
        rw [getD_set_ne _ _ _ _ _ (by omega), getD_set_self _ _ _ _ hlen]
        exact (inv.fresh a hab h1).2
  · simp only [hnew, ite_false]
    have hni : ni1.getD i 0 ≠ -1 := by rw [← hrest]; exact hnew
    refine ⟨inv.len, inv.o_le, inv.keep, fun a ha => inv.rest a (by omega), ?_, ?_, ?_⟩
    · intro a ha hne
      rcases Nat.lt_or_ge a i with hlt | hge
      · exact inv.fresh a hlt hne
      · have : a = i := by omega
        subst this
        exact absurd hne hni
    · intro k hk0 hk
      obtain ⟨a, ha, h1, h2⟩ := inv.onto k hk0 hk
      exact ⟨a, by omega, h1, h2⟩
    · intro a b hab hb h1 h2
      rcases Nat.lt_or_ge b i with hlt | hge
      · exact inv.order a b hab hlt h1 h2
      · have : b = i := by omega
        subst this
        exact absurd h2 hni

/-- The invariant holds when the loop over the unobserved demes ends. -/
theorem reindex_unobserved_invariant (g : Graph)
    (hlen : (reindex_observed g).newIndex.length = g.DemeCoord.length) :
    UnobsInv (reindex_observed g).newIndex (reindex_observed g).oDemes g.DemeCoord.length
      g.DemeCoord.length
      ((List.range g.DemeCoord.length).foldl unobservedStep
        ((reindex_observed g).newIndex, (reindex_observed g).oDemes)) := by
  apply foldl_range_invariant unobservedStep
    (UnobsInv (reindex_observed g).newIndex (reindex_observed g).oDemes g.DemeCoord.length)
  · exact ⟨hlen, le_refl _, fun _ _ _ => rfl, fun _ _ => rfl,
      fun a ha => absurd ha (Nat.not_lt_zero a), fun k h0 h1 => by simp only at h1; omega,
      fun a b _ hb => absurd hb (Nat.not_lt_zero b)⟩
  · intro i st hi inv
    exact unobservedStep_invariant _ _ _ i st hi inv

theorem minVisit_le {δ : Type} [LinearOrder δ] (vs : List δ) :
    ∀ (res : δ) (idx i : Nat),
      (minVisit res idx i vs).1 ≤ res ∧ ∀ v, v ∈ vs → (minVisit res idx i vs).1 ≤ v := by
  induction vs with
  | nil => intro res idx i; exact ⟨le_refl _, fun v hv => absurd hv (List.not_mem_nil v)⟩
  | cons w ws ih =>
    intro res idx i
    unfold minVisit
    split
    · rename_i hlt
      obtain ⟨h1, h2⟩ := ih w i (i + 1)
      refine ⟨le_trans h1 (le_of_lt hlt), ?_⟩
      intro v hv
      rcases List.mem_cons.mp hv with h | h
      · rw [h]; exact h1
      · exact h2 v h
    · rename_i hnlt
      obtain ⟨h1, h2⟩ := ih res idx (i + 1)
      refine ⟨h1, ?_⟩
      intro v hv
      rcases List.mem_cons.mp hv with h | h
      · rw [h]; exact le_trans h1 (not_lt.mp hnlt)
      · exact h2 v h

theorem maxVisit_ge {δ : Type} [LinearOrder δ] (vs : List δ) :
    ∀ (res : δ) (idx i : Nat),
      res ≤ (maxVisit res idx i vs).1 ∧ ∀ v, v ∈ vs → v ≤ (maxVisit res idx i vs).1 := by
  induction vs with
  | nil => intro res idx i; exact ⟨le_refl _, fun v hv => absurd hv (List.not_mem_nil v)⟩
  | cons w ws ih =>
    intro res idx i
    unfold maxVisit
    split
    · rename_i hlt
      obtain ⟨h1, h2⟩ := ih w i (i + 1)
      refine ⟨le_trans (le_of_lt hlt) h1, ?_⟩
      intro v hv
      rcases List.mem_cons.mp hv with h | h
      · rw [h]; exact h1
      · exact h2 v h
    · rename_i hnlt
      obtain ⟨h1, h2⟩ := ih res idx (i + 1)
      refine ⟨h1, ?_⟩
      intro v hv
      rcases List.mem_cons.mp hv with h | h
      · rw [h]; exact le_trans (not_lt.mp hnlt) h1
      · exact h2 v h

/-- A vector that passes the test `minCoeff() >= 0 && maxCoeff() < n` is not
empty and has all its coefficients in `[0,n)`. -/
theorem inRange_true (v : List Int) (n : Int) (h : inRange v n = some true) :
    v ≠ [] ∧ ∀ x, x ∈ v → 0 ≤ x ∧ x < n := by
  cases v with
  | nil => simp [inRange, minCoeff] at h
  | cons w ws =>
    refine ⟨List.cons_ne_nil _ _, ?_⟩
    simp only [inRange, minCoeff, maxCoeff, Option.some.injEq, Bool.and_eq_true,
      decide_eq_true_eq] at h
    obtain ⟨hlo, hhi⟩ := h
    obtain ⟨a1, a2⟩ := minVisit_le ws w 0 1
    obtain ⟨b1, b2⟩ := maxVisit_ge ws w 0 1
    intro x hx
    rcases List.mem_cons.mp hx with e | e
    · subst e; exact ⟨le_trans hlo a1, lt_of_le_of_lt b1 hhi⟩
    · exact ⟨le_trans hlo (a2 x e), lt_of_le_of_lt (b2 x e) hhi⟩

/-- What a successful run of `reindex_demes` tells: both checks passed and the
result is the one of the body. -/
theorem reindex_demes_ok (g g' : Graph) (h : reindex_demes g = .ok g') :
    g' = reindex_body g ∧
      inRange (coeffs g.DemePairs) (g.DemeCoord.length : Int) = some true ∧
      inRange g.indiv2deme (g.DemeCoord.length : Int) = some true := by
  unfold reindex_demes at h
  simp only [bind, Except.bind, check_condition, pure, Except.pure] at h
  cases h1 : inRange (coeffs g.DemePairs) (g.DemeCoord.length : Int) with
  | none => simp [h1] at h
  | some c1 =>
    cases h2 : inRange g.indiv2deme (g.DemeCoord.length : Int) with
    | none => cases c1 <;> simp [h1, h2] at h
    | some c2 =>
      cases c1 <;> cases c2 <;> simp [h1, h2] at h
      exact ⟨h.symm, rfl, rfl⟩

theorem getD_mem {α : Type} (v : List α) (s : Nat) (d : α) (h : s < v.length) :
    v.getD s d ∈ v := by
  rw [List.getD_eq_getElem?_getD, List.getElem?_eq_getElem h]
  exact List.getElem_mem h

/-- The sample assignment of a state accepted by `reindex_demes` is in range. -/
theorem reindex_demes_samples (g g' : Graph) (h : reindex_demes g = .ok g') :
    g.indiv2deme ≠ [] ∧ ∀ s, s < g.indiv2deme.length →
      0 ≤ g.indiv2deme.getD s 0 ∧ g.indiv2deme.getD s 0 < (g.DemeCoord.length : Int) := by
  obtain ⟨_, _, h3⟩ := reindex_demes_ok g g' h
  obtain ⟨hne, hall⟩ := inRange_true _ _ h3
  exact ⟨hne, fun s hs => hall _ (getD_mem _ s 0 hs)⟩

theorem sizes_length (v : List Int) (n : Nat) (d0 : List Int) :
    ((List.range n).foldl (sizesStep v) d0).length = d0.length := by
  apply foldl_range_invariant (sizesStep v) (fun _ d => d.length = d0.length) n d0 rfl
  intro i d _ hd
  simpa [sizesStep, setCoeff] using hd

theorem reindex_body_samples (g : Graph) :
    (reindex_body g).indiv2deme = (reindex_observed g).indiv2deme := rfl

theorem reindex_body_sizes (g : Graph) :
    (reindex_body g).DemeSizes.length = (reindex_observed g).oDemes.toNat := by
  simp [reindex_body, sizes_length]

theorem exists_first_sample (xs : List Int) (a : Int) (s : Nat) (hs : s < xs.length)
    (h : xs.getD s 0 = a) : ∃ t, t ≤ s ∧ IsFirstSample xs a t := by
  induction s using Nat.strong_induction_on with
  | _ s ih =>
    by_cases hfirst : ∀ t, t < s → xs.getD t 0 ≠ a
    · exact ⟨s, le_refl s, hs, h, hfirst⟩
    · push_neg at hfirst
      obtain ⟨t, ht, hta⟩ := hfirst
      obtain ⟨u, hu, hfu⟩ := ih t ht (by omega) hta
      exact ⟨u, by omega, hfu⟩

/-- C1: after `reindex_demes`, a deme index `k` is below `oDemes`
(`get_num_obsrv_demes`, the size of `DemeSizes`) if and only if at least one
sample `s` has `indiv2deme(s) = k`; every sample is assigned to a deme of
index at least zero, so the indices from `oDemes` on have no sample. -/
theorem reindex_demes_observed_block (g g' : Graph) (h : reindex_demes g = .ok g') :
    (∀ s : Nat, s < g'.indiv2deme.length → 0 ≤ coeff g'.indiv2deme (s : Int)) ∧
    ∀ k : Int, 0 ≤ k →
      (k < g'.get_num_obsrv_demes ↔
        ∃ s : Nat, s < g'.indiv2deme.length ∧ coeff g'.indiv2deme (s : Int) = k) := by
  obtain ⟨hg', _, _⟩ := reindex_demes_ok g g' h
  obtain ⟨_, hx⟩ := reindex_demes_samples g g' h
  have inv := reindex_observed_invariant g hx
  subst hg'
  have hobs : (reindex_body g).get_num_obsrv_demes = (reindex_observed g).oDemes := by
    unfold Graph.get_num_obsrv_demes
    rw [reindex_body_sizes]
    have := inv.o_nonneg
    omega
  have hsample : ∀ s : Nat, s < g.indiv2deme.length →
      0 ≤ (reindex_observed g).indiv2deme.getD s 0 ∧
        (reindex_observed g).indiv2deme.getD s 0 < (reindex_observed g).oDemes := by
    intro s hs
    obtain ⟨h0, h1⟩ := hx s hs
    rw [inv.done s hs]
    have hne : (reindex_observed g).newIndex.getD (g.indiv2deme.getD s 0).toNat 0 ≠ -1 :=
      (inv.seen _ (by omega)).mpr ⟨s, hs, by omega⟩
    rcases inv.range (g.indiv2deme.getD s 0).toNat (by omega) with r | r
    · exact absurd r hne
    · exact r
  rw [reindex_body_samples, inv.len_smp, hobs]
  refine ⟨fun s hs => by rw [coeff_natCast]; exact (hsample s hs).1, ?_⟩
  intro k hk
  constructor
  · intro hlt
    obtain ⟨a, ha, hak⟩ := inv.onto k hk hlt
    obtain ⟨s, hs, hsa⟩ := (inv.seen a ha).mp (by rw [hak]; omega)
    refine ⟨s, hs, ?_⟩
    rw [coeff_natCast, inv.done s hs, hsa, Int.toNat_ofNat, hak]
  · rintro ⟨s, hs, hsk⟩
    rw [coeff_natCast] at hsk
    rw [← hsk]
    exact (hsample s hs).2

/-- An instance of C1: the line graph, whose samples sit on three of the four
demes. -/
theorem reindex_demes_observed_block_witness :
    reindex_demes lineGraph = .ok lineGraphReindexed ∧
    ∀ k : Int, 0 ≤ k →
      (k < lineGraphReindexed.get_num_obsrv_demes ↔
        ∃ s : Nat, s < lineGraphReindexed.indiv2deme.length ∧
          coeff lineGraphReindexed.indiv2deme (s : Int) = k) :=
  ⟨rfl, (reindex_demes_observed_block lineGraph lineGraphReindexed rfl).2⟩

/-- C10: for a state accepted by `reindex_demes`, with `newIndex` the vector of
new indices: every sample moves with its deme; for two demes `a`, `b` with first
samples `sa`, `sb`, the new index of `a` is below the new index of `b` if and
only if `sa < sb`; the deme of sample 0 gets the new index 0; and for two demes
`a < b` without samples the new index of `a` is below the new index of `b`. -/
theorem reindex_demes_order (g g' : Graph) (h : reindex_demes g = .ok g') :
    (∀ s : Nat, s < g.indiv2deme.length →
      coeff g'.indiv2deme (s : Int) = coeff (reindex_newIndex g) (coeff g.indiv2deme (s : Int))) ∧
    (∀ (a b : Int) (sa sb : Nat), IsFirstSample g.indiv2deme a sa →
      IsFirstSample g.indiv2deme b sb →
      (coeff (reindex_newIndex g) a < coeff (reindex_newIndex g) b ↔ sa < sb)) ∧
    coeff (reindex_newIndex g) (coeff g.indiv2deme 0) = 0 ∧
    (∀ a b : Int, 0 ≤ a → a < b → b < g.get_num_total_demes →
      (∀ s : Nat, s < g.indiv2deme.length → coeff g.indiv2deme (s : Int) ≠ a) →
      (∀ s : Nat, s < g.indiv2deme.length → coeff g.indiv2deme (s : Int) ≠ b) →
      coeff (reindex_newIndex g) a < coeff (reindex_newIndex g) b) := by
  obtain ⟨hg', _, _⟩ := reindex_demes_ok g g' h
  obtain ⟨hne, hx⟩ := reindex_demes_samples g g' h
  have inv := reindex_observed_invariant g hx
  have inv2 := reindex_unobserved_invariant g inv.len_new
  subst hg'
  have hpos : 0 < g.indiv2deme.length := List.length_pos.mpr hne
  -- the new index of an observed deme is the one of the first loop
  have hkeep : ∀ (a : Int) (s : Nat), s < g.indiv2deme.length → g.indiv2deme.getD s 0 = a →
      coeff (reindex_newIndex g) a = (reindex_observed g).newIndex.getD a.toNat 0 ∧
        (reindex_observed g).newIndex.getD a.toNat 0 ≠ -1 ∧ a.toNat < g.DemeCoord.length ∧
        ((a.toNat : Nat) : Int) = a := by
    intro a s hs hsa
    obtain ⟨h0, h1⟩ := hx s hs
    rw [hsa] at h0 h1
    have hne1 : (reindex_observed g).newIndex.getD a.toNat 0 ≠ -1 :=
      (inv.seen _ (by omega)).mpr ⟨s, hs, by omega⟩
    refine ⟨?_, hne1, by omega, by omega⟩
    unfold reindex_newIndex coeff
    exact inv2.keep a.toNat (by omega) hne1
  have hfirst : ∀ (a b : Int) (sa sb : Nat), IsFirstSample g.indiv2deme a sa →
      IsFirstSample g.indiv2deme b sb →
      (coeff (reindex_newIndex g) a < coeff (reindex_newIndex g) b ↔ sa < sb) := by
    intro a b sa sb fa fb
    obtain ⟨ka, _, la, ca⟩ := hkeep a sa fa.1 fa.2.1
    obtain ⟨kb, _, lb, cb⟩ := hkeep b sb fb.1 fb.2.1
    rw [ka, kb]
    refine inv.order a.toNat b.toNat sa sb la lb ?_ ?_ fa.1 fb.1
    · rw [ca]; exact fa
    · rw [cb]; exact fb
  refine ⟨?_, hfirst, ?_, ?_⟩
  · intro s hs
    obtain ⟨k1, _, _, _⟩ := hkeep (g.indiv2deme.getD s 0) s hs rfl
    rw [reindex_body_samples, coeff_natCast, coeff_natCast, inv.done s hs, k1]
  · -- the deme of sample 0
    have hc0 : coeff g.indiv2deme 0 = g.indiv2deme.getD 0 0 := by
      simpa using coeff_natCast g.indiv2deme 0
    rw [hc0]
    obtain ⟨k0, n0, l0, c0⟩ := hkeep (g.indiv2deme.getD 0 0) 0 hpos rfl
    have f0 : IsFirstSample g.indiv2deme (g.indiv2deme.getD 0 0) 0 :=
      ⟨hpos, rfl, fun t ht => absurd ht (Nat.not_lt_zero t)⟩
    rcases inv.range _ l0 with r | r
    · exact absurd r n0
    · by_contra hcon
      rw [k0] at hcon
      obtain ⟨a, ha, hak⟩ := inv.onto 0 (le_refl 0) (by omega)
      obtain ⟨s, hs, hsa⟩ := (inv.seen a ha).mp (by rw [hak]; omega)
      obtain ⟨t, _, ft⟩ := exists_first_sample g.indiv2deme (a : Int) s hs hsa
      have := (hfirst (a : Int) _ t 0 ft f0).mp (by
        obtain ⟨ka, _, _, _⟩ := hkeep (a : Int) s hs hsa
        rw [ka, k0, Int.toNat_ofNat, hak]
        omega)
      omega
  · intro a b ha hab hb na nb
    unfold Graph.get_num_total_demes at hb
    have hun : ∀ c : Int, 0 ≤ c → c < (g.DemeCoord.length : Int) →
        (∀ s : Nat, s < g.indiv2deme.length → coeff g.indiv2deme (s : Int) ≠ c) →
        (reindex_observed g).newIndex.getD c.toNat 0 = -1 := by
      intro c hc0 hc1 hc
      by_contra hcon
      obtain ⟨s, hs, hsc⟩ := (inv.seen c.toNat (by omega)).mp hcon
      apply hc s hs
      rw [coeff_natCast, hsc]
      omega
    unfold reindex_newIndex coeff
    exact inv2.order a.toNat b.toNat (by omega) (by omega) (hun a ha (by omega) na)
      (hun b (by omega) hb nb)

/-- An instance of C10 on the line graph. -/
theorem reindex_demes_order_witness :
    reindex_demes lineGraph = .ok lineGraphReindexed ∧
    coeff (reindex_newIndex lineGraph) (coeff lineGraph.indiv2deme 0) = 0 :=
  ⟨rfl, (reindex_demes_order lineGraph lineGraphReindexed rfl).2.2.1⟩

/-! ## The connectivity check and the order of the steps of `generate_grid` -/

/-- C2, the code at a failing input: three demes, one edge between demes 0 and
1, deme 2 on no edge.  The graph on all three demes is not connected, yet
`is_connected` returns `true` (Boost only knows the vertices up to the largest
endpoint), whereas it returns `false` when the deme on no edge is deme 0; and
`generate_grid` ends without the connectivity error. -/
theorem is_connected_ignores_trailing_deme :
    is_connected trailingGraph = true ∧ ¬ SpansAllDemes trailingGraph ∧
    is_connected { trailingGraph with DemePairs := [(1, 2)] } = false ∧
    generate_grid euclidean_sq trailingStore (fun _ => true) "data" "grid" "out" unitSquare 0 2
        emptyGraph =
      ([("out/ipmap.txt", .ints [1, 2]), ("out/demes.txt", .reals [(0, 0), (1, 0), (2, 0)]),
        ("out/edges.txt", .pairs [(1, 2)])],
        .ok { DemeCoord := [(0, 0), (1, 0), (2, 0)], DemePairs := [(0, 1)],
              indiv2deme := [0, 1], DemeSizes := [1, 1] }) := by
  refine ⟨by decide, ?_, by decide, by decide!⟩
  intro hspan
  have hpath := hspan 0 2 (by decide) (by decide) (by decide) (by decide)
  have hreach : ∀ x : Int, Relation.ReflTransGen (Adjacent trailingGraph) 0 x → x = 0 ∨ x = 1 := by
    intro x hx
    induction hx with
    | refl => left; rfl
    | tail _ hstep ih =>
      simp only [Adjacent, trailingGraph, List.mem_singleton, Prod.mk.injEq] at hstep
      omega
  have := hreach 2 hpath
  omega

theorem cannot_open_ne (s t : String) : "Cannot open " ++ s ++ t ≠ notConnected := by
  intro h
  have h2 := congrArg String.data h
  have e1 : ("Cannot open " : String).data = 'C' :: ("annot open " : String).data := by rfl
  have e2 : notConnected.data =
      'T' :: ("he population grid is not connected." : String).data := by rfl
  rw [String.data_append, String.data_append, e1, e2] at h2
  simp at h2

theorem reindex_demes_ne_notConnected (g : Graph) : reindex_demes g ≠ .error notConnected := by
  intro h
  unfold reindex_demes at h
  simp only [bind, Except.bind, check_condition, pure, Except.pure] at h
  cases h1 : inRange (coeffs g.DemePairs) (g.DemeCoord.length : Int) with
  | none => simp [h1, notConnected] at h
  | some c1 =>
    cases h2 : inRange g.indiv2deme (g.DemeCoord.length : Int) with
    | none => cases c1 <;> simp [h1, h2, notConnected] at h
    | some c2 => cases c1 <;> cases c2 <;> simp [h1, h2, notConnected] at h

theorem read_input_grid_ne_notConnected (demes edges : Table) :
    read_input_grid demes edges ≠ .error notConnected := by
  intro h
  unfold read_input_grid at h
  simp only [bind, Except.bind, check_condition, pure, Except.pure] at h
  by_cases c1 : demes.cols = 2 <;> by_cases c2 : edges.cols = 2 <;>
    simp only [c1, c2, decide_True, decide_False, ite_true, ite_false] at h
  · cases h1 : dedupLoop (edges.rows.map rowPoint) with
    | none => simp [h1, notConnected, outsideMatrix] at h
    | some t =>
      simp only [h1] at h
      split at h
      · simp [notConnected] at h
      · rename_i c _
        cases c <;> simp [notConnected, notInRange] at h
  all_goals simp [notConnected] at h

theorem build_grid_ne_notConnected (readMatrixXd : String → Table) (gridpath : String)
    (habitat : Habitat) (nDemeDensity : Int) (g : Graph) :
    build_grid readMatrixXd gridpath habitat nDemeDensity g ≠ .error notConnected := by
  intro h
  unfold build_grid at h
  split at h
  · simp at h
  · split at h
    · simp at h
    · rename_i msg hmsg
      simp only [Except.error.injEq] at h
      subst h
      exact read_input_grid_ne_notConnected _ _ hmsg

theorem map_indiv_to_deme_ne_notConnected {δ : Type} [LinearOrder δ]
    (dist : Point → Point → δ) (coord : Table) (nIndiv : Int) (g : Graph) :
    map_indiv_to_deme dist coord nIndiv g ≠ .error notConnected := by
  intro h
  unfold map_indiv_to_deme at h
  simp only [bind, Except.bind, check_condition, pure, Except.pure] at h
  by_cases c : (decide ((coord.rows.length : Int) = nIndiv) && decide (coord.cols = 2)) = true
  · simp only [c, ite_true] at h
    split at h <;> simp [notConnected] at h
  · simp only [c, ite_false] at h
    simp [notConnected] at h

/-- C3, counterexample: a stored lattice in two components.  The run ends with
the connectivity error, and by then the samples have been assigned and the
three output files have been written. -/
theorem generate_grid_writes_before_check :
    generate_grid euclidean_sq splitStore (fun _ => true) "data" "grid" "out" unitSquare 0 2
        emptyGraph =
      ([("out/ipmap.txt", .ints [1, 4]),
        ("out/demes.txt", .reals [(0, 0), (1, 0), (0, 1), (1, 1)]),
        ("out/edges.txt", .pairs [(1, 2), (3, 4)])], .error notConnected) := by
  decide!

/-- C3, amended: a run of `generate_grid` that ends with the connectivity error
has built the grid, has assigned the samples with `map_indiv_to_deme`, and has
written `ipmap.txt`, `demes.txt` and `edges.txt` from the graph that fails the
check; the graph has not been reindexed. -/
theorem generate_grid_not_connected {δ : Type} [LinearOrder δ] (dist : Point → Point → δ)
    (readMatrixXd : String → Table) (canOpen : String → Bool)
    (datapath gridpath mcmcpath : String) (habitat : Habitat) (nDemeDensity nIndiv : Int)
    (g : Graph)
    (h : (generate_grid dist readMatrixXd canOpen datapath gridpath mcmcpath habitat
      nDemeDensity nIndiv g).2 = .error notConnected) :
    ∃ g1 g2, build_grid readMatrixXd gridpath habitat nDemeDensity g = .ok g1 ∧
      map_indiv_to_deme dist (readMatrixXd (datapath ++ ".coord")) nIndiv g1 = .ok g2 ∧
      is_connected g2 = false ∧
      (generate_grid dist readMatrixXd canOpen datapath gridpath mcmcpath habitat
        nDemeDensity nIndiv g).1 =
        [(mcmcpath ++ "/ipmap.txt", .ints (g2.indiv2deme.map (· + 1))),
         (mcmcpath ++ "/demes.txt", .reals g2.DemeCoord),
         (mcmcpath ++ "/edges.txt", .pairs (g2.DemePairs.map fun p => (p.1 + 1, p.2 + 1)))] := by
  unfold generate_grid at h ⊢
  cases hb : build_grid readMatrixXd gridpath habitat nDemeDensity g with
  | error msg =>
    simp only [hb] at h
    simp only [Except.error.injEq] at h
    subst h
    exact absurd hb (build_grid_ne_notConnected _ _ _ _ _)
  | ok g1 =>
    simp only [hb] at h ⊢
    cases hm : map_indiv_to_deme dist (readMatrixXd (datapath ++ ".coord")) nIndiv g1 with
    | error msg =>
      simp only [hm] at h
      simp only [Except.error.injEq] at h
      subst h
      exact absurd hm (map_indiv_to_deme_ne_notConnected _ _ _ _)
    | ok g2 =>
      simp only [hm] at h ⊢
      refine ⟨g1, g2, rfl, hm, ?_⟩
      unfold dlmwrite_grid at h ⊢
      by_cases o1 : canOpen (mcmcpath ++ "/ipmap.txt") = true
      · by_cases o2 : canOpen (mcmcpath ++ "/demes.txt") = true
        · by_cases o3 : canOpen (mcmcpath ++ "/edges.txt") = true
          · simp only [o1, o2, o3, Bool.not_true, Bool.false_eq_true, ite_false,
              List.nil_append, List.cons_append] at h ⊢
            by_cases hc : is_connected g2 = true
            · simp only [hc, ite_true] at h
              exact absurd h (reindex_demes_ne_notConnected g2)
            · have hcf : is_connected g2 = false := by simpa using hc
              refine ⟨hcf, ?_⟩
              rw [hcf]
              rfl
          · simp only [o1, o2, o3, Bool.not_true, Bool.false_eq_true, ite_false, ite_true,
              Bool.not_false, Bool.not_eq_true] at h
            simp only [Except.error.injEq] at h
            exact absurd h (cannot_open_ne _ _)
        · simp only [o1, o2, Bool.not_true, Bool.false_eq_true, ite_false, ite_true,
            Bool.not_false, Bool.not_eq_true] at h
          simp only [Except.error.injEq] at h
          exact absurd h (cannot_open_ne _ _)
      · simp only [o1, Bool.not_true, Bool.false_eq_true, ite_false, ite_true,
          Bool.not_false, Bool.not_eq_true] at h
        simp only [Except.error.injEq] at h
        exact absurd h (cannot_open_ne _ _)

/-- An instance of the amended C3: the stored lattice in two components. -/
theorem generate_grid_not_connected_witness :
    (generate_grid euclidean_sq splitStore (fun _ => true) "data" "grid" "out" unitSquare 0 2
      emptyGraph).2 = .error notConnected ∧
    ∃ g1 g2, build_grid splitStore "grid" unitSquare 0 emptyGraph = .ok g1 ∧
      map_indiv_to_deme euclidean_sq (splitStore ("data" ++ ".coord")) 2 g1 = .ok g2 ∧
      is_connected g2 = false ∧
      (generate_grid euclidean_sq splitStore (fun _ => true) "data" "grid" "out" unitSquare 0 2
        emptyGraph).1 =
        [("out" ++ "/ipmap.txt", .ints (g2.indiv2deme.map (· + 1))),
         ("out" ++ "/demes.txt", .reals g2.DemeCoord),
         ("out" ++ "/edges.txt", .pairs (g2.DemePairs.map fun p => (p.1 + 1, p.2 + 1)))] :=
  ⟨by decide!, generate_grid_not_connected euclidean_sq splitStore (fun _ => true) "data" "grid"
    "out" unitSquare 0 2 emptyGraph (by decide!)⟩

/-! ## Arithmetic of `neighbors_in_grid` -/

theorem tmod_first (nx r1 c1 : Int) (hnx : 0 < nx) (hr : 0 ≤ r1) (hc : 0 ≤ c1) (hc' : c1 < nx) :
    ((r1 * nx + c1).tmod nx > 0 ↔ 0 < c1) := by
  have h0 : 0 ≤ r1 * nx := mul_nonneg hr (le_of_lt hnx)
  rw [Int.tmod_eq_emod (by omega) (by omega)]
  have : (r1 * nx + c1) % nx = c1 := by
    rw [add_comm, Int.add_mul_emod_self, Int.emod_eq_of_lt hc hc']
  rw [this]

theorem tmod_last (nx r1 c1 : Int) (hnx : 0 < nx) (hr : 0 ≤ r1) (hc : 0 ≤ c1) (hc' : c1 < nx) :
    ((r1 * nx + c1 + 1).tmod nx > 0 ↔ c1 + 1 < nx) := by
  have h0 : 0 ≤ r1 * nx := mul_nonneg hr (le_of_lt hnx)
  rw [Int.tmod_eq_emod (by omega) (by omega)]
  by_cases h : c1 + 1 < nx
  · have : (r1 * nx + c1 + 1) % nx = c1 + 1 := by
      have e : r1 * nx + c1 + 1 = (c1 + 1) + r1 * nx := by ring
      rw [e, Int.add_mul_emod_self, Int.emod_eq_of_lt (by omega) h]
    rw [this]
    constructor
    · intro _; exact h
    · intro _; omega
  · have : (r1 * nx + c1 + 1) % nx = 0 := by
      have e : r1 * nx + c1 + 1 = 0 + (r1 + 1) * nx := by
        have : c1 + 1 = nx := by omega
        rw [add_assoc, this]; ring
      rw [e, Int.add_mul_emod_self]
      simp
    rw [this]
    constructor
    · intro h1; omega
    · intro h1; exact absurd h1 h

theorem tmod_first_even (nx r1 c1 : Int) (hnx : 0 < nx) (hr : 0 ≤ r1) (hc : 0 ≤ c1)
    (hc' : c1 < nx) :
    ((r1 * nx + c1).tmod (2 * nx) > 0 ↔ ¬ (r1 % 2 = 0 ∧ c1 = 0)) := by
  have h0 : 0 ≤ r1 * nx := mul_nonneg hr (le_of_lt hnx)
  rw [Int.tmod_eq_emod (by omega) (by omega)]
  obtain ⟨q, e, hq, he0, he1⟩ : ∃ q e : Int, r1 = 2 * q + e ∧ 0 ≤ e ∧ e < 2 :=
    ⟨r1 / 2, r1 % 2, by omega, by omega, by omega⟩
  have hcase : e = 0 ∨ e = 1 := by omega
  rcases hcase with h | h
  · have : (r1 * nx + c1) % (2 * nx) = c1 := by
      have e1 : r1 * nx + c1 = c1 + q * (2 * nx) := by rw [hq, h]; ring
      rw [e1, Int.add_mul_emod_self, Int.emod_eq_of_lt hc (by omega)]
    rw [this]
    constructor
    · intro h1 h2; omega
    · intro h1; by_contra h2; apply h1; omega
  · have : (r1 * nx + c1) % (2 * nx) = nx + c1 := by
      have e1 : r1 * nx + c1 = (nx + c1) + q * (2 * nx) := by rw [hq, h]; ring
      rw [e1, Int.add_mul_emod_self, Int.emod_eq_of_lt (by omega) (by omega)]
    rw [this]
    constructor
    · intro _ h2; omega
    · intro _; omega

theorem tmod_last_odd (nx r1 c1 : Int) (hnx : 0 < nx) (hr : 0 ≤ r1) (hc : 0 ≤ c1)
    (hc' : c1 < nx) :
    ((r1 * nx + c1 + 1).tmod (2 * nx) > 0 ↔ ¬ (r1 % 2 = 1 ∧ c1 + 1 = nx)) := by
  have h0 : 0 ≤ r1 * nx := mul_nonneg hr (le_of_lt hnx)
  rw [Int.tmod_eq_emod (by omega) (by omega)]
  obtain ⟨q, e, hq, he0, he1⟩ : ∃ q e : Int, r1 = 2 * q + e ∧ 0 ≤ e ∧ e < 2 :=
    ⟨r1 / 2, r1 % 2, by omega, by omega, by omega⟩
  have hcase : e = 0 ∨ e = 1 := by omega
  rcases hcase with h | h
  · have : (r1 * nx + c1 + 1) % (2 * nx) = c1 + 1 := by
      have e1 : r1 * nx + c1 + 1 = (c1 + 1) + q * (2 * nx) := by rw [hq, h]; ring
      rw [e1, Int.add_mul_emod_self, Int.emod_eq_of_lt (by omega) (by omega)]
    rw [this]
    constructor
    · intro _ h2; omega
    · intro _; omega
  · by_cases hl : c1 + 1 = nx
    · have : (r1 * nx + c1 + 1) % (2 * nx) = 0 := by
        have e1 : r1 * nx + c1 + 1 = 0 + (q + 1) * (2 * nx) := by
          rw [add_assoc, hl, hq, h]; ring
        rw [e1, Int.add_mul_emod_self]
        simp
      rw [this]
      constructor
      · intro h1; omega
      · intro h1; exfalso; apply h1; omega
    · have : (r1 * nx + c1 + 1) % (2 * nx) = nx + c1 + 1 := by
        have e1 : r1 * nx + c1 + 1 = (nx + c1 + 1) + q * (2 * nx) := by rw [hq, h]; ring
        rw [e1, Int.add_mul_emod_self, Int.emod_eq_of_lt (by omega) (by omega)]
      rw [this]
      constructor
      · intro _ h2; exact hl h2.2
      · intro _; omega

theorem tmod_parity (r1 : Int) (hr : 0 ≤ r1) : (r1 + 1).tmod 2 = 1 - r1 % 2 := by
  rw [Int.tmod_eq_emod (by omega) (by omega)]
  omega

/-- The neighbours of a lattice node with a larger raw index: they are the
right neighbour (position 3) and the two neighbours in the next row (positions
1 and 2), and they are nodes of the lattice. -/
theorem neighbors_above (nx ny r1 c1 pos : Int) (hnx : 0 < nx) (hr : 0 ≤ r1)
    (hc : 0 ≤ c1) (hc' : c1 < nx)
    (hlt : r1 * nx + c1 < (neighbors_in_grid r1 c1 pos nx ny).1) :
    (pos = 3 ∧ c1 + 1 < nx ∧ (neighbors_in_grid r1 c1 pos nx ny).2.1 = r1 ∧
      (neighbors_in_grid r1 c1 pos nx ny).2.2 = c1 + 1 ∧
      (neighbors_in_grid r1 c1 pos nx ny).1 = r1 * nx + c1 + 1) ∨
    (pos = 1 ∧ r1 + 1 < ny ∧ ¬ (r1 % 2 = 0 ∧ c1 = 0) ∧
      (neighbors_in_grid r1 c1 pos nx ny).2.1 = r1 + 1 ∧
      (neighbors_in_grid r1 c1 pos nx ny).2.2 = c1 - (1 - r1 % 2) ∧
      (neighbors_in_grid r1 c1 pos nx ny).1 = r1 * nx + c1 + nx - (1 - r1 % 2)) ∨
    (pos = 2 ∧ r1 + 1 < ny ∧ ¬ (r1 % 2 = 1 ∧ c1 + 1 = nx) ∧
      (neighbors_in_grid r1 c1 pos nx ny).2.1 = r1 + 1 ∧
      (neighbors_in_grid r1 c1 pos nx ny).2.2 = c1 + r1 % 2 ∧
      (neighbors_in_grid r1 c1 pos nx ny).1 = r1 * nx + c1 + nx + r1 % 2) := by
  have g0 := tmod_first nx r1 c1 hnx hr hc hc'
  have g3 := tmod_last nx r1 c1 hnx hr hc hc'
  have g5 := tmod_first_even nx r1 c1 hnx hr hc hc'
  have g4 := tmod_last_odd nx r1 c1 hnx hr hc hc'
  have gp := tmod_parity r1 hr
  have hpar : r1 % 2 = 0 ∨ r1 % 2 = 1 := by omega
  have m1 : nx * (r1 - 1) = r1 * nx - nx := by ring
  have m2 : nx * (r1 + 1) = r1 * nx + nx := by ring
  have m3 : nx * r1 = r1 * nx := by ring
  have hcell : neighbor_cell r1 c1 pos nx ny =
      if pos = 0 ∧ 0 < c1 then (r1, c1 - 1)
      else if pos = 3 ∧ c1 + 1 < nx then (r1, c1 + 1)
      else if pos = 5 ∧ r1 > 0 ∧ ¬ (r1 % 2 = 0 ∧ c1 = 0) then (r1 - 1, c1 - (1 - r1 % 2))
      else if pos = 4 ∧ r1 > 0 ∧ ¬ (r1 % 2 = 1 ∧ c1 + 1 = nx) then
        (r1 - 1, c1 + 1 - (1 - r1 % 2))
      else if pos = 1 ∧ r1 < ny - 1 ∧ ¬ (r1 % 2 = 0 ∧ c1 = 0) then (r1 + 1, c1 - (1 - r1 % 2))
      else if pos = 2 ∧ r1 < ny - 1 ∧ ¬ (r1 % 2 = 1 ∧ c1 + 1 = nx) then
        (r1 + 1, c1 + 1 - (1 - r1 % 2))
      else (-1, -1) := by
    unfold neighbor_cell
    simp only [g0, g3, g5, g4, gp]
  unfold neighbors_in_grid at hlt ⊢
  rw [hcell] at hlt ⊢
  clear hcell g0 g3 g5 g4 gp
  have h0 : 0 ≤ r1 * nx := mul_nonneg hr (le_of_lt hnx)
  by_cases p0 : pos = 0
  · subst p0; simp at hlt ⊢
    split_ifs at hlt ⊢ <;> dsimp only at * <;>
      (try simp only [m1, m2, m3, mul_neg, mul_one, true_and, and_true] at hlt ⊢) <;> omega
  by_cases p3 : pos = 3
  · subst p3; simp at hlt ⊢
    split_ifs at hlt ⊢ <;> dsimp only at * <;>
      (try simp only [m1, m2, m3, mul_neg, mul_one, true_and, and_true] at hlt ⊢) <;> omega
  by_cases p5 : pos = 5
  · subst p5; simp at hlt ⊢
    split_ifs at hlt ⊢ <;> dsimp only at * <;>
      (try simp only [m1, m2, m3, mul_neg, mul_one, true_and, and_true] at hlt ⊢) <;> omega
  by_cases p4 : pos = 4
  · subst p4; simp at hlt ⊢
    split_ifs at hlt ⊢ <;> dsimp only at * <;>
      (try simp only [m1, m2, m3, mul_neg, mul_one, true_and, and_true] at hlt ⊢) <;> omega
  by_cases p1 : pos = 1
  · subst p1; simp at hlt ⊢
    split_ifs at hlt ⊢ <;> dsimp only at * <;>
      (try simp only [m1, m2, m3, mul_neg, mul_one, true_and, and_true] at hlt ⊢) <;> omega
  by_cases p2 : pos = 2
  · subst p2; simp at hlt ⊢
    split_ifs at hlt ⊢ <;> dsimp only at * <;>
      (try simp only [m1, m2, m3, mul_neg, mul_one, true_and, and_true] at hlt ⊢) <;> omega
  simp [p0, p3, p5, p4, p1, p2] at hlt
  omega

/-! ## The double loops of `make_triangular_grid` -/

/-- A double loop over rows and columns is a single loop over the raw index. -/
theorem nested_range_foldl {σ : Type} (f : σ → Nat → Nat → σ) (ny nx : Nat) (s0 : σ) :
    (List.range ny).foldl (fun s r => (List.range nx).foldl (fun s c => f s r c) s) s0 =
      (List.range (ny * nx)).foldl (fun s k => f s (k / nx) (k % nx)) s0 := by
  induction ny with
  | zero => simp
  | succ ny ih =>
    rw [List.range_succ, List.foldl_append, ih]
    have e : (ny + 1) * nx = ny * nx + nx := by ring
    rw [e, List.range_add, List.foldl_append, List.foldl_map]
    simp only [List.foldl_cons, List.foldl_nil]
    apply List.foldl_ext
    intro s c hc
    have hc' : c < nx := List.mem_range.mp hc
    have hnx : 0 < nx := by omega
    have h1 : (ny * nx + c) / nx = ny := by
      rw [Nat.add_comm, Nat.mul_comm, Nat.add_mul_div_left _ _ hnx, Nat.div_eq_of_lt hc']
      omega
    have h2 : (ny * nx + c) % nx = c := by
      rw [Nat.add_comm, Nat.mul_comm, Nat.add_mul_mod_self_left, Nat.mod_eq_of_lt hc']
    rw [h1, h2]

theorem countLoop_flat (L : Lattice) (st : GridCount) :
    countLoop L st = (List.range (L.rows * L.cols)).foldl
      (fun st k => countCell L st ((k / L.cols : Nat) : Int) ((k % L.cols : Nat) : Int)) st := by
  unfold countLoop
  exact nested_range_foldl (fun st r c => countCell L st (r : Int) (c : Int)) L.rows L.cols st

theorem fillLoop_flat (L : Lattice) (newIndex : List Int) (st : GridFill) :
    fillLoop L newIndex st = (List.range (L.rows * L.cols)).foldl
      (fun st k => fillCell L newIndex st ((k / L.cols : Nat) : Int) ((k % L.cols : Nat) : Int))
      st := by
  unfold fillLoop
  exact nested_range_foldl (fun st r c => fillCell L newIndex st (r : Int) (c : Int))
    L.rows L.cols st

/-- The raw index of a node is `r1 * xDemes + c1`. -/
theorem raw_alpha (L : Lattice) (k : Nat) (hL : 0 < L.cols) :
    ((k / L.cols : Nat) : Int) * L.xDemes + ((k % L.cols : Nat) : Int) = (k : Int) := by
  have hx : L.xDemes = (L.cols : Int) := by unfold Lattice.cols at hL ⊢; omega
  rw [hx]
  have := Nat.div_add_mod k L.cols
  have h2 : ((L.cols * (k / L.cols) + k % L.cols : Nat) : Int) = (k : Int) := by rw [this]
  push_cast at h2
  rw [mul_comm]
  exact h2

theorem rank_succ (L : Lattice) (m : Nat) :
    rank L (m + 1) = rank L m + (if rawIn L m then 1 else 0) := by
  unfold rank
  rw [List.range_succ, List.filter_append, List.length_append]
  by_cases h : rawIn L m = true <;> simp [h]

theorem rank_mono (L : Lattice) (m n : Nat) (h : m ≤ n) : rank L m ≤ rank L n := by
  induction n with
  | zero => have : m = 0 := by omega
            rw [this]
  | succ n ih =>
    rcases Nat.lt_or_ge m (n + 1) with h1 | h1
    · have := ih (by omega)
      rw [rank_succ]
      omega
    · have : m = n + 1 := by omega
      rw [this]

/-- The deme index is strictly increasing on the nodes inside the habitat. -/
theorem rank_lt (L : Lattice) (k m : Nat) (h : k < m) (hk : rawIn L k = true) :
    rank L k < rank L m := by
  have h1 := rank_mono L (k + 1) m (by omega)
  rw [rank_succ, hk] at h1
  simp only [ite_true] at h1
  omega

theorem rowsUpTo_succ (L : Lattice) (ni : List Int) (m : Nat) :
    rowsUpTo L ni (m + 1) = rowsUpTo L ni m ++ rowsOf L ni m := by
  unfold rowsUpTo
  rw [List.range_succ, List.flatMap_append]
  simp

theorem rowsOf_length (L : Lattice) (ni : List Int) (k : Nat) :
    (rowsOf L ni k).length =
      if rawIn L k then ((List.range 6).filter (rawTest L k)).length else 0 := by
  unfold rowsOf
  split <;> simp

theorem rowsUpTo_length (L : Lattice) (ni nj : List Int) (m : Nat) :
    (rowsUpTo L ni m).length = (rowsUpTo L nj m).length := by
  induction m with
  | zero => simp [rowsUpTo]
  | succ m ih =>
    rw [rowsUpTo_succ, rowsUpTo_succ, List.length_append, List.length_append, ih,
      rowsOf_length, rowsOf_length]

theorem rowsUpTo_length_mono (L : Lattice) (ni : List Int) (m n : Nat) (h : m ≤ n) :
    (rowsUpTo L ni m).length ≤ (rowsUpTo L ni n).length := by
  induction n with
  | zero => have : m = 0 := by omega
            rw [this]
  | succ n ih =>
    rcases Nat.lt_or_ge m (n + 1) with h1 | h1
    · have := ih (by omega)
      rw [rowsUpTo_succ, List.length_append]
      omega
    · have : m = n + 1 := by omega
      rw [this]

/-- The loop over the six positions in the first double loop only counts. -/
theorem count_positions (L : Lattice) (r1 c1 : Int) (ps : List Nat) :
    ∀ st : GridCount,
      ps.foldl (fun st (pos : Nat) =>
          if edgeTest L r1 c1 (pos : Int) then { st with nEdges := st.nEdges + 1 } else st) st =
        { st with nEdges := st.nEdges +
            ((ps.filter fun (pos : Nat) => edgeTest L r1 c1 (pos : Int)).length : Int) } := by
  induction ps with
  | nil => intro st; simp
  | cons p ps ih =>
    intro st
    simp only [List.foldl_cons]
    rw [ih]
    by_cases h : edgeTest L r1 c1 (p : Int) = true
    · simp only [h, ite_true, List.filter_cons, List.length_cons]
      congr 1
      push_cast
      ring
    · simp [h]

theorem countCell_invariant (L : Lattice) (N m : Nat) (st : GridCount) (hL : 0 < L.cols)
    (hm : m < N) (inv : CountInv L N m st) :
    CountInv L N (m + 1)
      (countCell L st ((m / L.cols : Nat) : Int) ((m % L.cols : Nat) : Int)) := by
  unfold countCell
  rw [raw_alpha L m hL]
  have hin : nodeIn L ((m / L.cols : Nat) : Int) ((m % L.cols : Nat) : Int) = rawIn L m := rfl
  rw [hin]
  by_cases h : rawIn L m = true
  · simp only [h, ite_true]
    rw [count_positions]
    have hlen : m < st.newIndex.length := by rw [inv.len]; exact hm
    refine ⟨by simpa [setCoeff] using inv.len, ?_, ?_, ?_⟩
    · simp only [rank_succ, h, ite_true, inv.demes]
      push_cast; ring
    · simp only [rowsUpTo_succ, List.length_append, rowsOf_length, h, ite_true, inv.edges]
      push_cast
      rfl
    · intro k hk hkin
      simp only [setCoeff, Int.toNat_ofNat]
      rcases Nat.lt_or_ge k m with hlt | hge
      · rw [getD_set_ne _ _ _ _ _ (by omega)]
        exact inv.index k hlt hkin
      · have : k = m := by omega
        subst this
        rw [getD_set_self _ _ _ _ hlen]
        exact inv.demes
  · simp only [h, ite_false]
    have h' : rawIn L m = false := by simpa using h
    refine ⟨inv.len, ?_, ?_, ?_⟩
    · rw [rank_succ, h']
      simpa using inv.demes
    · rw [rowsUpTo_succ, List.length_append, rowsOf_length, h']
      simpa using inv.edges
    · intro k hk hkin
      rcases Nat.lt_or_ge k m with hlt | hge
      · exact inv.index k hlt hkin
      · have : k = m := by omega
        subst this
        rw [h'] at hkin
        exact absurd hkin (by simp)

/-- The state after the first double loop of `make_triangular_grid`. -/
theorem countLoop_invariant (L : Lattice) (N : Nat) (hN : L.rows * L.cols ≤ N) :
    CountInv L N (L.rows * L.cols)
      (countLoop L { newIndex := List.replicate N (-1), nDemes := 0, nEdges := 0 }) := by
  rw [countLoop_flat]
  apply foldl_range_invariant _ (CountInv L N)
  · exact ⟨by simp, by simp [rank], by simp [rowsUpTo], fun k hk => absurd hk (Nat.not_lt_zero k)⟩
  · intro i st hi inv
    have hL : 0 < L.cols := by
      rcases Nat.eq_zero_or_pos L.cols with h | h
      · rw [h] at hi; simp at hi
      · exact h
    exact countCell_invariant L N i st hL (by omega) inv

/-- The loop over the six positions in the second double loop writes the rows
of the node one after the other, from row `e` on. -/
theorem fill_positions (L : Lattice) (ni : List Int) (r1 c1 : Int) (a : Int) (ps : List Nat) :
    ∀ st : GridFill, 0 ≤ st.e →
      st.e.toNat + (ps.filter fun (pos : Nat) => edgeTest L r1 c1 (pos : Int)).length ≤
        st.DemePairs.length →
      let R := ps.foldl (fun st (pos : Nat) =>
          let beta := (neighbors_in_grid r1 c1 (pos : Int) L.xDemes L.yDemes).1
          if edgeTest L r1 c1 (pos : Int) then
            { st with
              DemePairs := setCoeff st.DemePairs st.e (a, coeff ni beta),
              e := st.e + 1 }
          else st) st
      let rs := (ps.filter fun (pos : Nat) => edgeTest L r1 c1 (pos : Int)).map
        fun (pos : Nat) => (a, coeff ni (neighbors_in_grid r1 c1 (pos : Int) L.xDemes L.yDemes).1)
      R.DemeCoord = st.DemeCoord ∧ R.e = st.e + (rs.length : Int) ∧
        R.DemePairs.length = st.DemePairs.length ∧
        (∀ j, j < st.e.toNat → R.DemePairs.getD j default = st.DemePairs.getD j default) ∧
        (∀ j, j < rs.length → R.DemePairs.getD (st.e.toNat + j) default = rs.getD j default) := by
  induction ps with
  | nil =>
    intro st _ _
    simp
  | cons p ps ih =>
    intro st he hroom
    simp only [List.foldl_cons]
    by_cases h : edgeTest L r1 c1 (p : Int) = true
    · simp only [h, ite_true, List.filter_cons, List.map_cons, List.length_cons] at hroom ⊢
      have hnext : (st.e + 1).toNat = st.e.toNat + 1 := by omega
      obtain ⟨k1, k2, k3, k4, k5⟩ := ih
        { st with
          DemePairs := setCoeff st.DemePairs st.e
            (a, coeff ni (neighbors_in_grid r1 c1 (p : Int) L.xDemes L.yDemes).1),
          e := st.e + 1 } (by simp only; omega)
        (by simp only [setCoeff, List.length_set]; omega)
      simp only [setCoeff, List.length_set, List.length_map] at k1 k2 k3 k4 k5 ⊢
      refine ⟨k1, by rw [k2]; push_cast; ring, k3, ?_, ?_⟩
      · intro j hj
        rw [k4 j (by omega), getD_set_ne _ _ _ _ _ (by omega)]
      · intro j hj
        cases j with
        | zero =>
          rw [Nat.add_zero, k4 _ (by omega), getD_set_self _ _ _ _ (by omega)]
          rfl
        | succ j =>
          have := k5 j (by omega)
          rw [hnext] at this
          have e2 : st.e.toNat + (j + 1) = st.e.toNat + 1 + j := by omega
          rw [e2, this]
          rfl
    · simp only [h, ite_false, List.filter_cons] at hroom ⊢
      exact ih st he hroom

theorem rowsOf_eq (L : Lattice) (ni : List Int) (m : Nat) (h : rawIn L m = true) :
    rowsOf L ni m = ((List.range 6).filter fun (pos : Nat) =>
        edgeTest L ((m / L.cols : Nat) : Int) ((m % L.cols : Nat) : Int) (pos : Int)).map
      fun (pos : Nat) => (coeff ni (m : Int),
        coeff ni (neighbors_in_grid ((m / L.cols : Nat) : Int) ((m % L.cols : Nat) : Int)
          (pos : Int) L.xDemes L.yDemes).1) := by
  unfold rowsOf
  rw [h]
  rfl

theorem fillCell_invariant (L : Lattice) (ni : List Int) (M m : Nat) (st : GridFill)
    (hL : 0 < L.cols) (hm : m < M)
    (hni : ∀ k, k < M → rawIn L k = true → ni.getD k 0 = (rank L k : Int))
    (inv : FillInv L ni (rank L M) (rowsUpTo L ni M).length m st) :
    FillInv L ni (rank L M) (rowsUpTo L ni M).length (m + 1)
      (fillCell L ni st ((m / L.cols : Nat) : Int) ((m % L.cols : Nat) : Int)) := by
  unfold fillCell
  rw [raw_alpha L m hL]
  have hin : nodeIn L ((m / L.cols : Nat) : Int) ((m % L.cols : Nat) : Int) = rawIn L m := rfl
  rw [hin]
  by_cases h : rawIn L m = true
  · simp only [h, ite_true]
    have hrank : coeff ni (m : Int) = (rank L m : Int) := by
      rw [coeff_natCast]; exact hni m hm h
    have hroom := rowsUpTo_length_mono L ni (m + 1) M (by omega)
    rw [rowsUpTo_succ, List.length_append, rowsOf_eq L ni m h, List.length_map] at hroom
    have hrk : rank L m < rank L M := rank_lt L m M hm h
    obtain ⟨k1, k2, k3, k4, k5⟩ := fill_positions L ni ((m / L.cols : Nat) : Int)
      ((m % L.cols : Nat) : Int) (coeff ni (m : Int)) (List.range 6)
      { st with
        DemeCoord := setCoeff st.DemeCoord (coeff ni (m : Int))
          (nodeX L ((m / L.cols : Nat) : Int) ((m % L.cols : Nat) : Int),
            nodeY L ((m / L.cols : Nat) : Int)) }
      (by simp only [inv.count]; omega)
      (by simp only [inv.count, inv.len_pairs, Int.toNat_ofNat]; exact hroom)
    have he : st.e.toNat = (rowsUpTo L ni m).length := by rw [inv.count]; simp
    simp only [he] at k1 k2 k3 k4 k5
    refine ⟨?_, ?_, ?_, ?_, ?_⟩
    · rw [k1]; simpa [setCoeff] using inv.len_coord
    · rw [k3]; exact inv.len_pairs
    · rw [k2, rowsUpTo_succ, List.length_append, rowsOf_eq L ni m h, inv.count]
      push_cast
      rfl
    · intro k hk hkin
      rw [k1]
      simp only [setCoeff, hrank, Int.toNat_ofNat]
      rcases Nat.lt_or_ge k m with hlt | hge
      · have := rank_lt L k m hlt hkin
        rw [getD_set_ne _ _ _ _ _ (by omega)]
        exact inv.coord k hlt hkin
      · have : k = m := by omega
        subst this
        rw [getD_set_self _ _ _ _ (by rw [inv.len_coord]; exact hrk)]
        rfl
    · intro j hj
      rw [rowsUpTo_succ, rowsOf_eq L ni m h] at hj ⊢
      rcases Nat.lt_or_ge j (rowsUpTo L ni m).length with hlt | hge
      · rw [k4 j hlt, List.getD_append _ _ _ _ hlt]
        exact inv.pairs j hlt
      · rw [List.getD_append_right _ _ _ _ hge]
        rw [List.length_append] at hj
        have := k5 (j - (rowsUpTo L ni m).length) (by omega)
        have e2 : (rowsUpTo L ni m).length + (j - (rowsUpTo L ni m).length) = j := by omega
        rw [e2] at this
        exact this
  · simp only [h, ite_false]
    have h' : rawIn L m = false := by simpa using h
    have hrows : rowsOf L ni m = [] := by unfold rowsOf; rw [h']; rfl
    refine ⟨inv.len_coord, inv.len_pairs, ?_, ?_, ?_⟩
    · rw [rowsUpTo_succ, hrows, List.append_nil]; exact inv.count
    · intro k hk hkin
      rcases Nat.lt_or_ge k m with hlt | hge
      · exact inv.coord k hlt hkin
      · have : k = m := by omega
        subst this
        rw [h'] at hkin
        exact absurd hkin (by simp)
    · intro j hj
      rw [rowsUpTo_succ, hrows, List.append_nil] at hj ⊢
      exact inv.pairs j hj

/-- The state after the second double loop of `make_triangular_grid`. -/
theorem fillLoop_invariant (L : Lattice) (ni : List Int)
    (hni : ∀ k, k < L.rows * L.cols → rawIn L k = true → ni.getD k 0 = (rank L k : Int)) :
    FillInv L ni (rank L (L.rows * L.cols)) (rowsUpTo L ni (L.rows * L.cols)).length
      (L.rows * L.cols)
      (fillLoop L ni
        { DemeCoord := List.replicate (rank L (L.rows * L.cols)) (0, 0),
          DemePairs := List.replicate (rowsUpTo L ni (L.rows * L.cols)).length (0, 0),
          e := 0 }) := by
  rw [fillLoop_flat]
  apply foldl_range_invariant _
    (FillInv L ni (rank L (L.rows * L.cols)) (rowsUpTo L ni (L.rows * L.cols)).length)
  · exact ⟨by simp, by simp, by simp [rowsUpTo], fun k hk => absurd hk (Nat.not_lt_zero k),
      fun j hj => by simp [rowsUpTo] at hj⟩
  · intro i st hi inv
    have hL : 0 < L.cols := by
      rcases Nat.eq_zero_or_pos L.cols with h | h
      · rw [h] at hi; simp at hi
      · exact h
    exact fillCell_invariant L ni _ i st hL hi hni inv

/-! ## The edges of the triangular grid -/

/-- A neighbour with a larger raw index is a node of the lattice. -/
theorem neighbors_above_valid (nx ny r1 c1 pos : Int) (hnx : 0 < nx) (hr : 0 ≤ r1)
    (hr' : r1 < ny) (hc : 0 ≤ c1) (hc' : c1 < nx)
    (hlt : r1 * nx + c1 < (neighbors_in_grid r1 c1 pos nx ny).1) :
    0 ≤ (neighbors_in_grid r1 c1 pos nx ny).2.1 ∧ (neighbors_in_grid r1 c1 pos nx ny).2.1 < ny ∧
    0 ≤ (neighbors_in_grid r1 c1 pos nx ny).2.2 ∧ (neighbors_in_grid r1 c1 pos nx ny).2.2 < nx ∧
    (neighbors_in_grid r1 c1 pos nx ny).1 =
      (neighbors_in_grid r1 c1 pos nx ny).2.1 * nx + (neighbors_in_grid r1 c1 pos nx ny).2.2 := by
  have hpar : r1 % 2 = 0 ∨ r1 % 2 = 1 := by omega
  rcases neighbors_above nx ny r1 c1 pos hnx hr hc hc' hlt with
    ⟨_, h1, h2, h3, h4⟩ | ⟨_, h1, h0, h2, h3, h4⟩ | ⟨_, h1, h0, h2, h3, h4⟩
  · refine ⟨by omega, by omega, by omega, by omega, ?_⟩
    rw [h4, h2, h3]; ring
  · refine ⟨by omega, by omega, by omega, by omega, ?_⟩
    rw [h4, h2, h3]; ring
  · refine ⟨by omega, by omega, by omega, by omega, ?_⟩
    rw [h4, h2, h3]; ring

/-- Two positions of a node that lead to the same neighbour of larger raw index
are the same position. -/
theorem neighbors_above_inj (nx ny r1 c1 pos pos' : Int) (hnx : 0 < nx) (hr : 0 ≤ r1)
    (hc : 0 ≤ c1) (hc' : c1 < nx)
    (hlt : r1 * nx + c1 < (neighbors_in_grid r1 c1 pos nx ny).1)
    (hlt' : r1 * nx + c1 < (neighbors_in_grid r1 c1 pos' nx ny).1)
    (heq : (neighbors_in_grid r1 c1 pos nx ny).1 = (neighbors_in_grid r1 c1 pos' nx ny).1) :
    pos = pos' := by
  have hpar : r1 % 2 = 0 ∨ r1 % 2 = 1 := by omega
  rcases neighbors_above nx ny r1 c1 pos hnx hr hc hc' hlt with
    ⟨p, h1, _, _, h4⟩ | ⟨p, h1, h0, _, _, h4⟩ | ⟨p, h1, h0, _, _, h4⟩ <;>
  rcases neighbors_above nx ny r1 c1 pos' hnx hr hc hc' hlt' with
    ⟨p', k1, _, _, k4⟩ | ⟨p', k1, k0, _, _, k4⟩ | ⟨p', k1, k0, _, _, k4⟩ <;>
  rw [h4, k4] at heq <;> omega

theorem lattice_dims (L : Lattice) (k : Nat) (hk : k < L.rows * L.cols) :
    0 < L.cols ∧ L.xDemes = (L.cols : Int) ∧ L.yDemes = (L.rows : Int) ∧
      k / L.cols < L.rows ∧ k % L.cols < L.cols := by
  have hc : 0 < L.cols := by
    rcases Nat.eq_zero_or_pos L.cols with h | h
    · rw [h] at hk; simp at hk
    · exact h
  have hr : 0 < L.rows := by
    rcases Nat.eq_zero_or_pos L.rows with h | h
    · rw [h] at hk; simp at hk
    · exact h
  refine ⟨hc, ?_, ?_, ?_, Nat.mod_lt _ hc⟩
  · unfold Lattice.cols at hc ⊢; omega
  · unfold Lattice.rows at hr ⊢; omega
  · exact (Nat.div_lt_iff_lt_mul hc).mpr hk

/-- An edge test that succeeds at the node of raw index `k` leads to a node of
larger raw index inside the habitat. -/
theorem edge_target (L : Lattice) (k pos : Nat) (hk : k < L.rows * L.cols)
    (ht : rawTest L k pos = true) :
    ∃ b : Nat, k < b ∧ b < L.rows * L.cols ∧ rawIn L b = true ∧ rawBeta L k pos = (b : Int) := by
  obtain ⟨hc, hx, hy, hrow, hcol⟩ := lattice_dims L k hk
  unfold rawTest edgeTest at ht
  simp only [Bool.and_eq_true, decide_eq_true_eq] at ht
  obtain ⟨hlt, hin⟩ := ht
  rw [hx, hy] at hlt hin
  obtain ⟨v1, v2, v3, v4, v5⟩ := neighbors_above_valid (L.cols : Int) (L.rows : Int)
    ((k / L.cols : Nat) : Int) ((k % L.cols : Nat) : Int) (pos : Int) (by exact_mod_cast hc)
    (Int.natCast_nonneg _) (by exact_mod_cast hrow) (Int.natCast_nonneg _)
    (by exact_mod_cast hcol) hlt
  have halpha := raw_alpha L k hc
  rw [hx] at halpha
  rw [halpha] at hlt
  obtain ⟨r2, hr2⟩ := Int.eq_ofNat_of_zero_le v1
  obtain ⟨c2, hc2⟩ := Int.eq_ofNat_of_zero_le v3
  have hr2' : r2 < L.rows := by omega
  have hc2' : c2 < L.cols := by omega
  have hb : rawBeta L k pos = ((L.cols * r2 + c2 : Nat) : Int) := by
    unfold rawBeta
    rw [hx, hy, v5, hr2, hc2]
    push_cast
    ring
  have hdiv : (L.cols * r2 + c2) / L.cols = r2 := by
    rw [Nat.mul_add_div hc, Nat.div_eq_of_lt hc2']
    omega
  have hmod : (L.cols * r2 + c2) % L.cols = c2 := by
    rw [Nat.mul_add_mod, Nat.mod_eq_of_lt hc2']
  refine ⟨L.cols * r2 + c2, ?_, ?_, ?_, hb⟩
  · unfold rawBeta at hb
    rw [hx, hy] at hb
    rw [hb] at hlt
    exact_mod_cast hlt
  · have h1 : L.cols * (r2 + 1) ≤ L.cols * L.rows := Nat.mul_le_mul_left _ (by omega)
    have h2 : L.cols * (r2 + 1) = L.cols * r2 + L.cols := by ring
    have h3 : L.cols * L.rows = L.rows * L.cols := by ring
    omega
  · unfold rawIn
    rw [hdiv, hmod, ← hr2, ← hc2]
    exact hin

/-- At one node, two positions that pass the edge test lead to different
neighbours. -/
theorem edge_target_inj (L : Lattice) (k pos pos' : Nat) (hk : k < L.rows * L.cols)
    (ht : rawTest L k pos = true) (ht' : rawTest L k pos' = true)
    (heq : rawBeta L k pos = rawBeta L k pos') : pos = pos' := by
  obtain ⟨hc, hx, hy, hrow, hcol⟩ := lattice_dims L k hk
  unfold rawTest edgeTest at ht ht'
  simp only [Bool.and_eq_true, decide_eq_true_eq] at ht ht'
  unfold rawBeta at heq
  rw [hx] at ht ht' heq
  have := neighbors_above_inj (L.cols : Int) L.yDemes ((k / L.cols : Nat) : Int)
    ((k % L.cols : Nat) : Int) (pos : Int) (pos' : Int) (by exact_mod_cast hc)
    (Int.natCast_nonneg _) (Int.natCast_nonneg _) (by exact_mod_cast hcol) ht.1 ht'.1 heq
  exact_mod_cast this

theorem rank_inj (L : Lattice) (k k' : Nat) (hk : rawIn L k = true) (hk' : rawIn L k' = true)
    (h : rank L k = rank L k') : k = k' := by
  rcases Nat.lt_trichotomy k k' with h1 | h1 | h1
  · have := rank_lt L k k' h1 hk; omega
  · exact h1
  · have := rank_lt L k' k h1 hk'; omega

/-- A row written at the node of raw index `k` joins the deme of `k` to the
deme of a node of larger raw index inside the habitat. -/
theorem rowsOf_mem (L : Lattice) (ni : List Int) (k : Nat) (p : Int × Int)
    (hk : k < L.rows * L.cols)
    (hni : ∀ k, k < L.rows * L.cols → rawIn L k = true → ni.getD k 0 = (rank L k : Int))
    (hp : p ∈ rowsOf L ni k) :
    rawIn L k = true ∧ ∃ pos b : Nat, rawTest L k pos = true ∧ rawBeta L k pos = (b : Int) ∧
      k < b ∧ b < L.rows * L.cols ∧ rawIn L b = true ∧
      p = ((rank L k : Int), (rank L b : Int)) := by
  unfold rowsOf at hp
  by_cases h : rawIn L k = true
  · simp only [h, ite_true, List.mem_map, List.mem_filter] at hp
    obtain ⟨pos, ⟨_, ht⟩, hpe⟩ := hp
    obtain ⟨b, b1, b2, b3, b4⟩ := edge_target L k pos hk ht
    refine ⟨h, pos, b, ht, b4, b1, b2, b3, ?_⟩
    rw [← hpe, b4, coeff_natCast, coeff_natCast, hni k hk h, hni b b2 b3]
  · simp [h] at hp

theorem rowsUpTo_mem (L : Lattice) (ni : List Int) (p : Int × Int)
    (hni : ∀ k, k < L.rows * L.cols → rawIn L k = true → ni.getD k 0 = (rank L k : Int))
    (hp : p ∈ rowsUpTo L ni (L.rows * L.cols)) :
    ∃ k b : Nat, k < b ∧ b < L.rows * L.cols ∧ rawIn L k = true ∧ rawIn L b = true ∧
      p = ((rank L k : Int), (rank L b : Int)) := by
  unfold rowsUpTo at hp
  obtain ⟨k, hk, hpk⟩ := List.mem_flatMap.mp hp
  obtain ⟨h, _, b, _, _, b1, b2, b3, b4⟩ := rowsOf_mem L ni k p (List.mem_range.mp hk) hni hpk
  exact ⟨k, b, b1, b2, h, b3, b4⟩

/-- No row is written twice. -/
theorem rowsUpTo_nodup (L : Lattice) (ni : List Int)
    (hni : ∀ k, k < L.rows * L.cols → rawIn L k = true → ni.getD k 0 = (rank L k : Int)) :
    (rowsUpTo L ni (L.rows * L.cols)).Nodup := by
  unfold rowsUpTo
  rw [List.nodup_flatMap]
  constructor
  · intro k hk
    have hk' := List.mem_range.mp hk
    unfold rowsOf
    by_cases h : rawIn L k = true
    · simp only [h, ite_true]
      apply List.Nodup.map_on
      · intro pos hpos pos' hpos' heq
        have ht := (List.mem_filter.mp hpos).2
        have ht' := (List.mem_filter.mp hpos').2
        obtain ⟨b, b1, b2, b3, b4⟩ := edge_target L k pos hk' ht
        obtain ⟨c, c1, c2, c3, c4⟩ := edge_target L k pos' hk' ht'
        have h2 := congrArg Prod.snd heq
        simp only [b4, c4, coeff_natCast, hni b b2 b3, hni c c2 c3] at h2
        have hbc : b = c := rank_inj L b c b3 c3 (by exact_mod_cast h2)
        exact edge_target_inj L k pos pos' hk' ht ht' (by rw [b4, c4, hbc])
      · exact (List.nodup_range 6).filter _
    · simp [h]
  · apply (List.nodup_range _).pairwise_of_forall_ne
    intro k hk k' hk' hne
    intro p hp hp'
    obtain ⟨h, _, _, _, _, _, _, _, e⟩ := rowsOf_mem L ni k p (List.mem_range.mp hk) hni hp
    obtain ⟨h', _, _, _, _, _, _, _, e'⟩ := rowsOf_mem L ni k' p (List.mem_range.mp hk') hni hp'
    rw [e] at e'
    have h1 := congrArg Prod.fst e'
    simp only at h1
    exact hne (rank_inj L k k' h h' (by exact_mod_cast h1))

theorem list_ext_getD {α : Type} (d : α) (v w : List α) (hlen : v.length = w.length)
    (h : ∀ j, j < w.length → v.getD j d = w.getD j d) : v = w := by
  apply List.ext_getElem hlen
  intro i h1 h2
  have := h i h2
  rw [List.getD_eq_getElem _ _ h1, List.getD_eq_getElem _ _ h2] at this
  exact this

theorem toNat_mul_le (x y : Int) : y.toNat * x.toNat ≤ (x * y).toNat := by
  rcases le_or_lt x 0 with hx | hx
  · have : x.toNat = 0 := by omega
    rw [this]; simp
  rcases le_or_lt y 0 with hy | hy
  · have : y.toNat = 0 := by omega
    rw [this]; simp
  obtain ⟨a, ha⟩ := Int.eq_ofNat_of_zero_le (le_of_lt hx)
  obtain ⟨b, hb⟩ := Int.eq_ofNat_of_zero_le (le_of_lt hy)
  subst ha; subst hb
  have : ((a : Int) * (b : Int)).toNat = a * b := by
    have e : ((a : Int) * (b : Int)) = ((a * b : Nat) : Int) := by push_cast; rfl
    rw [e, Int.toNat_ofNat]
  rw [this, Int.toNat_ofNat, Int.toNat_ofNat, Nat.mul_comm]

/-- The output of `make_triangular_grid` by raw lattice index: the node of raw
index `k` inside the habitat is the deme `rank k`, with the coordinates of the
node, and the edge table is the list of the rows written node by node. -/
theorem make_triangular_grid_sized_spec (habitat : Habitat) (xDemes yDemes : Int) (g : Graph) :
    ∃ ni : List Int,
      (∀ k, k < (mkLattice habitat xDemes yDemes).rows * (mkLattice habitat xDemes yDemes).cols →
        rawIn (mkLattice habitat xDemes yDemes) k = true →
        ni.getD k 0 = (rank (mkLattice habitat xDemes yDemes) k : Int)) ∧
      (make_triangular_grid_sized habitat xDemes yDemes g).DemePairs =
        rowsUpTo (mkLattice habitat xDemes yDemes) ni
          ((mkLattice habitat xDemes yDemes).rows * (mkLattice habitat xDemes yDemes).cols) ∧
      (make_triangular_grid_sized habitat xDemes yDemes g).DemeCoord.length =
        rank (mkLattice habitat xDemes yDemes)
          ((mkLattice habitat xDemes yDemes).rows * (mkLattice habitat xDemes yDemes).cols) ∧
      ∀ k, k < (mkLattice habitat xDemes yDemes).rows * (mkLattice habitat xDemes yDemes).cols →
        rawIn (mkLattice habitat xDemes yDemes) k = true →
        (make_triangular_grid_sized habitat xDemes yDemes g).DemeCoord.getD
          (rank (mkLattice habitat xDemes yDemes) k) default =
          rawPoint (mkLattice habitat xDemes yDemes) k := by
  generalize hL : mkLattice habitat xDemes yDemes = L
  have hN : L.rows * L.cols ≤ (xDemes * yDemes).toNat := by
    have := toNat_mul_le xDemes yDemes
    rw [← hL]
    exact this
  have cinv := countLoop_invariant L (xDemes * yDemes).toNat hN
  generalize hcnt : countLoop L
    { newIndex := List.replicate (xDemes * yDemes).toNat (-1), nDemes := 0, nEdges := 0 } = cnt
    at cinv
  have hni := cinv.index
  have finv := fillLoop_invariant L cnt.newIndex hni
  have hd : cnt.nDemes.toNat = rank L (L.rows * L.cols) := by rw [cinv.demes]; simp
  have he : cnt.nEdges.toNat = (rowsUpTo L cnt.newIndex (L.rows * L.cols)).length := by
    rw [cinv.edges, rowsUpTo_length L [] cnt.newIndex]; simp
  have hg : make_triangular_grid_sized habitat xDemes yDemes g =
      { g with
        DemeCoord := (fillLoop L cnt.newIndex
          { DemeCoord := List.replicate (rank L (L.rows * L.cols)) (0, 0),
            DemePairs := List.replicate (rowsUpTo L cnt.newIndex (L.rows * L.cols)).length (0, 0),
            e := 0 }).DemeCoord,
        DemePairs := (fillLoop L cnt.newIndex
          { DemeCoord := List.replicate (rank L (L.rows * L.cols)) (0, 0),
            DemePairs := List.replicate (rowsUpTo L cnt.newIndex (L.rows * L.cols)).length (0, 0),
            e := 0 }).DemePairs } := by
    unfold make_triangular_grid_sized
    simp only [hL, hcnt, hd, he]
  rw [hg]
  refine ⟨cnt.newIndex, hni, ?_, finv.len_coord, finv.coord⟩
  exact list_ext_getD default _ _ finv.len_pairs finv.pairs

theorem make_triangular_grid_sized_edges (habitat : Habitat) (xDemes yDemes : Int) (g : Graph) :
    EdgesDistinctInside habitat (make_triangular_grid_sized habitat xDemes yDemes g) := by
  obtain ⟨ni, hni, hpairs, hlen, hcoord⟩ :=
    make_triangular_grid_sized_spec habitat xDemes yDemes g
  generalize hL : mkLattice habitat xDemes yDemes = L at hni hpairs hlen hcoord
  have hhab : L.habitat = habitat := by rw [← hL]; rfl
  generalize make_triangular_grid_sized habitat xDemes yDemes g = g' at hpairs hlen hcoord
  have hrow : ∀ p, p ∈ g'.DemePairs → ∃ k b : Nat, k < b ∧ b < L.rows * L.cols ∧
      rawIn L k = true ∧ rawIn L b = true ∧ p = ((rank L k : Int), (rank L b : Int)) := by
    intro p hp
    rw [hpairs] at hp
    exact rowsUpTo_mem L ni p hni hp
  have hless : ∀ p, p ∈ g'.DemePairs → p.1 < p.2 := by
    intro p hp
    obtain ⟨k, b, h1, _, h3, _, h5⟩ := hrow p hp
    rw [h5]
    have := rank_lt L k b h1 h3
    simp only
    omega
  have hdeme : ∀ k, k < L.rows * L.cols → rawIn L k = true →
      (0 : Int) ≤ (rank L k : Int) ∧ (rank L k : Int) < g'.get_num_total_demes ∧
        habitat.in_point (coeff g'.DemeCoord (rank L k : Int)).1
          (coeff g'.DemeCoord (rank L k : Int)).2 = true := by
    intro k hk hin
    have hlt := rank_lt L k _ hk hin
    refine ⟨Int.natCast_nonneg _, ?_, ?_⟩
    · unfold Graph.get_num_total_demes
      rw [hlen]
      exact_mod_cast hlt
    · have hc : coeff g'.DemeCoord (rank L k : Int) = rawPoint L k := by
        unfold coeff
        rw [Int.toNat_ofNat]
        exact hcoord k hk hin
      rw [hc, ← hhab]
      exact hin
  constructor
  · intro i j hij hj hsame
    have hi : i < g'.DemePairs.length := by omega
    have hnd : g'.DemePairs.Nodup := by rw [hpairs]; exact rowsUpTo_nodup L ni hni
    have hne := (List.pairwise_iff_getElem.mp hnd) i j hi hj hij
    rw [List.getD_eq_getElem _ _ hi, List.getD_eq_getElem _ _ hj] at hsame
    have li := hless _ (List.getElem_mem hi)
    have lj := hless _ (List.getElem_mem hj)
    rcases hsame with ⟨h1, h2⟩ | ⟨h1, h2⟩
    · exact hne (Prod.ext h1 h2)
    · omega
  · intro p hp
    obtain ⟨k, b, h1, h2, h3, h4, h5⟩ := hrow p hp
    rw [h5]
    exact ⟨hdeme k (by omega) h3, hdeme b h2 h4⟩

/-- C4: for every habitat and every lattice size, and so for every deme density,
the edge table written by `make_triangular_grid` has no two rows that denote
the same unordered pair of demes, and both endpoints of every row are demes
whose coordinates in `DemeCoord` lie inside the habitat. -/
theorem make_triangular_grid_edges (habitat : Habitat) (g : Graph) :
    (∀ xDemes yDemes : Int,
      EdgesDistinctInside habitat (make_triangular_grid_sized habitat xDemes yDemes g)) ∧
    ∀ nDemeDensity : Int,
      EdgesDistinctInside habitat (make_triangular_grid habitat nDemeDensity g) :=
  ⟨fun xDemes yDemes => make_triangular_grid_sized_edges habitat xDemes yDemes g,
    fun _ => make_triangular_grid_sized_edges habitat _ _ g⟩

/-! ## The duplicate removal of `read_input_grid` at a repeated last row -/

/-- C5, the code at a failing input: the edge rows `(1,2)`, `(2,3)`, `(1,2)`.
The pass for `e2 = 2` removes row 2 at `e1 = 0` and then, at `e1 = 1`, reads
row 2 of a table that has two rows left: the duplicate removal does not
deliver a table. -/
theorem dedupLoop_reads_removed_row :
    dedupInner 2 (some [(1, 2), (2, 3), (1, 2)]) 0 = some [(1, 2), (2, 3)] ∧
    dedupInner 2 (some [(1, 2), (2, 3)]) 1 = none ∧
    dedupLoop [(1, 2), (2, 3), (1, 2)] = none := by
  decide!

/-- C6, the code at a failing input: three demes and the edge rows `(1,2)`,
`(2,3)`, `(1,2)`, all indices in `[1,3]`.  `read_input_grid` does not succeed:
the run ends in the duplicate removal, before the range check. -/
theorem read_input_grid_in_range_not_ok :
    (∀ r ∈ repeatedEdges.rows, ∀ x ∈ r, (1 : ℚ) ≤ x ∧ x ≤ (threeDemes.rows.length : ℚ)) ∧
    read_input_grid threeDemes repeatedEdges = .error outsideMatrix := by
  decide!

/-! ## The duplicate removal when it completes -/

theorem sameEdge_iff (a b : ℚ × ℚ) :
    sameEdge a b = true ↔ (a.1 = b.1 ∧ a.2 = b.2) ∨ (a.1 = b.2 ∧ a.2 = b.1) := by
  simp [sameEdge]

theorem sameEdge_symm (a b : ℚ × ℚ) (h : sameEdge a b = true) : sameEdge b a = true := by
  rw [sameEdge_iff] at h ⊢
  rcases h with ⟨h1, h2⟩ | ⟨h1, h2⟩
  · exact Or.inl ⟨h1.symm, h2.symm⟩
  · exact Or.inr ⟨h2.symm, h1.symm⟩

theorem sameEdge_trans (a b c : ℚ × ℚ) (h : sameEdge a b = true) (k : sameEdge b c = true) :
    sameEdge a c = true := by
  rw [sameEdge_iff] at h k ⊢
  rcases h with ⟨h1, h2⟩ | ⟨h1, h2⟩ <;> rcases k with ⟨k1, k2⟩ | ⟨k1, k2⟩
  · exact Or.inl ⟨h1.trans k1, h2.trans k2⟩
  · exact Or.inr ⟨h1.trans k1, h2.trans k2⟩
  · exact Or.inr ⟨h1.trans k2, h2.trans k1⟩
  · exact Or.inl ⟨h1.trans k2, h2.trans k1⟩

theorem sameEdge_false_symm (a b : ℚ × ℚ) (h : sameEdge a b = false) : sameEdge b a = false := by
  cases hb : sameEdge b a with
  | false => rfl
  | true => rw [sameEdge_symm b a hb] at h; exact absurd h (by simp)

theorem dedupInner_invariant (t0 : List (ℚ × ℚ)) (e2 e1 : Nat) (st : Option (List (ℚ × ℚ)))
    (he : e1 < e2) (inv : DedupState t0 e2 e1 st) :
    DedupState t0 e2 (e1 + 1) (dedupInner e2 st e1) := by
  cases st with
  | none => exact trivial
  | some t =>
    have inv : DedupInv t0 e2 e1 t := inv
    unfold dedupInner
    simp only [Option.bind]
    cases h2 : t[e2]? with
    | none => exact trivial
    | some a =>
      cases h1 : t[e1]? with
      | none => exact trivial
      | some b =>
        simp only
        by_cases hs : sameEdge a b = true
        · -- row `e2` is removed
          simp only [hs, ite_true, removeRow]
          have hget : ∀ i : Nat, (t.eraseIdx e2)[i]? = if i < e2 then t[i]? else t[i + 1]? :=
            fun i => List.getElem?_eraseIdx t e2 i
          refine ⟨?_, ?_, ?_⟩
          · intro i j x y hij hj hx hy
            rw [hget] at hx hy
            rw [if_neg (by omega)] at hy
            by_cases hi : i < e2
            · rw [if_pos hi] at hx
              exact inv.above i (j + 1) x y (by omega) (by omega) hx hy
            · rw [if_neg hi] at hx
              exact inv.above (i + 1) (j + 1) x y (by omega) (by omega) hx hy
          · intro p
            rw [inv.pairs p]
            constructor
            · rintro ⟨q, hq, hpq⟩
              obtain ⟨n, hn⟩ := List.mem_iff_getElem?.mp hq
              by_cases hne : n = e2
              · subst hne
                rw [h2] at hn
                cases hn
                refine ⟨b, ?_, sameEdge_trans p a b hpq hs⟩
                exact List.mem_eraseIdx_iff_getElem?.mpr ⟨e1, by omega, h1⟩
              · exact ⟨q, List.mem_eraseIdx_iff_getElem?.mpr ⟨n, hne, hn⟩, hpq⟩
            · rintro ⟨q, hq, hpq⟩
              exact ⟨q, List.mem_of_mem_eraseIdx hq, hpq⟩
          · intro i x y hi hx hy
            rw [hget] at hx hy
            rw [if_neg (by omega)] at hx
            rw [if_pos (by omega)] at hy
            exact sameEdge_false_symm y x (inv.above i (e2 + 1) y x (by omega) (by omega) hy hx)
        · -- nothing is removed
          simp only [hs, ite_false]
          refine ⟨inv.above, inv.pairs, ?_⟩
          intro i x y hi hx hy
          rcases Nat.lt_or_ge i e1 with hlt | hge
          · exact inv.below i x y hlt hx hy
          · have : i = e1 := by omega
            subst this
            rw [h2] at hx
            rw [h1] at hy
            cases hx
            cases hy
            simpa using hs

/-- One pass of the outer loop of the duplicate removal. -/
theorem dedupPass_invariant (t0 : List (ℚ × ℚ)) (e2 : Nat) (st : Option (List (ℚ × ℚ)))
    (inv : DedupState t0 e2 0 st) :
    DedupState t0 (e2 - 1) 0 ((List.range e2).foldl (dedupInner e2) st) := by
  have hfold : DedupState t0 e2 e2 ((List.range e2).foldl (dedupInner e2) st) :=
    foldl_range_invariant (dedupInner e2) (DedupState t0 e2) e2 st inv
      (fun i s hi h => dedupInner_invariant t0 e2 i s hi h)
  cases hres : (List.range e2).foldl (dedupInner e2) st with
  | none => exact trivial
  | some t =>
    rw [hres] at hfold
    have hfold : DedupInv t0 e2 e2 t := hfold
    refine ⟨?_, hfold.pairs, fun i _ _ hi => absurd hi (Nat.not_lt_zero i)⟩
    intro i j x y hij hj hx hy
    rcases Nat.lt_or_ge e2 j with hlt | hge
    · exact hfold.above i j x y hij hlt hx hy
    · have hje : j = e2 := by omega
      subst hje
      exact sameEdge_false_symm y x (hfold.below i y x hij hy hx)

/-- When the duplicate removal completes, the table it leaves has no two rows
that hold the same unordered pair, and it holds the same unordered pairs as the
table read from the file. -/
theorem dedupLoop_sound (t0 t : List (ℚ × ℚ)) (h : dedupLoop t0 = some t) :
    (∀ (i j : Nat) (a b : ℚ × ℚ), i < j → t[i]? = some a → t[j]? = some b →
      sameEdge a b = false) ∧
    ∀ p : ℚ × ℚ, (∃ q, q ∈ t0 ∧ sameEdge p q = true) ↔ (∃ q, q ∈ t ∧ sameEdge p q = true) := by
  unfold dedupLoop at h
  rw [List.reverse_range', List.foldl_map] at h
  have key : DedupState t0 (t0.length - 1 - (t0.length - 1)) 0
      ((List.range (t0.length - 1)).foldl
        (fun s x => (List.range (1 + (t0.length - 1) - 1 - x)).foldl
          (dedupInner (1 + (t0.length - 1) - 1 - x)) s) (some t0)) := by
    apply foldl_range_invariant _ (fun k s => DedupState t0 (t0.length - 1 - k) 0 s)
    · refine ⟨?_, fun p => Iff.rfl, fun i _ _ hi => absurd hi (Nat.not_lt_zero i)⟩
      intro i j x y _ hj _ hy
      have := (List.getElem?_eq_some.mp hy).1
      omega
    · intro k s hk inv
      have e1 : 1 + (t0.length - 1) - 1 - k = t0.length - 1 - k := by omega
      have e2 : t0.length - 1 - (k + 1) = t0.length - 1 - k - 1 := by omega
      rw [e1, e2]
      exact dedupPass_invariant t0 _ s inv
  rw [h] at key
  have key : DedupInv t0 (t0.length - 1 - (t0.length - 1)) 0 t := key
  refine ⟨?_, key.pairs⟩
  intro i j a b hij ha hb
  exact key.above i j a b hij (by omega) ha hb

/-! ## The range check of `read_input_grid` when the duplicate removal completes -/

theorem minVisit_mem {δ : Type} [LinearOrder δ] (vs : List δ) :
    ∀ (res : δ) (idx i : Nat),
      (minVisit res idx i vs).1 = res ∨ (minVisit res idx i vs).1 ∈ vs := by
  induction vs with
  | nil => intro res idx i; left; rfl
  | cons w ws ih =>
    intro res idx i
    unfold minVisit
    split
    · rcases ih w i (i + 1) with h | h
      · right; rw [h]; exact List.mem_cons_self _ _
      · right; exact List.mem_cons_of_mem _ h
    · rcases ih res idx (i + 1) with h | h
      · left; exact h
      · right; exact List.mem_cons_of_mem _ h

theorem maxVisit_mem {δ : Type} [LinearOrder δ] (vs : List δ) :
    ∀ (res : δ) (idx i : Nat),
      (maxVisit res idx i vs).1 = res ∨ (maxVisit res idx i vs).1 ∈ vs := by
  induction vs with
  | nil => intro res idx i; left; rfl
  | cons w ws ih =>
    intro res idx i
    unfold maxVisit
    split
    · rcases ih w i (i + 1) with h | h
      · right; rw [h]; exact List.mem_cons_self _ _
      · right; exact List.mem_cons_of_mem _ h
    · rcases ih res idx (i + 1) with h | h
      · left; exact h
      · right; exact List.mem_cons_of_mem _ h

/-- On a non-empty vector the test `minCoeff() >= 0 && maxCoeff() < n` tells
whether all the coefficients lie in `[0,n)`. -/
theorem inRange_iff (v : List Int) (n : Int) (hne : v ≠ []) :
    ∃ c, inRange v n = some c ∧ (c = true ↔ ∀ x, x ∈ v → 0 ≤ x ∧ x < n) := by
  cases v with
  | nil => exact absurd rfl hne
  | cons w ws =>
    refine ⟨_, rfl, ?_⟩
    constructor
    · intro h
      exact (inRange_true (w :: ws) n (by rw [← h]; rfl)).2
    · intro h
      simp only [Bool.and_eq_true, decide_eq_true_eq]
      constructor
      · rcases minVisit_mem ws w 0 1 with e | e
        · rw [e]; exact (h w (List.mem_cons_self _ _)).1
        · exact (h _ (List.mem_cons_of_mem _ e)).1
      · rcases maxVisit_mem ws w 0 1 with e | e
        · rw [e]; exact (h w (List.mem_cons_self _ _)).2
        · exact (h _ (List.mem_cons_of_mem _ e)).2

theorem castInt_intCast (a : Int) : castInt (a : ℚ) = a := by
  unfold castInt
  split <;> simp

theorem mem_coeffs (M : List (Int × Int)) (x : Int) :
    x ∈ coeffs M ↔ ∃ p, p ∈ M ∧ (x = p.1 ∨ x = p.2) := by
  simp [coeffs, List.mem_flatMap]

theorem InIndexRange_same (n : Nat) (p q : ℚ × ℚ) (h : sameEdge p q = true)
    (hq : InIndexRange n q) : InIndexRange n p := by
  rw [sameEdge_iff] at h
  unfold InIndexRange at hq ⊢
  rcases h with ⟨h1, h2⟩ | ⟨h1, h2⟩
  · rw [h1, h2]; exact hq
  · rw [h1, h2]; exact ⟨hq.2, hq.1⟩

theorem IsIntRow_same (p q : ℚ × ℚ) (h : sameEdge p q = true) (hq : IsIntRow q) :
    IsIntRow p := by
  rw [sameEdge_iff] at h
  obtain ⟨a, b, hab⟩ := hq
  rw [hab] at h
  rcases h with ⟨h1, h2⟩ | ⟨h1, h2⟩
  · exact ⟨a, b, Prod.ext h1 h2⟩
  · exact ⟨b, a, Prod.ext h1 h2⟩

theorem sameEdge_refl (p : ℚ × ℚ) : sameEdge p p = true := by
  rw [sameEdge_iff]; exact Or.inl ⟨rfl, rfl⟩

/-- The range check of `read_input_grid` on an integer edge table with at least
one row, when the duplicate removal completes: the run succeeds if and only
if every index of the table lies in `[1, nDemes]`, it ends with the message of
the range check otherwise, and on success every stored endpoint is an index
of the remaining table minus one and lies in `[0, nDemes)`. -/
theorem read_input_grid_range (demes edges : Table) (t : List (ℚ × ℚ))
    (hd : demes.cols = 2) (he : edges.cols = 2) (hne : edges.rows ≠ [])
    (hint : ∀ p, p ∈ edges.rows.map rowPoint → IsIntRow p)
    (hdedup : dedupLoop (edges.rows.map rowPoint) = some t) :
    ((∀ p, p ∈ edges.rows.map rowPoint → InIndexRange demes.rows.length p) →
      read_input_grid demes edges =
        .ok (demes.rows.map rowPoint, t.map fun p => (castInt p.1 - 1, castInt p.2 - 1)) ∧
      ∀ q, q ∈ (t.map fun p => (castInt p.1 - 1, castInt p.2 - 1)) →
        (0 ≤ q.1 ∧ q.1 < (demes.rows.length : Int)) ∧
          (0 ≤ q.2 ∧ q.2 < (demes.rows.length : Int))) ∧
    (¬ (∀ p, p ∈ edges.rows.map rowPoint → InIndexRange demes.rows.length p) →
      read_input_grid demes edges = .error notInRange) := by
  obtain ⟨_, hpairs⟩ := dedupLoop_sound _ t hdedup
  have hsub : ∀ q, q ∈ t → ∃ p, p ∈ edges.rows.map rowPoint ∧ sameEdge q p = true :=
    fun q hq => (hpairs q).mpr ⟨q, hq, sameEdge_refl q⟩
  have hsup : ∀ p, p ∈ edges.rows.map rowPoint → ∃ q, q ∈ t ∧ sameEdge p q = true :=
    fun p hp => (hpairs p).mp ⟨p, hp, sameEdge_refl p⟩
  have htne : t ≠ [] := by
    obtain ⟨r, rs, hr⟩ := List.exists_cons_of_ne_nil hne
    obtain ⟨q, hq, _⟩ := hsup (rowPoint r) (by rw [hr]; simp)
    exact List.ne_nil_of_mem hq
  have hcne : coeffs (t.map fun p => (castInt p.1 - 1, castInt p.2 - 1)) ≠ [] := by
    obtain ⟨q, qs, hq⟩ := List.exists_cons_of_ne_nil htne
    rw [hq]
    simp [coeffs]
  obtain ⟨c, hc, hciff⟩ := inRange_iff _ ((demes.rows.map rowPoint).length : Int) hcne
  have hrun : read_input_grid demes edges =
      if c then .ok (demes.rows.map rowPoint, t.map fun p => (castInt p.1 - 1, castInt p.2 - 1))
      else .error notInRange := by
    unfold read_input_grid
    simp only [hd, he, decide_True, check_condition, ite_true, bind, Except.bind, hdedup, hc,
      pure, Except.pure]
    cases c <;> rfl
  -- the stored coefficients are in range exactly when the indices of the file are
  have hint' : ∀ q, q ∈ t → IsIntRow q := by
    intro q hq
    obtain ⟨p, hp, hs⟩ := hsub q hq
    exact IsIntRow_same q p hs (hint p hp)
  have hrow : ∀ q, q ∈ t → (InIndexRange demes.rows.length q ↔
      ((0 ≤ castInt q.1 - 1 ∧ castInt q.1 - 1 < (demes.rows.length : Int)) ∧
        (0 ≤ castInt q.2 - 1 ∧ castInt q.2 - 1 < (demes.rows.length : Int)))) := by
    intro q hq
    obtain ⟨a, b, hab⟩ := hint' q hq
    rw [hab]
    unfold InIndexRange
    simp only [castInt_intCast]
    have e1 : ((1 : ℚ) ≤ (a : ℚ)) ↔ (1 ≤ a) := by exact_mod_cast Iff.rfl
    have e2 : ((a : ℚ) ≤ ((demes.rows.length : Nat) : ℚ)) ↔ (a ≤ (demes.rows.length : Int)) := by
      exact_mod_cast Iff.rfl
    have e3 : ((1 : ℚ) ≤ (b : ℚ)) ↔ (1 ≤ b) := by exact_mod_cast Iff.rfl
    have e4 : ((b : ℚ) ≤ ((demes.rows.length : Nat) : ℚ)) ↔ (b ≤ (demes.rows.length : Int)) := by
      exact_mod_cast Iff.rfl
    rw [e1, e2, e3, e4]
    omega
  have hall : (∀ p, p ∈ edges.rows.map rowPoint → InIndexRange demes.rows.length p) ↔
      c = true := by
    rw [hciff]
    simp only [List.length_map]
    constructor
    · intro h x hx
      obtain ⟨p, hp, hxp⟩ := (mem_coeffs _ x).mp hx
      obtain ⟨q, hq, hqp⟩ := List.mem_map.mp hp
      obtain ⟨p0, hp0, hs⟩ := hsub q hq
      have hr := (hrow q hq).mp (InIndexRange_same _ q p0 hs (h p0 hp0))
      rw [← hqp] at hxp
      rcases hxp with e | e
      · rw [e]; exact hr.1
      · rw [e]; exact hr.2
    · intro h p hp
      obtain ⟨q, hq, hs⟩ := hsup p hp
      apply InIndexRange_same _ p q hs
      apply (hrow q hq).mpr
      have hmem : (castInt q.1 - 1, castInt q.2 - 1) ∈
          t.map fun p => (castInt p.1 - 1, castInt p.2 - 1) := List.mem_map.mpr ⟨q, hq, rfl⟩
      exact ⟨h _ ((mem_coeffs _ _).mpr ⟨_, hmem, Or.inl rfl⟩),
        h _ ((mem_coeffs _ _).mpr ⟨_, hmem, Or.inr rfl⟩)⟩
  constructor
  · intro h
    have hct := hall.mp h
    rw [hrun, hct]
    refine ⟨rfl, ?_⟩
    intro q hq
    obtain ⟨q0, hq0, e⟩ := List.mem_map.mp hq
    obtain ⟨p0, hp0, hs⟩ := hsub q0 hq0
    have := (hrow q0 hq0).mp (InIndexRange_same _ q0 p0 hs (h p0 hp0))
    rw [← e]
    exact this
  · intro h
    have hcf : c = false := by
      cases c with
      | false => rfl
      | true => exact absurd (hall.mpr rfl) h
    rw [hrun, hcf]
    rfl

/-- The code at an input on which the duplicate removal completes: three demes
and the edge rows `(1,2)`, `(2,1)`, `(2,3)`, whose second row repeats the first
one reversed. -/
theorem read_input_grid_reversed_duplicate :
    read_input_grid threeDemes { cols := 2, rows := [[1, 2], [2, 1], [2, 3]] } =
      .ok ([(0, 0), (1, 0), (2, 0)], [(0, 1), (1, 2)]) := by
  decide!

/-! ## The six neighbours of a lattice node -/

/-- The chain of tests of `neighbors_in_grid` at a node of the lattice, with the
remainders worked out. -/
theorem neighbor_cell_closed (nx ny r1 c1 pos : Int) (hnx : 0 < nx) (hr : 0 ≤ r1)
    (hc : 0 ≤ c1) (hc' : c1 < nx) :
    neighbor_cell r1 c1 pos nx ny =
      if pos = 0 ∧ 0 < c1 then (r1, c1 - 1)
      else if pos = 3 ∧ c1 + 1 < nx then (r1, c1 + 1)
      else if pos = 5 ∧ r1 > 0 ∧ ¬ (r1 % 2 = 0 ∧ c1 = 0) then (r1 - 1, c1 - (1 - r1 % 2))
      else if pos = 4 ∧ r1 > 0 ∧ ¬ (r1 % 2 = 1 ∧ c1 + 1 = nx) then
        (r1 - 1, c1 + 1 - (1 - r1 % 2))
      else if pos = 1 ∧ r1 < ny - 1 ∧ ¬ (r1 % 2 = 0 ∧ c1 = 0) then (r1 + 1, c1 - (1 - r1 % 2))
      else if pos = 2 ∧ r1 < ny - 1 ∧ ¬ (r1 % 2 = 1 ∧ c1 + 1 = nx) then
        (r1 + 1, c1 + 1 - (1 - r1 % 2))
      else (-1, -1) := by
  have g0 := tmod_first nx r1 c1 hnx hr hc hc'
  have g3 := tmod_last nx r1 c1 hnx hr hc hc'
  have g5 := tmod_first_even nx r1 c1 hnx hr hc hc'
  have g4 := tmod_last_odd nx r1 c1 hnx hr hc hc'
  have gp := tmod_parity r1 hr
  unfold neighbor_cell
  simp only [g0, g3, g5, g4, gp]

/-- The result of `neighbors_in_grid` at a node of the lattice: the index and the
cell of the neighbour at each position, or `-1` three times. -/
theorem neighbors_closed (nx ny r1 c1 pos : Int) (hnx : 0 < nx) (hr : 0 ≤ r1)
    (hc : 0 ≤ c1) (hc' : c1 < nx) :
    neighbors_in_grid r1 c1 pos nx ny =
      if pos = 0 ∧ 0 < c1 then (r1 * nx + c1 - 1, r1, c1 - 1)
      else if pos = 3 ∧ c1 + 1 < nx then (r1 * nx + c1 + 1, r1, c1 + 1)
      else if pos = 5 ∧ r1 > 0 ∧ ¬ (r1 % 2 = 0 ∧ c1 = 0) then
        (r1 * nx + c1 - nx - (1 - r1 % 2), r1 - 1, c1 - (1 - r1 % 2))
      else if pos = 4 ∧ r1 > 0 ∧ ¬ (r1 % 2 = 1 ∧ c1 + 1 = nx) then
        (r1 * nx + c1 - nx + 1 - (1 - r1 % 2), r1 - 1, c1 + 1 - (1 - r1 % 2))
      else if pos = 1 ∧ r1 < ny - 1 ∧ ¬ (r1 % 2 = 0 ∧ c1 = 0) then
        (r1 * nx + c1 + nx - (1 - r1 % 2), r1 + 1, c1 - (1 - r1 % 2))
      else if pos = 2 ∧ r1 < ny - 1 ∧ ¬ (r1 % 2 = 1 ∧ c1 + 1 = nx) then
        (r1 * nx + c1 + nx + 1 - (1 - r1 % 2), r1 + 1, c1 + 1 - (1 - r1 % 2))
      else (-1, -1, -1) := by
  have hpar : r1 % 2 = 0 ∨ r1 % 2 = 1 := by omega
  unfold neighbors_in_grid
  rw [neighbor_cell_closed nx ny r1 c1 pos hnx hr hc hc']
  split_ifs with h1 h2 h3 h4 h5 h6
  · dsimp only
    rw [if_pos ⟨by omega, by omega⟩]
    refine Prod.ext ?_ rfl
    dsimp only; ring
  · dsimp only
    rw [if_pos ⟨by omega, by omega⟩]
    refine Prod.ext ?_ rfl
    dsimp only; ring
  · dsimp only
    rw [if_pos ⟨by omega, by omega⟩]
    refine Prod.ext ?_ rfl
    dsimp only; ring
  · dsimp only
    rw [if_pos ⟨by omega, by omega⟩]
    refine Prod.ext ?_ rfl
    dsimp only; ring
  · dsimp only
    rw [if_pos ⟨by omega, by omega⟩]
    refine Prod.ext ?_ rfl
    dsimp only; ring
  · dsimp only
    rw [if_pos ⟨by omega, by omega⟩]
    refine Prod.ext ?_ rfl
    dsimp only; ring
  · dsimp only
    rw [if_neg (by omega)]

/-- The index returned by `neighbors_in_grid` at a node of the lattice is `-1` or
the index of another node of the lattice, whose cell is the output `(r2,c2)`. -/
theorem neighbors_cell_valid (nx ny r1 c1 pos : Int) (hnx : 1 ≤ nx)
    (hr0 : 0 ≤ r1) (hr1 : r1 < ny) (hc0 : 0 ≤ c1) (hc1 : c1 < nx) :
    ((neighbors_in_grid r1 c1 pos nx ny).1 = -1 ∨
      (0 ≤ (neighbors_in_grid r1 c1 pos nx ny).2.1 ∧
        (neighbors_in_grid r1 c1 pos nx ny).2.1 < ny ∧
        0 ≤ (neighbors_in_grid r1 c1 pos nx ny).2.2 ∧
        (neighbors_in_grid r1 c1 pos nx ny).2.2 < nx ∧
        (neighbors_in_grid r1 c1 pos nx ny).1 =
          nx * (neighbors_in_grid r1 c1 pos nx ny).2.1 +
            (neighbors_in_grid r1 c1 pos nx ny).2.2 ∧
        0 ≤ (neighbors_in_grid r1 c1 pos nx ny).1 ∧
        (neighbors_in_grid r1 c1 pos nx ny).1 < nx * ny ∧
        (neighbors_in_grid r1 c1 pos nx ny).1 ≠ r1 * nx + c1)) ∧
    (r1 * nx + c1 < (neighbors_in_grid r1 c1 pos nx ny).1 →
      0 ≤ (neighbors_in_grid r1 c1 pos nx ny).1 ∧
        (neighbors_in_grid r1 c1 pos nx ny).1 < nx * ny) := by
  have hpar : r1 % 2 = 0 ∨ r1 % 2 = 1 := by omega
  have h0 : 0 ≤ r1 * nx := mul_nonneg hr0 (by omega)
  have htop : r1 * nx + nx ≤ nx * ny := by
    have : nx * (r1 + 1) ≤ nx * ny := mul_le_mul_of_nonneg_left (by omega) (by omega)
    have e : nx * (r1 + 1) = r1 * nx + nx := by ring
    omega
  have hlow : 0 < r1 → nx ≤ r1 * nx := fun h => by nlinarith
  have htop2 : r1 < ny - 1 → r1 * nx + 2 * nx ≤ nx * ny := fun h => by nlinarith
  have m1 : nx * (r1 - 1) = r1 * nx - nx := by ring
  have m2 : nx * (r1 + 1) = r1 * nx + nx := by ring
  have m3 : nx * r1 = r1 * nx := by ring
  have hmain : (neighbors_in_grid r1 c1 pos nx ny).1 = -1 ∨
      (0 ≤ (neighbors_in_grid r1 c1 pos nx ny).2.1 ∧
        (neighbors_in_grid r1 c1 pos nx ny).2.1 < ny ∧
        0 ≤ (neighbors_in_grid r1 c1 pos nx ny).2.2 ∧
        (neighbors_in_grid r1 c1 pos nx ny).2.2 < nx ∧
        (neighbors_in_grid r1 c1 pos nx ny).1 =
          nx * (neighbors_in_grid r1 c1 pos nx ny).2.1 +
            (neighbors_in_grid r1 c1 pos nx ny).2.2 ∧
        0 ≤ (neighbors_in_grid r1 c1 pos nx ny).1 ∧
        (neighbors_in_grid r1 c1 pos nx ny).1 < nx * ny ∧
        (neighbors_in_grid r1 c1 pos nx ny).1 ≠ r1 * nx + c1) := by
    rw [neighbors_closed nx ny r1 c1 pos (by omega) hr0 hc0 hc1]
    split_ifs with h1 h2 h3 h4 h5 h6 <;> dsimp only <;> (try simp only [m1, m2, m3])
    · omega
    · omega
    · have := hlow (by omega); omega
    · have := hlow (by omega); omega
    · have := htop2 (by omega); omega
    · have := htop2 (by omega); omega
    · left; trivial
  refine ⟨hmain, ?_⟩
  intro hlt
  rcases hmain with h | h
  · omega
  · exact ⟨h.2.2.2.2.2.1, h.2.2.2.2.2.2.1⟩

/-- C17: at a node of an `nx` by `ny` lattice and for every position (in particular
the positions 0 to 5), `neighbors_in_grid` returns `-1` or
the index `nx*r2 + c2` of a node `(r2,c2)` of the lattice, which lies in
`[0, nx*ny)` and differs from the index of the node itself; so an index that
passes the test `alpha < beta` of `make_triangular_grid` is within the bounds
of the index vector of size `xDemes*yDemes`. -/
theorem neighbors_in_grid_valid (nx ny r1 c1 pos : Int) (hnx : 1 ≤ nx)
    (hr0 : 0 ≤ r1) (hr1 : r1 < ny) (hc0 : 0 ≤ c1) (hc1 : c1 < nx) :
    ((neighbors_in_grid r1 c1 pos nx ny).1 = -1 ∨
      (0 ≤ (neighbors_in_grid r1 c1 pos nx ny).2.1 ∧
        (neighbors_in_grid r1 c1 pos nx ny).2.1 < ny ∧
        0 ≤ (neighbors_in_grid r1 c1 pos nx ny).2.2 ∧
        (neighbors_in_grid r1 c1 pos nx ny).2.2 < nx ∧
        (neighbors_in_grid r1 c1 pos nx ny).1 =
          nx * (neighbors_in_grid r1 c1 pos nx ny).2.1 +
            (neighbors_in_grid r1 c1 pos nx ny).2.2 ∧
        0 ≤ (neighbors_in_grid r1 c1 pos nx ny).1 ∧
        (neighbors_in_grid r1 c1 pos nx ny).1 < nx * ny ∧
        (neighbors_in_grid r1 c1 pos nx ny).1 ≠ r1 * nx + c1)) ∧
    (r1 * nx + c1 < (neighbors_in_grid r1 c1 pos nx ny).1 →
      0 ≤ (neighbors_in_grid r1 c1 pos nx ny).1 ∧
        (neighbors_in_grid r1 c1 pos nx ny).1 < nx * ny) :=
  neighbors_cell_valid nx ny r1 c1 pos hnx hr0 hr1 hc0 hc1

/-- An instance of C17: the node `(1,2)` of a lattice with 4 columns and 3 rows,
at position 2. -/
theorem neighbors_in_grid_valid_witness :
    ((1 : Int) ≤ 4 ∧ (0 : Int) ≤ 1 ∧ (1 : Int) < 3 ∧ (0 : Int) ≤ 2 ∧ (2 : Int) < 4) ∧
    ((1 : Int) * 4 + 2 < (neighbors_in_grid 1 2 2 4 3).1 →
      0 ≤ (neighbors_in_grid 1 2 2 4 3).1 ∧ (neighbors_in_grid 1 2 2 4 3).1 < 4 * 3) :=
  ⟨by decide, (neighbors_in_grid_valid 4 3 1 2 2 (by decide) (by decide) (by decide)
    (by decide) (by decide)).2⟩

/-- The neighbour at position `(pos+3) mod 6` of the neighbour at position `pos`
of a node is the node itself. -/
theorem neighbors_opposite (nx ny r1 c1 pos : Int) (hnx : 1 ≤ nx)
    (hr0 : 0 ≤ r1) (hr1 : r1 < ny) (hc0 : 0 ≤ c1) (hc1 : c1 < nx)
    (hp0 : 0 ≤ pos) (hp5 : pos ≤ 5)
    (hbeta : (neighbors_in_grid r1 c1 pos nx ny).1 ≠ -1) :
    (neighbors_in_grid (neighbors_in_grid r1 c1 pos nx ny).2.1
      (neighbors_in_grid r1 c1 pos nx ny).2.2 ((pos + 3) % 6) nx ny).1 = r1 * nx + c1 := by
  have hpar : r1 % 2 = 0 ∨ r1 % 2 = 1 := by omega
  have hcl := neighbors_closed nx ny r1 c1 pos (by omega) hr0 hc0 hc1
  rw [hcl] at hbeta ⊢
  clear hcl
  split_ifs at hbeta ⊢ with h1 h2 h3 h4 h5 h6
  · obtain ⟨rfl, hg⟩ := h1
    dsimp only
    rw [neighbors_closed nx ny r1 (c1 - 1) _ (by omega) hr0 (by omega) (by omega)]
    have e : ((0 : Int) + 3) % 6 = 3 := by decide
    rw [e]
    simp only [show ¬ ((3 : Int) = 0) by decide, false_and, ite_false, true_and]
    split_ifs <;> dsimp only <;> omega
  · obtain ⟨rfl, hg⟩ := h2
    dsimp only
    rw [neighbors_closed nx ny r1 (c1 + 1) _ (by omega) hr0 (by omega) (by omega)]
    have e : ((3 : Int) + 3) % 6 = 0 := by decide
    rw [e]
    simp only [true_and]
    split_ifs <;> dsimp only <;> omega
  · obtain ⟨rfl, hg1, hg2⟩ := h3
    dsimp only
    rw [neighbors_closed nx ny (r1 - 1) (c1 - (1 - r1 % 2)) _ (by omega) (by omega) (by omega)
      (by omega)]
    have e : ((5 : Int) + 3) % 6 = 2 := by decide
    rw [e]
    simp only [show ¬ ((2 : Int) = 0) by decide, show ¬ ((2 : Int) = 3) by decide,
      show ¬ ((2 : Int) = 5) by decide, show ¬ ((2 : Int) = 4) by decide,
      show ¬ ((2 : Int) = 1) by decide, false_and, ite_false, true_and, sub_mul, one_mul]
    split_ifs <;> dsimp only <;> omega
  · obtain ⟨rfl, hg1, hg2⟩ := h4
    dsimp only
    rw [neighbors_closed nx ny (r1 - 1) (c1 + 1 - (1 - r1 % 2)) _ (by omega) (by omega)
      (by omega) (by omega)]
    have e : ((4 : Int) + 3) % 6 = 1 := by decide
    rw [e]
    simp only [show ¬ ((1 : Int) = 0) by decide, show ¬ ((1 : Int) = 3) by decide,
      show ¬ ((1 : Int) = 5) by decide, show ¬ ((1 : Int) = 4) by decide,
      false_and, ite_false, true_and, sub_mul, one_mul]
    split_ifs <;> dsimp only <;> omega
  · obtain ⟨rfl, hg1, hg2⟩ := h5
    dsimp only
    rw [neighbors_closed nx ny (r1 + 1) (c1 - (1 - r1 % 2)) _ (by omega) (by omega) (by omega)
      (by omega)]
    have e : ((1 : Int) + 3) % 6 = 4 := by decide
    rw [e]
    simp only [show ¬ ((4 : Int) = 0) by decide, show ¬ ((4 : Int) = 3) by decide,
      show ¬ ((4 : Int) = 5) by decide, false_and, ite_false, true_and, add_mul, one_mul]
    split_ifs <;> dsimp only <;> omega
  · obtain ⟨rfl, hg1, hg2⟩ := h6
    dsimp only
    rw [neighbors_closed nx ny (r1 + 1) (c1 + 1 - (1 - r1 % 2)) _ (by omega) (by omega)
      (by omega) (by omega)]
    have e : ((2 : Int) + 3) % 6 = 5 := by decide
    rw [e]
    simp only [show ¬ ((5 : Int) = 0) by decide, show ¬ ((5 : Int) = 3) by decide,
      false_and, ite_false, true_and, add_mul, one_mul]
    split_ifs <;> dsimp only <;> omega
  · exact absurd rfl hbeta

/-- C15: the neighbour relation of `neighbors_in_grid` is symmetric: when the
neighbour of the node `(r1,c1)` at position `pos` exists, with cell `(r2,c2)`,
the neighbour of `(r2,c2)` at position `(pos+3) mod 6` is the node `(r1,c1)`. -/
theorem neighbors_in_grid_symm (nx ny r1 c1 pos : Int) (hnx : 1 ≤ nx)
    (hr0 : 0 ≤ r1) (hr1 : r1 < ny) (hc0 : 0 ≤ c1) (hc1 : c1 < nx)
    (hp0 : 0 ≤ pos) (hp5 : pos ≤ 5)
    (hbeta : (neighbors_in_grid r1 c1 pos nx ny).1 ≠ -1) :
    (neighbors_in_grid (neighbors_in_grid r1 c1 pos nx ny).2.1
      (neighbors_in_grid r1 c1 pos nx ny).2.2 ((pos + 3) % 6) nx ny).1 = r1 * nx + c1 :=
  neighbors_opposite nx ny r1 c1 pos hnx hr0 hr1 hc0 hc1 hp0 hp5 hbeta

/-- An instance of C15: the node `(1,2)` of a lattice with 4 columns and 3 rows,
at position 2. -/
theorem neighbors_in_grid_symm_witness :
    (neighbors_in_grid 1 2 2 4 3).1 ≠ -1 ∧
    (neighbors_in_grid (neighbors_in_grid 1 2 2 4 3).2.1 (neighbors_in_grid 1 2 2 4 3).2.2
      ((2 + 3) % 6) 4 3).1 = 1 * 4 + 2 :=
  ⟨by decide, neighbors_in_grid_symm 4 3 1 2 2 (by decide) (by decide) (by decide) (by decide)
    (by decide) (by decide) (by decide) (by decide)⟩

/-- The index and the cell of each of the six neighbours of an interior node. -/
theorem neighbors_interior_values (nx ny r1 c1 : Int) (hnx : 3 ≤ nx)
    (hr0 : 0 < r1) (hr1 : r1 < ny - 1) (hc0 : 0 < c1) (hc1 : c1 < nx - 1) :
    neighbors_in_grid r1 c1 0 nx ny = (r1 * nx + c1 - 1, r1, c1 - 1) ∧
    neighbors_in_grid r1 c1 3 nx ny = (r1 * nx + c1 + 1, r1, c1 + 1) ∧
    neighbors_in_grid r1 c1 5 nx ny =
      (r1 * nx + c1 - nx - (1 - r1 % 2), r1 - 1, c1 - (1 - r1 % 2)) ∧
    neighbors_in_grid r1 c1 4 nx ny =
      (r1 * nx + c1 - nx + 1 - (1 - r1 % 2), r1 - 1, c1 + 1 - (1 - r1 % 2)) ∧
    neighbors_in_grid r1 c1 1 nx ny =
      (r1 * nx + c1 + nx - (1 - r1 % 2), r1 + 1, c1 - (1 - r1 % 2)) ∧
    neighbors_in_grid r1 c1 2 nx ny =
      (r1 * nx + c1 + nx + 1 - (1 - r1 % 2), r1 + 1, c1 + 1 - (1 - r1 % 2)) := by
  have hcl := fun pos => neighbors_closed nx ny r1 c1 pos (by omega) (by omega) (by omega)
    (by omega)
  refine ⟨?_, ?_, ?_, ?_, ?_, ?_⟩
  · rw [hcl 0, if_pos ⟨rfl, hc0⟩]
  · rw [hcl 3, if_neg (by omega), if_pos ⟨rfl, by omega⟩]
  · rw [hcl 5, if_neg (by omega), if_neg (by omega), if_pos ⟨rfl, hr0, by omega⟩]
  · rw [hcl 4, if_neg (by omega), if_neg (by omega), if_neg (by omega),
      if_pos ⟨rfl, hr0, by omega⟩]
  · rw [hcl 1, if_neg (by omega), if_neg (by omega), if_neg (by omega), if_neg (by omega),
      if_pos ⟨rfl, hr1, by omega⟩]
  · rw [hcl 2, if_neg (by omega), if_neg (by omega), if_neg (by omega), if_neg (by omega),
      if_neg (by omega), if_pos ⟨rfl, hr1, by omega⟩]

/-- C16: in a lattice with at least 3 columns and 3 rows, the six positions of an
interior node `(r1,c1)` give six distinct nodes of the lattice: the nodes
`(r1,c1-1)` and `(r1,c1+1)` of its row, and in each of the rows `r1-1` and
`r1+1` the nodes of columns `c1-1` and `c1` when `r1` is even, `c1` and `c1+1`
when `r1` is odd. -/
theorem neighbors_in_grid_interior (nx ny r1 c1 : Int) (hnx : 3 ≤ nx)
    (hr0 : 0 < r1) (hr1 : r1 < ny - 1) (hc0 : 0 < c1) (hc1 : c1 < nx - 1) :
    (r1 % 2 = 0 ∨ r1 % 2 = 1) ∧
    neighbors_in_grid r1 c1 0 nx ny = (nx * r1 + (c1 - 1), r1, c1 - 1) ∧
    neighbors_in_grid r1 c1 3 nx ny = (nx * r1 + (c1 + 1), r1, c1 + 1) ∧
    neighbors_in_grid r1 c1 5 nx ny =
      (nx * (r1 - 1) + (c1 - 1 + r1 % 2), r1 - 1, c1 - 1 + r1 % 2) ∧
    neighbors_in_grid r1 c1 4 nx ny = (nx * (r1 - 1) + (c1 + r1 % 2), r1 - 1, c1 + r1 % 2) ∧
    neighbors_in_grid r1 c1 1 nx ny =
      (nx * (r1 + 1) + (c1 - 1 + r1 % 2), r1 + 1, c1 - 1 + r1 % 2) ∧
    neighbors_in_grid r1 c1 2 nx ny = (nx * (r1 + 1) + (c1 + r1 % 2), r1 + 1, c1 + r1 % 2) ∧
    (∀ p q : Int, 0 ≤ p → p ≤ 5 → 0 ≤ q → q ≤ 5 → p ≠ q →
      (neighbors_in_grid r1 c1 p nx ny).1 ≠ (neighbors_in_grid r1 c1 q nx ny).1) ∧
    (∀ p : Int, 0 ≤ p → p ≤ 5 →
      0 ≤ (neighbors_in_grid r1 c1 p nx ny).1 ∧ (neighbors_in_grid r1 c1 p nx ny).1 < nx * ny) := by
  obtain ⟨v0, v3, v5, v4, v1, v2⟩ := neighbors_interior_values nx ny r1 c1 hnx hr0 hr1 hc0 hc1
  have hlow : nx ≤ r1 * nx := by nlinarith
  have htop : r1 * nx + 2 * nx ≤ nx * ny := by nlinarith
  have hval : ∀ p : Int, 0 ≤ p → p ≤ 5 →
      (p = 0 ∧ (neighbors_in_grid r1 c1 p nx ny).1 = r1 * nx + c1 - 1) ∨
      (p = 3 ∧ (neighbors_in_grid r1 c1 p nx ny).1 = r1 * nx + c1 + 1) ∨
      (p = 5 ∧ (neighbors_in_grid r1 c1 p nx ny).1 = r1 * nx + c1 - nx - (1 - r1 % 2)) ∨
      (p = 4 ∧ (neighbors_in_grid r1 c1 p nx ny).1 = r1 * nx + c1 - nx + 1 - (1 - r1 % 2)) ∨
      (p = 1 ∧ (neighbors_in_grid r1 c1 p nx ny).1 = r1 * nx + c1 + nx - (1 - r1 % 2)) ∨
      (p = 2 ∧ (neighbors_in_grid r1 c1 p nx ny).1 = r1 * nx + c1 + nx + 1 - (1 - r1 % 2)) := by
    intro p h0 h5
    have hp : p = 0 ∨ p = 3 ∨ p = 5 ∨ p = 4 ∨ p = 1 ∨ p = 2 := by omega
    rcases hp with rfl | rfl | rfl | rfl | rfl | rfl
    · left; exact ⟨rfl, by rw [v0]⟩
    · right; left; exact ⟨rfl, by rw [v3]⟩
    · right; right; left; exact ⟨rfl, by rw [v5]⟩
    · right; right; right; left; exact ⟨rfl, by rw [v4]⟩
    · right; right; right; right; left; exact ⟨rfl, by rw [v1]⟩
    · right; right; right; right; right; exact ⟨rfl, by rw [v2]⟩
  refine ⟨by omega, ?_, ?_, ?_, ?_, ?_, ?_, ?_, ?_⟩
  · rw [v0]; refine Prod.ext ?_ rfl; dsimp only; ring
  · rw [v3]; refine Prod.ext ?_ rfl; dsimp only; ring
  · rw [v5]; refine Prod.ext ?_ (Prod.ext rfl ?_) <;> dsimp only <;> ring
  · rw [v4]; refine Prod.ext ?_ (Prod.ext rfl ?_) <;> dsimp only <;> ring
  · rw [v1]; refine Prod.ext ?_ (Prod.ext rfl ?_) <;> dsimp only <;> ring
  · rw [v2]; refine Prod.ext ?_ (Prod.ext rfl ?_) <;> dsimp only <;> ring
  · intro p q hp0 hp5 hq0 hq5 hpq
    have hp := hval p hp0 hp5
    have hq := hval q hq0 hq5
    omega
  · intro p hp0 hp5
    have hp := hval p hp0 hp5
    omega

/-- An instance of C16: the interior node `(1,1)` of a lattice with 3 columns and
3 rows. -/
theorem neighbors_in_grid_interior_witness :
    ((3 : Int) ≤ 3 ∧ (0 : Int) < 1 ∧ (1 : Int) < 3 - 1) ∧
    neighbors_in_grid 1 1 5 3 3 = (3 * (1 - 1) + (1 - 1 + 1 % 2), 1 - 1, 1 - 1 + 1 % 2) :=
  ⟨by decide, (neighbors_in_grid_interior 3 3 1 1 (by decide) (by decide)
    (by decide) (by decide) (by decide)).2.2.2.1⟩

/-! ## The direction of the edges of the triangular grid -/

theorem make_triangular_grid_sized_ordered (habitat : Habitat) (xDemes yDemes : Int)
    (g : Graph) : EdgesOrdered (make_triangular_grid_sized habitat xDemes yDemes g) := by
  obtain ⟨ni, hni, hpairs, hlen, -⟩ := make_triangular_grid_sized_spec habitat xDemes yDemes g
  generalize mkLattice habitat xDemes yDemes = L at hni hpairs hlen
  generalize make_triangular_grid_sized habitat xDemes yDemes g = g' at hpairs hlen
  intro e he
  have hmem : coeff g'.DemePairs (e : Int) ∈ g'.DemePairs := by
    unfold coeff
    rw [Int.toNat_ofNat]
    exact getD_mem _ _ _ he
  generalize coeff g'.DemePairs (e : Int) = p at hmem ⊢
  rw [hpairs] at hmem
  obtain ⟨k, b, h1, h2, h3, h4, h5⟩ := rowsUpTo_mem L ni _ hni hmem
  rw [h5]
  have l1 := rank_lt L k b h1 h3
  have l2 := rank_lt L b _ h2 h4
  unfold Graph.get_num_total_demes
  rw [hlen]
  dsimp only
  omega

/-- C13: for every habitat and every lattice size, and so for every deme density,
every row `e` of the edge table written by `make_triangular_grid` satisfies
`0 <= DemePairs(e,0) < DemePairs(e,1) < nDemes`; the row joins the demes of two
lattice nodes inside the habitat, the one of lower raw index first. -/
theorem make_triangular_grid_edge_order (habitat : Habitat) (g : Graph) :
    (∀ xDemes yDemes : Int,
      EdgesOrdered (make_triangular_grid_sized habitat xDemes yDemes g) ∧
      ∀ p, p ∈ (make_triangular_grid_sized habitat xDemes yDemes g).DemePairs →
        ∃ k b : Nat, k < b ∧ rawIn (mkLattice habitat xDemes yDemes) k = true ∧
          rawIn (mkLattice habitat xDemes yDemes) b = true ∧
          p = ((rank (mkLattice habitat xDemes yDemes) k : Int),
            (rank (mkLattice habitat xDemes yDemes) b : Int))) ∧
    ∀ nDemeDensity : Int, EdgesOrdered (make_triangular_grid habitat nDemeDensity g) := by
  refine ⟨fun xDemes yDemes => ⟨make_triangular_grid_sized_ordered habitat xDemes yDemes g, ?_⟩,
    fun _ => make_triangular_grid_sized_ordered habitat _ _ g⟩
  intro p hp
  obtain ⟨ni, hni, hpairs, -, -⟩ := make_triangular_grid_sized_spec habitat xDemes yDemes g
  rw [hpairs] at hp
  obtain ⟨k, b, h1, -, h3, h4, h5⟩ := rowsUpTo_mem _ ni p hni hp
  exact ⟨k, b, h1, h3, h4, h5⟩

/-! ## The coordinates of the lattice nodes -/

/-- C20: in exact arithmetic, for a habitat with positive spans and a lattice with
more than one column and more than one row, the node `(r,c)` of the lattice has
`x = xmin + scalex*(c + (r mod 2)/2)` in `[xmin, xmin + xspan]` and
`y = ymin + scaley*r` in `[ymin, ymin + yspan]`; `x = xmin + xspan` exactly for
the last column of an odd row, and `y = ymin + yspan` exactly for the last
row. -/
theorem make_triangular_grid_node_bounds (habitat : Habitat) (xDemes yDemes r c : Int)
    (hx : 0 < habitat.xspan) (hy : 0 < habitat.yspan) (hxd : 1 < xDemes) (hyd : 1 < yDemes)
    (hr0 : 0 ≤ r) (hr1 : r < yDemes) (hc0 : 0 ≤ c) (hc1 : c < xDemes) :
    (mkLattice habitat xDemes yDemes).scalex = habitat.xspan / ((xDemes : ℚ) - 1 / 2) ∧
    (mkLattice habitat xDemes yDemes).scaley = habitat.yspan / ((yDemes : ℚ) - 1) ∧
    nodeX (mkLattice habitat xDemes yDemes) r c =
      habitat.xmin + (mkLattice habitat xDemes yDemes).scalex *
        ((c : ℚ) + ((r % 2 : Int) : ℚ) / 2) ∧
    nodeY (mkLattice habitat xDemes yDemes) r =
      habitat.ymin + (mkLattice habitat xDemes yDemes).scaley * (r : ℚ) ∧
    habitat.xmin ≤ nodeX (mkLattice habitat xDemes yDemes) r c ∧
    nodeX (mkLattice habitat xDemes yDemes) r c ≤ habitat.xmin + habitat.xspan ∧
    (nodeX (mkLattice habitat xDemes yDemes) r c = habitat.xmin + habitat.xspan ↔
      c = xDemes - 1 ∧ r % 2 = 1) ∧
    habitat.ymin ≤ nodeY (mkLattice habitat xDemes yDemes) r ∧
    nodeY (mkLattice habitat xDemes yDemes) r ≤ habitat.ymin + habitat.yspan ∧
    (nodeY (mkLattice habitat xDemes yDemes) r = habitat.ymin + habitat.yspan ↔
      r = yDemes - 1) := by
  have hsx : (mkLattice habitat xDemes yDemes).scalex =
      habitat.xspan / ((xDemes : ℚ) - 1 / 2) := by
    unfold mkLattice
    simp only [gt_iff_lt, hxd, ite_true]
  have hsy : (mkLattice habitat xDemes yDemes).scaley =
      habitat.yspan / ((yDemes : ℚ) - 1) := by
    unfold mkLattice
    simp only [gt_iff_lt, hyd, ite_true]
  have hxmin : (mkLattice habitat xDemes yDemes).habitat.xmin = habitat.xmin := rfl
  have hymin : (mkLattice habitat xDemes yDemes).habitat.ymin = habitat.ymin := rfl
  have htm : r.tmod 2 = r % 2 := Int.tmod_eq_emod hr0 (by omega)
  have hpar : r % 2 = 0 ∨ r % 2 = 1 := Int.emod_two_eq_zero_or_one r
  have hdx : (0 : ℚ) < (xDemes : ℚ) - 1 / 2 := by
    have : (1 : ℚ) < (xDemes : ℚ) := by exact_mod_cast hxd
    linarith
  have hdy : (0 : ℚ) < (yDemes : ℚ) - 1 := by
    have : (1 : ℚ) < (yDemes : ℚ) := by exact_mod_cast hyd
    linarith
  have hc0q : (0 : ℚ) ≤ (c : ℚ) := by exact_mod_cast hc0
  have hc1q : (c : ℚ) ≤ (xDemes : ℚ) - 1 := by
    have : c ≤ xDemes - 1 := by omega
    exact_mod_cast this
  have hr0q : (0 : ℚ) ≤ (r : ℚ) := by exact_mod_cast hr0
  have hr1q : (r : ℚ) ≤ (yDemes : ℚ) - 1 := by
    have : r ≤ yDemes - 1 := by omega
    exact_mod_cast this
  have he0 : (0 : ℚ) ≤ ((r % 2 : Int) : ℚ) := by
    have : 0 ≤ r % 2 := by omega
    exact_mod_cast this
  have he1 : ((r % 2 : Int) : ℚ) ≤ 1 := by
    have : r % 2 ≤ 1 := by omega
    exact_mod_cast this
  have ex : nodeX (mkLattice habitat xDemes yDemes) r c =
      habitat.xmin + habitat.xspan * (((c : ℚ) + ((r % 2 : Int) : ℚ) / 2) /
        ((xDemes : ℚ) - 1 / 2)) := by
    unfold nodeX
    rw [hsx, hxmin, htm]
    ring
  have ey : nodeY (mkLattice habitat xDemes yDemes) r =
      habitat.ymin + habitat.yspan * ((r : ℚ) / ((yDemes : ℚ) - 1)) := by
    unfold nodeY
    rw [hsy, hymin]
    ring
  have tx0 : (0 : ℚ) ≤ ((c : ℚ) + ((r % 2 : Int) : ℚ) / 2) / ((xDemes : ℚ) - 1 / 2) :=
    div_nonneg (by linarith) (le_of_lt hdx)
  have tx1 : ((c : ℚ) + ((r % 2 : Int) : ℚ) / 2) / ((xDemes : ℚ) - 1 / 2) ≤ 1 := by
    rw [div_le_one hdx]
    linarith
  have ty0 : (0 : ℚ) ≤ (r : ℚ) / ((yDemes : ℚ) - 1) := div_nonneg hr0q (le_of_lt hdy)
  have ty1 : (r : ℚ) / ((yDemes : ℚ) - 1) ≤ 1 := by
    rw [div_le_one hdy]
    exact hr1q
  refine ⟨hsx, hsy, ?_, ?_, ?_, ?_, ?_, ?_, ?_, ?_⟩
  · unfold nodeX
    rw [hxmin, htm]
    ring
  · unfold nodeY
    rw [hymin]
  · rw [ex]
    have := mul_nonneg (le_of_lt hx) tx0
    linarith
  · rw [ex]
    have := mul_le_mul_of_nonneg_left tx1 (le_of_lt hx)
    linarith
  · rw [ex]
    constructor
    · intro h
      have h1 : habitat.xspan * (((c : ℚ) + ((r % 2 : Int) : ℚ) / 2) /
          ((xDemes : ℚ) - 1 / 2)) = habitat.xspan * 1 := by linarith
      have h2 := mul_left_cancel₀ (ne_of_gt hx) h1
      rw [div_eq_one_iff_eq (ne_of_gt hdx)] at h2
      have h3 : (c : ℚ) = (xDemes : ℚ) - 1 := by linarith
      have h4 : ((r % 2 : Int) : ℚ) = 1 := by linarith
      constructor
      · have : (c : ℚ) = ((xDemes - 1 : Int) : ℚ) := by push_cast; exact h3
        exact_mod_cast this
      · exact_mod_cast h4
    · rintro ⟨h1, h2⟩
      rw [h1, h2]
      push_cast
      have : ((xDemes : ℚ) - 1 + 1 / 2) / ((xDemes : ℚ) - 1 / 2) = 1 := by
        rw [div_eq_one_iff_eq (ne_of_gt hdx)]
        ring
      rw [this]
      ring
  · rw [ey]
    have := mul_nonneg (le_of_lt hy) ty0
    linarith
  · rw [ey]
    have := mul_le_mul_of_nonneg_left ty1 (le_of_lt hy)
    linarith
  · rw [ey]
    constructor
    · intro h
      have h1 : habitat.yspan * ((r : ℚ) / ((yDemes : ℚ) - 1)) = habitat.yspan * 1 := by
        linarith
      have h2 := mul_left_cancel₀ (ne_of_gt hy) h1
      rw [div_eq_one_iff_eq (ne_of_gt hdy)] at h2
      have : (r : ℚ) = ((yDemes - 1 : Int) : ℚ) := by push_cast; exact h2
      exact_mod_cast this
    · intro h1
      rw [h1]
      push_cast
      rw [div_self (ne_of_gt hdy)]
      ring

/-- An instance of C20: the last node of the odd row 1 of a lattice with 3
columns and 4 rows over the rectangle `[1,5] x [2,8]`. -/
theorem make_triangular_grid_node_bounds_witness :
    ((0 : ℚ) < wideHabitat.xspan ∧ (0 : ℚ) < wideHabitat.yspan ∧ (1 : Int) < 3 ∧ (1 : Int) < 4 ∧
      (0 : Int) ≤ 1 ∧ (1 : Int) < 4 ∧ (0 : Int) ≤ 2 ∧ (2 : Int) < 3) ∧
    nodeX (mkLattice wideHabitat 3 4) 1 2 ≤ wideHabitat.xmin + wideHabitat.xspan :=
  ⟨by decide!, (make_triangular_grid_node_bounds wideHabitat 3 4 1 2 (by decide!) (by decide!)
    (by decide) (by decide) (by decide) (by decide) (by decide) (by decide)).2.2.2.2.2.1⟩

/-! ## The triangular grid is the sub-lattice induced by the habitat -/

/-- The nodes inside the habitat, listed by raw index: the entry `rank k` is `k`. -/
theorem filter_rank (L : Lattice) (M j : Nat) (hj : j < rank L M) :
    ∃ k, k < M ∧ rawIn L k = true ∧ rank L k = j ∧
      ((List.range M).filter (rawIn L)).getD j 0 = k := by
  induction M with
  | zero => simp [rank] at hj
  | succ M ih =>
    rw [List.range_succ, List.filter_append]
    rcases Nat.lt_or_ge j (rank L M) with h | h
    · obtain ⟨k, k1, k2, k3, k4⟩ := ih h
      refine ⟨k, by omega, k2, k3, ?_⟩
      rw [List.getD_append _ _ _ _ (by unfold rank at h; exact h)]
      exact k4
    · rw [rank_succ] at hj
      by_cases hin : rawIn L M = true
      · have hjM : j = rank L M := by simp only [hin, ite_true] at hj; omega
        refine ⟨M, by omega, hin, hjM.symm, ?_⟩
        rw [List.getD_append_right _ _ _ _ (by unfold rank at h; exact h)]
        have : j - ((List.range M).filter (rawIn L)).length = 0 := by
          unfold rank at hjM; omega
        rw [this]
        simp [hin]
      · simp only [hin] at hj
        simp at hj
        omega

/-- A position that leads from the node `k` to the node `j`: `j` is another node
of the lattice and the outputs `r2`, `c2` are its row and its column. -/
theorem rawBeta_cell (L : Lattice) (k j pos : Nat) (hk : k < L.rows * L.cols)
    (hb : rawBeta L k pos = (j : Int)) :
    j < L.rows * L.cols ∧ j ≠ k ∧
    (neighbors_in_grid ((k / L.cols : Nat) : Int) ((k % L.cols : Nat) : Int) (pos : Int)
      L.xDemes L.yDemes).2.1 = ((j / L.cols : Nat) : Int) ∧
    (neighbors_in_grid ((k / L.cols : Nat) : Int) ((k % L.cols : Nat) : Int) (pos : Int)
      L.xDemes L.yDemes).2.2 = ((j % L.cols : Nat) : Int) := by
  obtain ⟨hc, hx, hy, hrow, hcol⟩ := lattice_dims L k hk
  have halpha := raw_alpha L k hc
  unfold rawBeta at hb
  rw [hx] at halpha
  rw [hx, hy] at hb ⊢
  have hv := (neighbors_cell_valid (L.cols : Int) (L.rows : Int) ((k / L.cols : Nat) : Int)
    ((k % L.cols : Nat) : Int) (pos : Int) (by exact_mod_cast hc) (Int.natCast_nonneg _)
    (by exact_mod_cast hrow) (Int.natCast_nonneg _) (by exact_mod_cast hcol)).1
  generalize neighbors_in_grid ((k / L.cols : Nat) : Int) ((k % L.cols : Nat) : Int) (pos : Int)
    (L.cols : Int) (L.rows : Int) = nb at hb hv ⊢
  rcases hv with hv | ⟨v1, v2, v3, v4, v5, v6, v7, v8⟩
  · omega
  obtain ⟨r2, hr2⟩ := Int.eq_ofNat_of_zero_le v1
  obtain ⟨c2, hc2⟩ := Int.eq_ofNat_of_zero_le v3
  have hc2' : c2 < L.cols := by omega
  have hr2' : r2 < L.rows := by omega
  have hj : j = L.cols * r2 + c2 := by
    have : (j : Int) = ((L.cols * r2 + c2 : Nat) : Int) := by
      rw [← hb, v5, hr2, hc2]; push_cast; ring
    exact_mod_cast this
  have hdiv : j / L.cols = r2 := by
    rw [hj, Nat.mul_add_div hc, Nat.div_eq_of_lt hc2']
    omega
  have hmod : j % L.cols = c2 := by
    rw [hj, Nat.mul_add_mod, Nat.mod_eq_of_lt hc2']
  refine ⟨?_, ?_, ?_, ?_⟩
  · have h1 : L.cols * (r2 + 1) ≤ L.cols * L.rows := Nat.mul_le_mul_left _ (by omega)
    have h2 : L.cols * (r2 + 1) = L.cols * r2 + L.cols := by ring
    have h3 : L.cols * L.rows = L.rows * L.cols := by ring
    omega
  · intro hjk
    rw [halpha, hb, hjk] at v8
    exact v8 rfl
  · rw [hdiv, hr2]
  · rw [hmod, hc2]

/-- The neighbour relation between raw indices is symmetric. -/
theorem rawBeta_symm (L : Lattice) (k j pos : Nat) (hk : k < L.rows * L.cols) (hpos : pos < 6)
    (hb : rawBeta L k pos = (j : Int)) : rawBeta L j ((pos + 3) % 6) = (k : Int) := by
  obtain ⟨hc, hx, hy, hrow, hcol⟩ := lattice_dims L k hk
  obtain ⟨-, -, e1, e2⟩ := rawBeta_cell L k j pos hk hb
  have halpha := raw_alpha L k hc
  have hs := neighbors_opposite L.xDemes L.yDemes ((k / L.cols : Nat) : Int)
    ((k % L.cols : Nat) : Int) (pos : Int) (by omega) (Int.natCast_nonneg _)
    (by rw [hy]; exact_mod_cast hrow) (Int.natCast_nonneg _) (by rw [hx]; exact_mod_cast hcol)
    (Int.natCast_nonneg _) (by omega)
    (by unfold rawBeta at hb; rw [hb]; omega)
  rw [e1, e2, halpha] at hs
  unfold rawBeta
  have hp : (((pos + 3) % 6 : Nat) : Int) = ((pos : Int) + 3) % 6 := by push_cast; rfl
  rw [hp]
  exact hs

/-- A position that leads from a node inside the habitat to a node of larger
raw index inside the habitat writes a row of the edge table. -/
theorem rowsOf_of_neighbour (L : Lattice) (ni : List Int) (k j pos : Nat)
    (hk : k < L.rows * L.cols) (hkj : k < j) (hpos : pos < 6)
    (hni : ∀ k, k < L.rows * L.cols → rawIn L k = true → ni.getD k 0 = (rank L k : Int))
    (hink : rawIn L k = true) (hinj : rawIn L j = true) (hb : rawBeta L k pos = (j : Int)) :
    ((rank L k : Int), (rank L j : Int)) ∈ rowsOf L ni k := by
  obtain ⟨hc, hx, hy, hrow, hcol⟩ := lattice_dims L k hk
  obtain ⟨hj, -, e1, e2⟩ := rawBeta_cell L k j pos hk hb
  have halpha := raw_alpha L k hc
  have ht : rawTest L k pos = true := by
    unfold rawTest edgeTest
    simp only [Bool.and_eq_true, decide_eq_true_eq]
    constructor
    · unfold rawBeta at hb
      rw [halpha, hb]
      exact_mod_cast hkj
    · rw [e1, e2]
      exact hinj
  unfold rowsOf
  simp only [hink, ite_true, List.mem_map, List.mem_filter, List.mem_range]
  refine ⟨pos, ⟨hpos, ht⟩, ?_⟩
  rw [hb, coeff_natCast, coeff_natCast, hni k hk hink, hni j hj hinj]

/-- A row written at the node of raw index `k`, with the position that wrote
it. -/
theorem rowsOf_mem_pos (L : Lattice) (ni : List Int) (k : Nat) (p : Int × Int)
    (hk : k < L.rows * L.cols)
    (hni : ∀ k, k < L.rows * L.cols → rawIn L k = true → ni.getD k 0 = (rank L k : Int))
    (hp : p ∈ rowsOf L ni k) :
    rawIn L k = true ∧ ∃ pos b : Nat, pos < 6 ∧ rawBeta L k pos = (b : Int) ∧
      b < L.rows * L.cols ∧ rawIn L b = true ∧
      p = ((rank L k : Int), (rank L b : Int)) := by
  unfold rowsOf at hp
  by_cases h : rawIn L k = true
  · simp only [h, ite_true, List.mem_map, List.mem_filter, List.mem_range] at hp
    obtain ⟨pos, ⟨hpos, ht⟩, hpe⟩ := hp
    obtain ⟨b, _, b2, b3, b4⟩ := edge_target L k pos hk ht
    refine ⟨h, pos, b, hpos, b4, b2, b3, ?_⟩
    rw [← hpe, b4, coeff_natCast, coeff_natCast, hni k hk h, hni b b2 b3]
  · simp [h] at hp

theorem make_triangular_grid_sized_induced (habitat : Habitat) (xDemes yDemes : Int)
    (g : Graph) :
    IsInducedSublattice (mkLattice habitat xDemes yDemes)
      (make_triangular_grid_sized habitat xDemes yDemes g) := by
  obtain ⟨ni, hni, hpairs, hlen, hcoord⟩ :=
    make_triangular_grid_sized_spec habitat xDemes yDemes g
  generalize mkLattice habitat xDemes yDemes = L at hni hpairs hlen hcoord ⊢
  generalize make_triangular_grid_sized habitat xDemes yDemes g = g' at hpairs hlen hcoord ⊢
  have hrow : ∀ a b : Int, (a, b) ∈ g'.DemePairs →
      ∃ k j : Nat, k < L.rows * L.cols ∧ j < L.rows * L.cols ∧
        rawIn L k = true ∧ rawIn L j = true ∧ (∃ pos : Nat, pos < 6 ∧ rawBeta L k pos = (j : Int)) ∧
        a = (rank L k : Int) ∧ b = (rank L j : Int) := by
    intro a b hp
    rw [hpairs] at hp
    unfold rowsUpTo at hp
    obtain ⟨k, hk, hpk⟩ := List.mem_flatMap.mp hp
    have hk' := List.mem_range.mp hk
    obtain ⟨h, pos, j, p1, p2, p3, p4, p5⟩ := rowsOf_mem_pos L ni k (a, b) hk' hni hpk
    exact ⟨k, j, hk', p3, h, p4, ⟨pos, p1, p2⟩, congrArg Prod.fst p5, congrArg Prod.snd p5⟩
  have hedge : ∀ k j pos : Nat, k < L.rows * L.cols → pos < 6 → rawIn L k = true →
      rawIn L j = true → rawBeta L k pos = (j : Int) →
      Adjacent g' (rank L k : Int) (rank L j : Int) := by
    intro k j pos hk hpos hink hinj hb
    obtain ⟨hj, hne, -, -⟩ := rawBeta_cell L k j pos hk hb
    unfold Adjacent
    rw [hpairs]
    unfold rowsUpTo
    rcases Nat.lt_or_ge k j with h | h
    · left
      exact List.mem_flatMap.mpr ⟨k, List.mem_range.mpr hk,
        rowsOf_of_neighbour L ni k j pos hk h hpos hni hink hinj hb⟩
    · right
      have hs := rawBeta_symm L k j pos hk hpos hb
      exact List.mem_flatMap.mpr ⟨j, List.mem_range.mpr hj,
        rowsOf_of_neighbour L ni j k ((pos + 3) % 6) hj (by omega) (Nat.mod_lt _ (by decide)) hni
          hinj hink hs⟩
  constructor
  · apply List.ext_getElem
    · rw [hlen, List.length_map]
      rfl
    · intro i h1 h2
      rw [hlen] at h1
      obtain ⟨k, k1, k2, k3, k4⟩ := filter_rank L _ i h1
      have hc := hcoord k k1 k2
      rw [k3, List.getD_eq_getElem _ _ (by rw [hlen]; exact h1)] at hc
      rw [hc, List.getElem_map]
      congr 1
      rw [List.getD_eq_getElem _ _ (by unfold rank at h1; exact h1)] at k4
      exact k4.symm
  · intro a b
    constructor
    · rintro (h | h)
      · obtain ⟨k, j, h1, h2, h3, h4, ⟨pos, p1, p2⟩, h6, h7⟩ := hrow a b h
        exact ⟨k, j, h1, h2, h3, h4, ⟨pos, p1, Or.inl p2⟩, h6, h7⟩
      · obtain ⟨k, j, h1, h2, h3, h4, ⟨pos, p1, p2⟩, h6, h7⟩ := hrow b a h
        exact ⟨j, k, h2, h1, h4, h3, ⟨pos, p1, Or.inr p2⟩, h7, h6⟩
    · rintro ⟨k, j, h1, h2, h3, h4, ⟨pos, p1, p2 | p2⟩, rfl, rfl⟩
      · exact hedge k j pos h1 p1 h3 h4 p2
      · have := hedge j k pos h2 p1 h4 h3 p2
        unfold Adjacent at this ⊢
        exact this.symm

/-- C12: for every habitat and every lattice size, and so for every deme density,
the output of `make_triangular_grid` is the sub-lattice induced by the
habitat: `DemeCoord` lists, in the order of the raw indices, the coordinates of
the lattice nodes that satisfy `habitat.in_point`, and `DemePairs` holds a row
that joins two demes, in one order or the other, if and only if their lattice
nodes are neighbours and both lie inside the habitat. -/
theorem make_triangular_grid_induced (habitat : Habitat) (g : Graph) :
    (∀ xDemes yDemes : Int,
      IsInducedSublattice (mkLattice habitat xDemes yDemes)
        (make_triangular_grid_sized habitat xDemes yDemes g)) ∧
    ∀ nDemeDensity : Int,
      IsInducedSublattice
        (mkLattice habitat
          (intSqrt ((nDemeDensity : ℚ) * habitat.xspan * habitat.xspan / habitat.area))
          (intSqrt ((nDemeDensity : ℚ) * habitat.yspan * habitat.yspan / habitat.area)))
        (make_triangular_grid habitat nDemeDensity g) :=
  ⟨fun xDemes yDemes => make_triangular_grid_sized_induced habitat xDemes yDemes g,
    fun _ => make_triangular_grid_sized_induced habitat _ _ g⟩

/-! ## The row indices read by the duplicate removal -/

/-- C18, the code at a failing input: the edge rows `(1,2)`, `(3,4)`, `(2,1)`,
`(4,3)`.  The pass for `e2 = 3` keeps the table at `e1 = 0`, removes row 3 at
`e1 = 1`, and at `e1 = 2` reads row 3 of a table that has three rows left: the
row index read equals the current number of rows. -/
theorem dedupLoop_reads_row_count :
    dedupInner 3 (some [(1, 2), (3, 4), (2, 1), (4, 3)]) 0 =
      some [(1, 2), (3, 4), (2, 1), (4, 3)] ∧
    dedupInner 3 (some [(1, 2), (3, 4), (2, 1), (4, 3)]) 1 = some [(1, 2), (3, 4), (2, 1)] ∧
    ([(1, 2), (3, 4), (2, 1)] : List (ℚ × ℚ)).length = 3 ∧
    ([(1, 2), (3, 4), (2, 1)] : List (ℚ × ℚ))[3]? = none ∧
    dedupInner 3 (some [(1, 2), (3, 4), (2, 1)]) 2 = none ∧
    dedupLoop [(1, 2), (3, 4), (2, 1), (4, 3)] = none := by
  decide!

/-! ## The permutation applied by `reindex_demes` -/

/-- The vector `newIndex` at the end of the two numbering loops: it has one
entry per deme, and its entries are the indices `[0,nDemes)`, each one once. -/
theorem reindex_newIndex_spec (g : Graph)
    (hx : ∀ s, s < g.indiv2deme.length →
      0 ≤ g.indiv2deme.getD s 0 ∧ g.indiv2deme.getD s 0 < (g.DemeCoord.length : Int)) :
    (reindex_newIndex g).length = g.DemeCoord.length ∧
    (reindex_observed g).oDemes ≤ (g.DemeCoord.length : Int) ∧
    (∀ a, a < g.DemeCoord.length → 0 ≤ (reindex_newIndex g).getD a 0 ∧
      (reindex_newIndex g).getD a 0 < (g.DemeCoord.length : Int)) ∧
    (∀ a b, a < g.DemeCoord.length → b < g.DemeCoord.length →
      (reindex_newIndex g).getD a 0 = (reindex_newIndex g).getD b 0 → a = b) ∧
    (∀ k : Int, 0 ≤ k → k < (g.DemeCoord.length : Int) →
      ∃ a, a < g.DemeCoord.length ∧ (reindex_newIndex g).getD a 0 = k) ∧
    (∀ a, a < g.DemeCoord.length → (reindex_observed g).newIndex.getD a 0 ≠ -1 →
      (reindex_newIndex g).getD a 0 = (reindex_observed g).newIndex.getD a 0) ∧
    (∀ a, a < g.DemeCoord.length → (reindex_observed g).newIndex.getD a 0 = -1 →
      (reindex_observed g).oDemes ≤ (reindex_newIndex g).getD a 0) := by
  have inv := reindex_observed_invariant g hx
  have inv2 := reindex_unobserved_invariant g inv.len_new
  unfold reindex_newIndex
  generalize (List.range g.DemeCoord.length).foldl unobservedStep
    ((reindex_observed g).newIndex, (reindex_observed g).oDemes) = st at inv2 ⊢
  generalize reindex_observed g = obs at inv inv2 ⊢
  generalize g.DemeCoord.length = n at inv inv2 ⊢
  have ho := inv.o_nonneg
  have ho2 := inv2.o_le
  have hA : ∀ a, a < n → 0 ≤ st.1.getD a 0 ∧ st.1.getD a 0 < st.2 := by
    intro a ha
    by_cases h1 : obs.newIndex.getD a 0 = -1
    · have := inv2.fresh a ha h1
      omega
    · rw [inv2.keep a ha h1]
      rcases inv.range a ha with r | r
      · exact absurd r h1
      · omega
  have hB : ∀ a b, a < n → b < n → st.1.getD a 0 = st.1.getD b 0 → a = b := by
    intro a b ha hb hab
    by_cases h1 : obs.newIndex.getD a 0 = -1 <;> by_cases h2 : obs.newIndex.getD b 0 = -1
    · rcases Nat.lt_trichotomy a b with h | h | h
      · have := inv2.order a b h hb h1 h2; omega
      · exact h
      · have := inv2.order b a h ha h2 h1; omega
    · have f1 := inv2.fresh a ha h1
      rw [inv2.keep b hb h2] at hab
      rcases inv.range b hb with r | r
      · exact absurd r h2
      · omega
    · have f2 := inv2.fresh b hb h2
      rw [inv2.keep a ha h1] at hab
      rcases inv.range a ha with r | r
      · exact absurd r h1
      · omega
    · rw [inv2.keep a ha h1, inv2.keep b hb h2] at hab
      exact inv.inj a b ha hb h1 hab
  have hC : ∀ k : Int, 0 ≤ k → k < st.2 → ∃ a, a < n ∧ st.1.getD a 0 = k := by
    intro k hk0 hk
    rcases lt_or_le k obs.oDemes with h | h
    · obtain ⟨a, ha, hak⟩ := inv.onto k hk0 h
      exact ⟨a, ha, by rw [inv2.keep a ha (by omega), hak]⟩
    · obtain ⟨a, ha, _, hak⟩ := inv2.onto k h hk
      exact ⟨a, ha, hak⟩
  have hD : st.2 = (n : Int) := by
    have hbij : Function.Bijective
        (fun a : Fin n => (⟨(st.1.getD a.1 0).toNat, by
          have := hA a.1 a.2
          omega⟩ : Fin st.2.toNat)) := by
      constructor
      · intro a b hab
        have h1 := congrArg Fin.val hab
        simp only at h1
        have ha := hA a.1 a.2
        have hb := hA b.1 b.2
        exact Fin.ext (hB a.1 b.1 a.2 b.2 (by omega))
      · intro k
        obtain ⟨a, ha, hak⟩ := hC (k.1 : Int) (Int.natCast_nonneg _) (by have := k.2; omega)
        refine ⟨⟨a, ha⟩, Fin.ext ?_⟩
        simp only
        omega
    have := Fintype.card_of_bijective hbij
    simp only [Fintype.card_fin] at this
    omega
  refine ⟨inv2.len, by omega, ?_, hB, ?_, inv2.keep, ?_⟩
  · intro a ha
    have := hA a ha
    omega
  · intro k hk0 hk
    exact hC k hk0 (by omega)
  · intro a ha h1
    exact (inv2.fresh a ha h1).1

/-- The vector `newIndex` is a permutation of the deme indices. -/
theorem reindex_newIndex_permutation (g : Graph)
    (hx : ∀ s, s < g.indiv2deme.length →
      0 ≤ g.indiv2deme.getD s 0 ∧ g.indiv2deme.getD s 0 < (g.DemeCoord.length : Int)) :
    IsPermutation g.DemeCoord.length (coeff (reindex_newIndex g)) := by
  obtain ⟨_, _, hA, hB, hC, _, _⟩ := reindex_newIndex_spec g hx
  refine ⟨?_, ?_, ?_⟩
  · intro i h0 h1
    unfold coeff
    exact hA i.toNat (by omega)
  · intro i j hi0 hi1 hj0 hj1 hij
    unfold coeff at hij
    have := hB i.toNat j.toNat (by omega) (by omega) hij
    omega
  · intro k hk0 hk1
    obtain ⟨a, ha, hak⟩ := hC k hk0 hk1
    exact ⟨(a : Int), Int.natCast_nonneg _, by exact_mod_cast ha, by rw [coeff_natCast]; exact hak⟩

/-- The loop that moves the coordinates: row `newIndex(i)` of the result is row
`i` of the input. -/
theorem coord_loop_spec (ni : List Int) (Input : List Point)
    (hA : ∀ a, a < Input.length → 0 ≤ ni.getD a 0 ∧ ni.getD a 0 < (Input.length : Int))
    (hB : ∀ a b, a < Input.length → b < Input.length → ni.getD a 0 = ni.getD b 0 → a = b) :
    ((List.range Input.length).foldl
      (fun M (i : Nat) => setCoeff M (coeff ni i) (coeff Input i)) Input).length = Input.length ∧
    ∀ i, i < Input.length →
      ((List.range Input.length).foldl
        (fun M (i : Nat) => setCoeff M (coeff ni i) (coeff Input i)) Input).getD
          (ni.getD i 0).toNat default = Input.getD i default := by
  have key := foldl_range_invariant
    (fun M (i : Nat) => setCoeff M (coeff ni i) (coeff Input i))
    (fun m M => M.length = Input.length ∧
      ∀ i, i < m → M.getD (ni.getD i 0).toNat default = Input.getD i default)
    Input.length Input ⟨rfl, fun i hi => absurd hi (Nat.not_lt_zero i)⟩ (by
      intro m M hm ⟨hlen, hval⟩
      refine ⟨by simp [setCoeff, hlen], ?_⟩
      intro i hi
      have hm' := hA m hm
      simp only [setCoeff, coeff_natCast]
      rcases Nat.lt_or_ge i m with h | h
      · have hne : ni.getD m 0 ≠ ni.getD i 0 := fun e => by
          have := hB m i hm (by omega) e
          omega
        have hi' := hA i (by omega)
        rw [getD_set_ne _ _ _ _ _ (by omega)]
        exact hval i h
      · have : i = m := by omega
        subst this
        rw [getD_set_self _ _ _ _ (by omega)]
        unfold coeff
        rw [Int.toNat_ofNat])
  exact ⟨key.1, fun i hi => key.2 i hi⟩

/-- The loop that rewrites the edges: both endpoints of every row are replaced
by their new indices. -/
theorem pairs_loop_spec (ni : List Int) (P : List (Int × Int)) :
    ((List.range P.length).foldl
      (fun M (i : Nat) =>
        let alpha := coeff ni (coeff M i).1
        let beta := coeff ni (coeff M i).2
        setCoeff M i (alpha, beta)) P).length = P.length ∧
    ∀ e, e < P.length →
      ((List.range P.length).foldl
        (fun M (i : Nat) =>
          let alpha := coeff ni (coeff M i).1
          let beta := coeff ni (coeff M i).2
          setCoeff M i (alpha, beta)) P).getD e default =
        (coeff ni (P.getD e default).1, coeff ni (P.getD e default).2) := by
  have key := foldl_range_invariant
    (fun M (i : Nat) =>
      let alpha := coeff ni (coeff M i).1
      let beta := coeff ni (coeff M i).2
      setCoeff M i (alpha, beta))
    (fun m M => M.length = P.length ∧
      (∀ e, e < m → M.getD e default =
        (coeff ni (P.getD e default).1, coeff ni (P.getD e default).2)) ∧
      ∀ e, m ≤ e → M.getD e default = P.getD e default)
    P.length P ⟨rfl, fun e he => absurd he (Nat.not_lt_zero e), fun _ _ => rfl⟩ (by
      intro m M hm ⟨hlen, hdone, hrest⟩
      refine ⟨by simp [setCoeff, hlen], ?_, ?_⟩
      · intro e he
        simp only [setCoeff]
        rw [Int.toNat_ofNat]
        rcases Nat.lt_or_ge e m with h | h
        · rw [getD_set_ne _ _ _ _ _ (by omega)]
          exact hdone e h
        · have : e = m := by omega
          subst this
          rw [getD_set_self _ _ _ _ (by omega)]
          have : coeff M (e : Int) = P.getD e default := by
            unfold coeff
            rw [Int.toNat_ofNat]
            exact hrest e (le_refl e)
          rw [this]
      · intro e he
        simp only [setCoeff]
        rw [Int.toNat_ofNat, getD_set_ne _ _ _ _ _ (by omega)]
        exact hrest e (by omega))
  exact ⟨key.1, fun e he => key.2.1 e he⟩

/-- The edge table of a state accepted by `reindex_demes` is in range. -/
theorem reindex_demes_edges (g g' : Graph) (h : reindex_demes g = .ok g') :
    g.DemePairs ≠ [] ∧ ∀ p, p ∈ g.DemePairs →
      (0 ≤ p.1 ∧ p.1 < (g.DemeCoord.length : Int)) ∧
      (0 ≤ p.2 ∧ p.2 < (g.DemeCoord.length : Int)) := by
  obtain ⟨_, h2, _⟩ := reindex_demes_ok g g' h
  obtain ⟨hne, hall⟩ := inRange_true _ _ h2
  refine ⟨?_, ?_⟩
  · intro he
    rw [he] at hne
    exact hne rfl
  · intro p hp
    exact ⟨hall _ ((mem_coeffs _ _).mpr ⟨p, hp, Or.inl rfl⟩),
      hall _ ((mem_coeffs _ _).mpr ⟨p, hp, Or.inr rfl⟩)⟩

/-- Every sample moves with its deme, to an observed deme. -/
theorem reindex_samples_spec (g : Graph)
    (hx : ∀ s, s < g.indiv2deme.length →
      0 ≤ g.indiv2deme.getD s 0 ∧ g.indiv2deme.getD s 0 < (g.DemeCoord.length : Int)) :
    (reindex_observed g).indiv2deme.length = g.indiv2deme.length ∧
    ∀ s, s < g.indiv2deme.length →
      (reindex_observed g).indiv2deme.getD s 0 =
        (reindex_newIndex g).getD (g.indiv2deme.getD s 0).toNat 0 ∧
      0 ≤ (reindex_observed g).indiv2deme.getD s 0 ∧
      (reindex_observed g).indiv2deme.getD s 0 < (reindex_observed g).oDemes := by
  have inv := reindex_observed_invariant g hx
  obtain ⟨_, _, _, _, _, hkeep, _⟩ := reindex_newIndex_spec g hx
  refine ⟨inv.len_smp, ?_⟩
  intro s hs
  obtain ⟨h0, h1⟩ := hx s hs
  have hne : (reindex_observed g).newIndex.getD (g.indiv2deme.getD s 0).toNat 0 ≠ -1 :=
    (inv.seen _ (by omega)).mpr ⟨s, hs, by omega⟩
  rw [inv.done s hs, hkeep _ (by omega) hne]
  rcases inv.range (g.indiv2deme.getD s 0).toNat (by omega) with r | r
  · exact absurd r hne
  · exact ⟨rfl, r⟩

/-- C11: for a state accepted by `reindex_demes`, the vector `newIndex` is a
bijection `pi` of `[0,nDemes)` onto itself; afterwards row `pi(i)` of `DemeCoord`
is the former row `i`, row `e` of `DemePairs` is `(pi(a), pi(b))` for the former
row `(a,b)`, and sample `s` is assigned to `pi` of its former deme; the numbers
of demes, edges and samples are unchanged; so every sample is attached to a
deme with the same coordinates, and two demes are joined by an edge if and
only if their images are. -/
theorem reindex_demes_permutation (g g' : Graph) (h : reindex_demes g = .ok g') :
    IsPermutation g.DemeCoord.length (coeff (reindex_newIndex g)) ∧
    g'.get_num_total_demes = g.get_num_total_demes ∧
    g'.get_num_edges = g.get_num_edges ∧
    g'.indiv2deme.length = g.indiv2deme.length ∧
    (∀ i : Nat, i < g.DemeCoord.length →
      coeff g'.DemeCoord (coeff (reindex_newIndex g) (i : Int)) = coeff g.DemeCoord (i : Int)) ∧
    (∀ e : Nat, e < g.DemePairs.length →
      coeff g'.DemePairs (e : Int) =
        (coeff (reindex_newIndex g) (coeff g.DemePairs (e : Int)).1,
          coeff (reindex_newIndex g) (coeff g.DemePairs (e : Int)).2)) ∧
    (∀ s : Nat, s < g.indiv2deme.length →
      coeff g'.indiv2deme (s : Int) = coeff (reindex_newIndex g) (coeff g.indiv2deme (s : Int))) ∧
    (∀ s : Nat, s < g.indiv2deme.length →
      coeff g'.DemeCoord (coeff g'.indiv2deme (s : Int)) =
        coeff g.DemeCoord (coeff g.indiv2deme (s : Int))) ∧
    (∀ a b : Int, 0 ≤ a → a < g.get_num_total_demes → 0 ≤ b → b < g.get_num_total_demes →
      (Adjacent g' (coeff (reindex_newIndex g) a) (coeff (reindex_newIndex g) b) ↔
        Adjacent g a b)) := by
  obtain ⟨hg', _, _⟩ := reindex_demes_ok g g' h
  obtain ⟨_, hx⟩ := reindex_demes_samples g g' h
  obtain ⟨_, hp⟩ := reindex_demes_edges g g' h
  obtain ⟨hlen, _, hA, hB, _, _, _⟩ := reindex_newIndex_spec g hx
  have hperm := reindex_newIndex_permutation g hx
  obtain ⟨c1, c2⟩ := coord_loop_spec (reindex_newIndex g) g.DemeCoord hA hB
  obtain ⟨p1, p2⟩ := pairs_loop_spec (reindex_newIndex g) g.DemePairs
  obtain ⟨s1, s2⟩ := reindex_samples_spec g hx
  subst hg'
  have hcoord : ∀ i : Nat, i < g.DemeCoord.length →
      coeff (reindex_body g).DemeCoord (coeff (reindex_newIndex g) (i : Int)) =
        coeff g.DemeCoord (i : Int) := by
    intro i hi
    have := c2 i hi
    rw [coeff_natCast]
    unfold coeff
    rw [Int.toNat_ofNat]
    exact this
  have hpairs : ∀ e : Nat, e < g.DemePairs.length →
      coeff (reindex_body g).DemePairs (e : Int) =
        (coeff (reindex_newIndex g) (coeff g.DemePairs (e : Int)).1,
          coeff (reindex_newIndex g) (coeff g.DemePairs (e : Int)).2) := by
    intro e he
    have := p2 e he
    unfold coeff at this ⊢
    rw [Int.toNat_ofNat]
    exact this
  have hsmp : ∀ s : Nat, s < g.indiv2deme.length →
      coeff (reindex_body g).indiv2deme (s : Int) =
        coeff (reindex_newIndex g) (coeff g.indiv2deme (s : Int)) := by
    intro s hs
    rw [reindex_body_samples, coeff_natCast, coeff_natCast, (s2 s hs).1]
    rfl
  have hmap : ∀ a b : Int, (a, b) ∈ g.DemePairs →
      (coeff (reindex_newIndex g) a, coeff (reindex_newIndex g) b) ∈
        (reindex_body g).DemePairs := by
    intro a b hab
    obtain ⟨e, he, hab'⟩ := List.getElem_of_mem hab
    have h1 := hpairs e he
    have h2 : coeff g.DemePairs (e : Int) = (a, b) := by
      unfold coeff
      rw [Int.toNat_ofNat, List.getD_eq_getElem _ _ he]
      exact hab'
    rw [h2] at h1
    rw [← h1]
    unfold coeff
    rw [Int.toNat_ofNat]
    exact getD_mem _ _ _ (by rw [show (reindex_body g).DemePairs.length = g.DemePairs.length from p1]; exact he)
  have hback : ∀ a b : Int, 0 ≤ a → a < (g.DemeCoord.length : Int) → 0 ≤ b →
      b < (g.DemeCoord.length : Int) →
      (coeff (reindex_newIndex g) a, coeff (reindex_newIndex g) b) ∈
        (reindex_body g).DemePairs → (a, b) ∈ g.DemePairs := by
    intro a b ha0 ha1 hb0 hb1 hab
    obtain ⟨e, he, hab'⟩ := List.getElem_of_mem hab
    have he' : e < g.DemePairs.length := by
      rw [← show (reindex_body g).DemePairs.length = g.DemePairs.length from p1]; exact he
    have h1 := hpairs e he'
    have h2 : coeff (reindex_body g).DemePairs (e : Int) =
        (coeff (reindex_newIndex g) a, coeff (reindex_newIndex g) b) := by
      unfold coeff
      rw [Int.toNat_ofNat, List.getD_eq_getElem _ _ he]
      exact hab'
    rw [h2] at h1
    have hmem : coeff g.DemePairs (e : Int) ∈ g.DemePairs := by
      unfold coeff
      rw [Int.toNat_ofNat]
      exact getD_mem _ _ _ he'
    obtain ⟨⟨q1, q2⟩, ⟨q3, q4⟩⟩ := hp _ hmem
    have e1 := hperm.2.1 a _ ha0 ha1 q1 q2 (congrArg Prod.fst h1)
    have e2 := hperm.2.1 b _ hb0 hb1 q3 q4 (congrArg Prod.snd h1)
    have : (a, b) = coeff g.DemePairs (e : Int) := Prod.ext e1 e2
    rw [this]
    exact hmem
  refine ⟨hperm, ?_, ?_, ?_, hcoord, hpairs, hsmp, ?_, ?_⟩
  · unfold Graph.get_num_total_demes
    rw [show (reindex_body g).DemeCoord.length = g.DemeCoord.length from c1]
  · unfold Graph.get_num_edges
    rw [show (reindex_body g).DemePairs.length = g.DemePairs.length from p1]
  · rw [reindex_body_samples]
    exact s1
  · intro s hs
    rw [hsmp s hs]
    obtain ⟨h0, h1⟩ := hx s hs
    have hc : coeff g.indiv2deme (s : Int) = ((g.indiv2deme.getD s 0).toNat : Int) := by
      rw [coeff_natCast]
      omega
    rw [hc]
    exact hcoord _ (by omega)
  · intro a b ha0 ha1 hb0 hb1
    unfold Graph.get_num_total_demes at ha1 hb1
    unfold Adjacent
    constructor
    · rintro (hab | hab)
      · exact Or.inl (hback a b ha0 ha1 hb0 hb1 hab)
      · exact Or.inr (hback b a hb0 hb1 ha0 ha1 hab)
    · rintro (hab | hab)
      · exact Or.inl (hmap a b hab)
      · exact Or.inr (hmap b a hab)

/-- An instance of C11: the line graph. -/
theorem reindex_demes_permutation_witness :
    reindex_demes lineGraph = .ok lineGraphReindexed ∧
    IsPermutation lineGraph.DemeCoord.length (coeff (reindex_newIndex lineGraph)) ∧
    ∀ i : Nat, i < lineGraph.DemeCoord.length →
      coeff lineGraphReindexed.DemeCoord (coeff (reindex_newIndex lineGraph) (i : Int)) =
        coeff lineGraph.DemeCoord (i : Int) :=
  ⟨rfl, (reindex_demes_permutation lineGraph lineGraphReindexed rfl).1,
    (reindex_demes_permutation lineGraph lineGraphReindexed rfl).2.2.2.2.1⟩

/-! ## The number of samples of each observed deme -/

theorem sum_set_succ (l : List Int) (i : Nat) (h : i < l.length) :
    (l.set i (l.getD i 0 + 1)).sum = l.sum + 1 := by
  induction l generalizing i with
  | nil => simp at h
  | cons x xs ih =>
    cases i with
    | zero => simp; ring
    | succ j =>
      have hj : j < xs.length := by simpa using h
      simp only [List.set_cons_succ, List.sum_cons, List.getD_cons_succ]
      rw [ih j hj]
      ring

theorem length_le_sum (l : List Int) (h : ∀ x, x ∈ l → 1 ≤ x) : (l.length : Int) ≤ l.sum := by
  induction l with
  | nil => simp
  | cons x xs ih =>
    have h1 := h x (List.mem_cons_self _ _)
    have h2 := ih (fun y hy => h y (List.mem_cons_of_mem _ hy))
    simp only [List.length_cons, List.sum_cons]
    push_cast
    omega

/-- The loop `DemeSizes(indiv2deme(i))++` over samples assigned to `[0,o)`: entry
`k` of the result is the number of samples of deme `k`. -/
theorem sizes_loop_spec (v : List Int) (o : Nat)
    (hv : ∀ s, s < v.length → 0 ≤ v.getD s 0 ∧ v.getD s 0 < (o : Int)) :
    ((List.range v.length).foldl (sizesStep v) (List.replicate o 0)).length = o ∧
    ((List.range v.length).foldl (sizesStep v) (List.replicate o 0)).sum = (v.length : Int) ∧
    ∀ k, k < o →
      ((List.range v.length).foldl (sizesStep v) (List.replicate o 0)).getD k 0 =
        (v.count (k : Int) : Int) := by
  have key := foldl_range_invariant (sizesStep v)
    (fun m D => D.length = o ∧ D.sum = (m : Int) ∧
      ∀ k, k < o → D.getD k 0 = ((v.take m).count (k : Int) : Int))
    v.length (List.replicate o 0)
    ⟨by simp, by simp, fun k hk => by simp [getD_replicate_lt o k _ _ hk]⟩ (by
      intro m D hm ⟨hlen, hsum, hcnt⟩
      obtain ⟨h0, h1⟩ := hv m hm
      have hst : sizesStep v D m =
          D.set (v.getD m 0).toNat (D.getD (v.getD m 0).toNat 0 + 1) := by
        unfold sizesStep setCoeff
        rw [coeff_natCast]
        rfl
      rw [hst]
      refine ⟨by simp [hlen], ?_, ?_⟩
      · rw [sum_set_succ _ _ (by omega), hsum]
        push_cast
        rfl
      · intro k hk
        have htake : v.take (m + 1) = v.take m ++ [v.getD m 0] := by
          rw [List.take_succ, List.getElem?_eq_getElem hm, List.getD_eq_getElem _ _ hm]
          rfl
        rw [htake, List.count_append, List.count_singleton]
        by_cases hkm : (v.getD m 0).toNat = k
        · subst hkm
          rw [getD_set_self _ _ _ _ (by omega), hcnt _ hk]
          have : v.getD m 0 = (((v.getD m 0).toNat : Nat) : Int) := by omega
          rw [← this]
          simp
        · rw [getD_set_ne _ _ _ _ _ hkm, hcnt k hk]
          have hne : ¬ (v.getD m 0 = (k : Int)) := by omega
          simp only [beq_iff_eq]
          split_ifs
          simp)
  obtain ⟨k1, k2, k3⟩ := key
  refine ⟨k1, k2, ?_⟩
  intro k hk
  rw [k3 k hk, List.take_length]

/-- C14: for a state accepted by `reindex_demes`, afterwards `DemeSizes` has
length `oDemes`, its entry `k` is the number of samples assigned to the deme `k`
and is at least 1, its entries sum to `nIndiv`, and `oDemes` is at most `nIndiv`
and at most `nDemes`. -/
theorem reindex_demes_sizes (g g' : Graph) (h : reindex_demes g = .ok g') :
    (g'.DemeSizes.length : Int) = (reindex_observed g).oDemes ∧
    g'.get_num_obsrv_demes = (reindex_observed g).oDemes ∧
    (∀ k : Int, 0 ≤ k → k < g'.get_num_obsrv_demes →
      coeff g'.DemeSizes k = (g'.indiv2deme.count k : Int) ∧ 1 ≤ coeff g'.DemeSizes k) ∧
    g'.DemeSizes.sum = (g.indiv2deme.length : Int) ∧
    g'.get_num_obsrv_demes ≤ min (g.indiv2deme.length : Int) g.get_num_total_demes := by
  obtain ⟨hg', _, _⟩ := reindex_demes_ok g g' h
  obtain ⟨_, hx⟩ := reindex_demes_samples g g' h
  have inv := reindex_observed_invariant g hx
  obtain ⟨_, hon, _, _, _, _, _⟩ := reindex_newIndex_spec g hx
  obtain ⟨s1, s2⟩ := reindex_samples_spec g hx
  subst hg'
  have ho := inv.o_nonneg
  have hv : ∀ s, s < (reindex_observed g).indiv2deme.length →
      0 ≤ (reindex_observed g).indiv2deme.getD s 0 ∧
        (reindex_observed g).indiv2deme.getD s 0 < ((reindex_observed g).oDemes.toNat : Int) := by
    intro s hs
    have := s2 s (by rw [← s1]; exact hs)
    omega
  obtain ⟨d1, d2, d3⟩ := sizes_loop_spec (reindex_observed g).indiv2deme
    (reindex_observed g).oDemes.toNat hv
  rw [s1] at d1 d2 d3
  have hsz : (reindex_body g).DemeSizes =
      (List.range g.indiv2deme.length).foldl (sizesStep (reindex_observed g).indiv2deme)
        (List.replicate (reindex_observed g).oDemes.toNat 0) := rfl
  have hlen : ((reindex_body g).DemeSizes.length : Int) = (reindex_observed g).oDemes := by
    rw [hsz, d1]
    omega
  have hcount : ∀ k : Int, 0 ≤ k → k < (reindex_observed g).oDemes →
      coeff (reindex_body g).DemeSizes k = ((reindex_body g).indiv2deme.count k : Int) ∧
        1 ≤ coeff (reindex_body g).DemeSizes k := by
    intro k hk0 hk1
    have hc : coeff (reindex_body g).DemeSizes k =
        ((reindex_body g).indiv2deme.count k : Int) := by
      change (reindex_body g).DemeSizes.getD k.toNat 0 = _
      rw [hsz, d3 k.toNat (by omega), reindex_body_samples]
      have : ((k.toNat : Nat) : Int) = k := by omega
      rw [this]
    refine ⟨hc, ?_⟩
    rw [hc, reindex_body_samples]
    obtain ⟨a, ha, hak⟩ := inv.onto k hk0 hk1
    obtain ⟨s, hs, hsa⟩ := (inv.seen a ha).mp (by rw [hak]; omega)
    have hmem : k ∈ (reindex_observed g).indiv2deme := by
      have := getD_mem (reindex_observed g).indiv2deme s 0 (by rw [s1]; exact hs)
      rw [inv.done s hs, hsa, Int.toNat_ofNat, hak] at this
      exact this
    have := List.count_pos_iff.mpr hmem
    omega
  have hsum : (reindex_body g).DemeSizes.sum = (g.indiv2deme.length : Int) := by
    rw [hsz]
    exact d2
  refine ⟨hlen, hlen,
    fun k hk0 hk1 => hcount k hk0 (by unfold Graph.get_num_obsrv_demes at hk1; omega), hsum, ?_⟩
  unfold Graph.get_num_obsrv_demes Graph.get_num_total_demes
  rw [hlen]
  refine le_min ?_ hon
  have hge : ∀ x, x ∈ (reindex_body g).DemeSizes → 1 ≤ x := by
    intro x hx'
    obtain ⟨i, hi, hxi⟩ := List.getElem_of_mem hx'
    have hi' : (i : Int) < (reindex_observed g).oDemes := by omega
    have := (hcount (i : Int) (Int.natCast_nonneg _) hi').2
    rw [coeff_natCast, List.getD_eq_getElem _ _ hi, hxi] at this
    exact this
  have := length_le_sum _ hge
  omega

/-- An instance of C14: the line graph, with four samples on three demes. -/
theorem reindex_demes_sizes_witness :
    reindex_demes lineGraph = .ok lineGraphReindexed ∧
    lineGraphReindexed.DemeSizes.sum = (lineGraph.indiv2deme.length : Int) ∧
    lineGraphReindexed.get_num_obsrv_demes ≤
      min (lineGraph.indiv2deme.length : Int) lineGraph.get_num_total_demes :=
  ⟨rfl, (reindex_demes_sizes lineGraph lineGraphReindexed rfl).2.2.2.1,
    (reindex_demes_sizes lineGraph lineGraphReindexed rfl).2.2.2.2⟩

/-! ## A second run of `reindex_demes` -/

theorem set_getD_self (l : List Int) (i : Nat) : l.set i (l.getD i 0) = l := by
  apply list_ext_getD 0 _ _ (by simp)
  intro j hj
  by_cases hij : i = j
  · subst hij
    rw [getD_set_self _ _ _ _ hj]
  · rw [getD_set_ne _ _ _ _ _ hij]

/-- After the first loop of `reindex_demes` the sample assignment is in order of
first appearance. -/
theorem reindex_observed_canonical (g : Graph)
    (hx : ∀ s, s < g.indiv2deme.length →
      0 ≤ g.indiv2deme.getD s 0 ∧ g.indiv2deme.getD s 0 < (g.DemeCoord.length : Int)) :
    Canonical (reindex_observed g).indiv2deme := by
  have inv := reindex_observed_invariant g hx
  intro s hs
  rw [inv.len_smp] at hs
  obtain ⟨h0, h1⟩ := hx s hs
  have hne : (reindex_observed g).newIndex.getD (g.indiv2deme.getD s 0).toNat 0 ≠ -1 :=
    (inv.seen _ (by omega)).mpr ⟨s, hs, by omega⟩
  have hr : 0 ≤ (reindex_observed g).newIndex.getD (g.indiv2deme.getD s 0).toNat 0 ∧
      (reindex_observed g).newIndex.getD (g.indiv2deme.getD s 0).toNat 0 <
        (reindex_observed g).oDemes := by
    rcases inv.range (g.indiv2deme.getD s 0).toNat (by omega) with r | r
    · exact absurd r hne
    · exact r
  rw [inv.done s hs]
  refine ⟨hr.1, ?_⟩
  intro k hk0 hk1
  obtain ⟨b, hb, hbk⟩ := inv.onto k hk0 (by omega)
  obtain ⟨s', hs', hsb⟩ := (inv.seen b hb).mp (by rw [hbk]; omega)
  obtain ⟨sb, _, fb⟩ := exists_first_sample g.indiv2deme (b : Int) s' hs' hsb
  obtain ⟨sa, hsa, fa⟩ := exists_first_sample g.indiv2deme
    (((g.indiv2deme.getD s 0).toNat : Nat) : Int) s hs (by omega)
  have hord := (inv.order b (g.indiv2deme.getD s 0).toNat sb sa hb (by omega) fb fa fb.1
    fa.1).mp (by rw [hbk]; exact hk1)
  refine ⟨sb, by omega, ?_⟩
  rw [inv.done sb (by omega), fb.2.1, Int.toNat_ofNat, hbk]

/-- The first loop of `reindex_demes` on samples in order of first appearance:
the samples keep their demes and the observed demes keep their indices. -/
theorem observed_canonical_run (ys : List Int) (n : Nat) (hc : Canonical ys)
    (hn : ∀ s, s < ys.length → ys.getD s 0 < (n : Int)) :
    ((List.range ys.length).foldl observedStep
      { newIndex := List.replicate n (-1), oDemes := 0, indiv2deme := ys }).indiv2deme = ys ∧
    ((List.range ys.length).foldl observedStep
      { newIndex := List.replicate n (-1), oDemes := 0, indiv2deme := ys }).newIndex.length = n ∧
    0 ≤ ((List.range ys.length).foldl observedStep
      { newIndex := List.replicate n (-1), oDemes := 0, indiv2deme := ys }).oDemes ∧
    (∀ k, k < n →
      ((k : Int) < ((List.range ys.length).foldl observedStep
          { newIndex := List.replicate n (-1), oDemes := 0, indiv2deme := ys }).oDemes →
        ((List.range ys.length).foldl observedStep
          { newIndex := List.replicate n (-1), oDemes := 0, indiv2deme := ys }).newIndex.getD k 0 =
            (k : Int)) ∧
      (((List.range ys.length).foldl observedStep
          { newIndex := List.replicate n (-1), oDemes := 0, indiv2deme := ys }).oDemes ≤ (k : Int) →
        ((List.range ys.length).foldl observedStep
          { newIndex := List.replicate n (-1), oDemes := 0, indiv2deme := ys }).newIndex.getD k 0 =
            -1)) ∧
    (∀ k : Int, 0 ≤ k →
      k < ((List.range ys.length).foldl observedStep
        { newIndex := List.replicate n (-1), oDemes := 0, indiv2deme := ys }).oDemes →
      ∃ s, s < ys.length ∧ ys.getD s 0 = k) ∧
    ∀ s, s < ys.length → ys.getD s 0 <
      ((List.range ys.length).foldl observedStep
        { newIndex := List.replicate n (-1), oDemes := 0, indiv2deme := ys }).oDemes := by
  have key := foldl_range_invariant observedStep
    (fun i st => st.indiv2deme = ys ∧ st.newIndex.length = n ∧ 0 ≤ st.oDemes ∧
      (∀ k, k < n → ((k : Int) < st.oDemes → st.newIndex.getD k 0 = (k : Int)) ∧
        (st.oDemes ≤ (k : Int) → st.newIndex.getD k 0 = -1)) ∧
      (∀ k : Int, 0 ≤ k → k < st.oDemes → ∃ s, s < i ∧ ys.getD s 0 = k) ∧
      ∀ s, s < i → ys.getD s 0 < st.oDemes)
    ys.length { newIndex := List.replicate n (-1), oDemes := 0, indiv2deme := ys }
    ⟨rfl, by simp, le_refl _,
      fun k hk => ⟨fun h => by simp only at h; omega, fun _ => getD_replicate_lt n k _ _ hk⟩,
      fun k h0 h1 => by simp only at h1; omega, fun s hs => absurd hs (Nat.not_lt_zero s)⟩ (by
      intro i st hi ⟨hys, hlen, ho, hval, honto, hbelow⟩
      obtain ⟨hx0, hcan⟩ := hc i hi
      have hxn := hn i hi
      have hxo : ys.getD i 0 ≤ st.oDemes := by
        by_contra hcon
        obtain ⟨t, ht, hto⟩ := hcan st.oDemes ho (by omega)
        have := hbelow t ht
        omega
      have hal : coeff st.indiv2deme (i : Int) = ys.getD i 0 := by rw [hys, coeff_natCast]
      obtain ⟨hv1, hv2⟩ := hval (ys.getD i 0).toNat (by omega)
      have hcast : (((ys.getD i 0).toNat : Nat) : Int) = ys.getD i 0 := by omega
      rw [hcast] at hv1 hv2
      unfold observedStep
      simp only [hal]
      by_cases hnew : coeff st.newIndex (ys.getD i 0) = -1
      · have hxeq : ys.getD i 0 = st.oDemes := by
          by_contra hcon
          have := hv1 (by omega)
          have hnew' : st.newIndex.getD (ys.getD i 0).toNat 0 = -1 := hnew
          omega
        simp only [hnew, ite_true]
        have hself : coeff (setCoeff st.newIndex (ys.getD i 0) st.oDemes) (ys.getD i 0) =
            st.oDemes := by
          unfold coeff setCoeff
          exact getD_set_self _ _ _ _ (by omega)
        rw [hself]
        refine ⟨?_, by simp [setCoeff, hlen], by omega, ?_, ?_, ?_⟩
        · simp only [setCoeff, hys, Int.toNat_ofNat]
          rw [← hxeq]
          exact set_getD_self ys i
        · intro k hk
          obtain ⟨w1, w2⟩ := hval k hk
          simp only [setCoeff]
          by_cases hkx : (ys.getD i 0).toNat = k
          · subst hkx
            rw [getD_set_self _ _ _ _ (by omega)]
            exact ⟨fun _ => by omega, fun h => by omega⟩
          · rw [getD_set_ne _ _ _ _ _ hkx]
            exact ⟨fun h => w1 (by omega), fun h => w2 (by omega)⟩
        · intro k hk0 hk1
          rcases lt_or_le k st.oDemes with h | h
          · obtain ⟨s, hs, hsk⟩ := honto k hk0 h
            exact ⟨s, by omega, hsk⟩
          · exact ⟨i, by omega, by omega⟩
        · intro s hs
          rcases Nat.lt_or_ge s i with h | h
          · have := hbelow s h
            omega
          · have : s = i := by omega
            subst this
            omega
      · have hxlt : ys.getD i 0 < st.oDemes := by
          by_contra hcon
          have := hv2 (by omega)
          unfold coeff at hnew
          exact hnew this
        have hself : coeff st.newIndex (ys.getD i 0) = ys.getD i 0 := by
          unfold coeff
          exact hv1 hxlt
        simp only [hnew, ite_false]
        rw [hself]
        refine ⟨?_, hlen, ho, hval, ?_, ?_⟩
        · simp only [setCoeff, hys, Int.toNat_ofNat]
          exact set_getD_self ys i
        · intro k hk0 hk1
          obtain ⟨s, hs, hsk⟩ := honto k hk0 hk1
          exact ⟨s, by omega, hsk⟩
        · intro s hs
          rcases Nat.lt_or_ge s i with h | h
          · exact hbelow s h
          · have : s = i := by omega
            subst this
            exact hxlt)
  exact key

/-- The loop that numbers the unobserved demes, when the observed demes are the
first `o` ones and kept their indices: every deme keeps its index. -/
theorem unobserved_identity_run (ni : List Int) (o : Int) (n : Nat) (hlen : ni.length = n)
    (ho : 0 ≤ o)
    (hval : ∀ k, k < n → ((k : Int) < o → ni.getD k 0 = (k : Int)) ∧
      (o ≤ (k : Int) → ni.getD k 0 = -1)) :
    ((List.range n).foldl unobservedStep (ni, o)).1.length = n ∧
    ∀ k, k < n → ((List.range n).foldl unobservedStep (ni, o)).1.getD k 0 = (k : Int) := by
  have key := foldl_range_invariant unobservedStep
    (fun i st => st.1.length = n ∧ o ≤ st.2 ∧ (i : Int) ≤ st.2 ∧ (st.2 = o ∨ st.2 = (i : Int)) ∧
      ∀ k, k < n → ((k : Int) < st.2 → st.1.getD k 0 = (k : Int)) ∧
        (st.2 ≤ (k : Int) → st.1.getD k 0 = -1))
    n (ni, o) ⟨hlen, le_refl _, by simpa using ho, Or.inl rfl, hval⟩ (by
      intro i st hi ⟨hl, h1, h2, h3, hv⟩
      obtain ⟨w1, w2⟩ := hv i hi
      unfold unobservedStep
      rw [coeff_natCast]
      by_cases hnew : st.1.getD i 0 = -1
      · have hio : st.2 = (i : Int) := by
          by_contra hcon
          have := w1 (by omega)
          omega
        simp only [hnew, ite_true]
        refine ⟨by simp [setCoeff, hl], by omega, by push_cast; omega, Or.inr (by push_cast; omega),
          ?_⟩
        intro k hk
        obtain ⟨v1, v2⟩ := hv k hk
        simp only [setCoeff, Int.toNat_ofNat]
        by_cases hki : i = k
        · subst hki
          rw [getD_set_self _ _ _ _ (by omega)]
          exact ⟨fun _ => hio, fun h => by omega⟩
        · rw [getD_set_ne _ _ _ _ _ hki]
          exact ⟨fun h => v1 (by omega), fun h => v2 (by omega)⟩
      · have hio : (i : Int) < st.2 := by
          by_contra hcon
          exact hnew (w2 (by omega))
        simp only [hnew, ite_false]
        exact ⟨hl, h1, by push_cast; omega, Or.inl (by omega), hv⟩)
  exact ⟨key.1, fun k hk => (key.2.2.2.2 k hk).1 (by have := key.2.2.1; omega)⟩

theorem graph_eq_of_fields (a b : Graph) (h1 : a.DemeCoord = b.DemeCoord)
    (h2 : a.DemePairs = b.DemePairs) (h3 : a.indiv2deme = b.indiv2deme)
    (h4 : a.DemeSizes = b.DemeSizes) : a = b := by
  cases a
  cases b
  simp only at h1 h2 h3 h4
  rw [h1, h2, h3, h4]

/-- A state that passes both checks is accepted by `reindex_demes`. -/
theorem reindex_demes_of_inRange (g : Graph)
    (h1 : inRange (coeffs g.DemePairs) (g.DemeCoord.length : Int) = some true)
    (h2 : inRange g.indiv2deme (g.DemeCoord.length : Int) = some true) :
    reindex_demes g = .ok (reindex_body g) := by
  unfold reindex_demes
  simp only [h1, h2, check_condition]
  rfl

/-- The body of `reindex_demes` leaves its own result unchanged. -/
theorem reindex_body_fixed (g : Graph)
    (hx : ∀ s, s < g.indiv2deme.length →
      0 ≤ g.indiv2deme.getD s 0 ∧ g.indiv2deme.getD s 0 < (g.DemeCoord.length : Int))
    (hp : ∀ p, p ∈ g.DemePairs →
      (0 ≤ p.1 ∧ p.1 < (g.DemeCoord.length : Int)) ∧
      (0 ≤ p.2 ∧ p.2 < (g.DemeCoord.length : Int))) :
    reindex_body (reindex_body g) = reindex_body g ∧
    (∀ p, p ∈ (reindex_body g).DemePairs →
      (0 ≤ p.1 ∧ p.1 < ((reindex_body g).DemeCoord.length : Int)) ∧
      (0 ≤ p.2 ∧ p.2 < ((reindex_body g).DemeCoord.length : Int))) ∧
    (∀ x, x ∈ (reindex_body g).indiv2deme →
      0 ≤ x ∧ x < ((reindex_body g).DemeCoord.length : Int)) ∧
    (reindex_body g).DemePairs.length = g.DemePairs.length ∧
    (reindex_body g).indiv2deme.length = g.indiv2deme.length ∧
    ∀ k, k < (reindex_body g).DemeCoord.length →
      (reindex_newIndex (reindex_body g)).getD k 0 = (k : Int) := by
  have inv := reindex_observed_invariant g hx
  obtain ⟨_, hon, hA, hB, _, _, _⟩ := reindex_newIndex_spec g hx
  have hperm := reindex_newIndex_permutation g hx
  obtain ⟨c1, _⟩ := coord_loop_spec (reindex_newIndex g) g.DemeCoord hA hB
  obtain ⟨p1, p2⟩ := pairs_loop_spec (reindex_newIndex g) g.DemePairs
  obtain ⟨s1, s2⟩ := reindex_samples_spec g hx
  have hcan := reindex_observed_canonical g hx
  have hn1 : (reindex_body g).DemeCoord.length = g.DemeCoord.length := c1
  have hp1 : (reindex_body g).DemePairs.length = g.DemePairs.length := p1
  have hs1 : (reindex_body g).indiv2deme.length = g.indiv2deme.length := s1
  have hys : (reindex_body g).indiv2deme = (reindex_observed g).indiv2deme := rfl
  -- the entries of the new tables are in range
  have hpr : ∀ p, p ∈ (reindex_body g).DemePairs →
      (0 ≤ p.1 ∧ p.1 < ((reindex_body g).DemeCoord.length : Int)) ∧
      (0 ≤ p.2 ∧ p.2 < ((reindex_body g).DemeCoord.length : Int)) := by
    intro p hpm
    obtain ⟨e, he, hpe⟩ := List.getElem_of_mem hpm
    have he' : e < g.DemePairs.length := by rw [← hp1]; exact he
    have h1 : (reindex_body g).DemePairs.getD e default = p := by
      rw [List.getD_eq_getElem _ _ he]; exact hpe
    have h2 : (reindex_body g).DemePairs.getD e default =
        (coeff (reindex_newIndex g) (g.DemePairs.getD e default).1,
          coeff (reindex_newIndex g) (g.DemePairs.getD e default).2) := p2 e he'
    obtain ⟨⟨q1, q2⟩, ⟨q3, q4⟩⟩ := hp _ (getD_mem g.DemePairs e default he')
    rw [hn1, ← h1, h2]
    exact ⟨hperm.1 _ q1 q2, hperm.1 _ q3 q4⟩
  have hsr : ∀ s, s < (reindex_body g).indiv2deme.length →
      (reindex_body g).indiv2deme.getD s 0 < ((reindex_body g).DemeCoord.length : Int) := by
    intro s hs
    rw [hs1] at hs
    rw [hys, hn1]
    have := (s2 s hs).2.2
    omega
  have hxr : ∀ x, x ∈ (reindex_body g).indiv2deme →
      0 ≤ x ∧ x < ((reindex_body g).DemeCoord.length : Int) := by
    intro x hxm
    obtain ⟨s, hs, hxs⟩ := List.getElem_of_mem hxm
    have h1 : (reindex_body g).indiv2deme.getD s 0 = x := by
      rw [List.getD_eq_getElem _ _ hs]; exact hxs
    rw [← h1]
    exact ⟨(hcan s hs).1, hsr s hs⟩
  -- the first loop of the second run
  have run : (reindex_observed (reindex_body g)).indiv2deme = (reindex_body g).indiv2deme ∧
      (reindex_observed (reindex_body g)).newIndex.length = (reindex_body g).DemeCoord.length ∧
      0 ≤ (reindex_observed (reindex_body g)).oDemes ∧
      (∀ k, k < (reindex_body g).DemeCoord.length →
        ((k : Int) < (reindex_observed (reindex_body g)).oDemes →
          (reindex_observed (reindex_body g)).newIndex.getD k 0 = (k : Int)) ∧
        ((reindex_observed (reindex_body g)).oDemes ≤ (k : Int) →
          (reindex_observed (reindex_body g)).newIndex.getD k 0 = -1)) ∧
      (∀ k : Int, 0 ≤ k → k < (reindex_observed (reindex_body g)).oDemes →
        ∃ s, s < (reindex_body g).indiv2deme.length ∧ (reindex_body g).indiv2deme.getD s 0 = k) ∧
      ∀ s, s < (reindex_body g).indiv2deme.length →
        (reindex_body g).indiv2deme.getD s 0 < (reindex_observed (reindex_body g)).oDemes :=
    observed_canonical_run (reindex_body g).indiv2deme (reindex_body g).DemeCoord.length hcan hsr
  obtain ⟨r1, r2, r3, r4, r5, r6⟩ := run
  have ho : (reindex_observed (reindex_body g)).oDemes = (reindex_observed g).oDemes := by
    have ho1 := inv.o_nonneg
    apply le_antisymm
    · by_contra hcon
      obtain ⟨s, hs, hsk⟩ := r5 (reindex_observed g).oDemes ho1 (by omega)
      rw [hs1] at hs
      have := (s2 s hs).2.2
      rw [hys] at hsk
      omega
    · by_contra hcon
      obtain ⟨a, ha, hak⟩ := inv.onto (reindex_observed (reindex_body g)).oDemes r3 (by omega)
      obtain ⟨s, hs, hsa⟩ := (inv.seen a ha).mp (by rw [hak]; omega)
      have h6 := r6 s (by rw [hs1]; exact hs)
      rw [hys, inv.done s hs, hsa, Int.toNat_ofNat, hak] at h6
      omega
  -- the second loop of the second run
  have hid : (reindex_newIndex (reindex_body g)).length = (reindex_body g).DemeCoord.length ∧
      ∀ k, k < (reindex_body g).DemeCoord.length →
        (reindex_newIndex (reindex_body g)).getD k 0 = (k : Int) :=
    unobserved_identity_run (reindex_observed (reindex_body g)).newIndex
      (reindex_observed (reindex_body g)).oDemes (reindex_body g).DemeCoord.length r2 r3 r4
  obtain ⟨i1, i2⟩ := hid
  have hcoeff : ∀ x : Int, 0 ≤ x → x < ((reindex_body g).DemeCoord.length : Int) →
      coeff (reindex_newIndex (reindex_body g)) x = x := by
    intro x h0 h1
    unfold coeff
    rw [show (default : Int) = 0 from rfl, i2 x.toNat (by omega)]
    omega
  obtain ⟨cc1, cc2⟩ := coord_loop_spec (reindex_newIndex (reindex_body g))
    (reindex_body g).DemeCoord
    (fun a ha => by rw [i2 a ha]; omega)
    (fun a b ha hb hab => by rw [i2 a ha, i2 b hb] at hab; omega)
  obtain ⟨pp1, pp2⟩ := pairs_loop_spec (reindex_newIndex (reindex_body g))
    (reindex_body g).DemePairs
  refine ⟨graph_eq_of_fields _ _ ?_ ?_ r1 ?_, hpr, hxr, hp1, hs1, i2⟩
  · apply list_ext_getD default _ _ cc1
    intro j hj
    have := cc2 j hj
    rw [i2 j hj, Int.toNat_ofNat] at this
    exact this
  · apply list_ext_getD default _ _ pp1
    intro j hj
    have h1 := pp2 j hj
    obtain ⟨⟨q1, q2⟩, ⟨q3, q4⟩⟩ := hpr _ (getD_mem (reindex_body g).DemePairs j default hj)
    rw [hcoeff _ q1 q2, hcoeff _ q3 q4] at h1
    exact h1
  · show (List.range (reindex_body g).indiv2deme.length).foldl
        (sizesStep (reindex_observed (reindex_body g)).indiv2deme)
        (List.replicate (reindex_observed (reindex_body g)).oDemes.toNat 0) =
      (List.range g.indiv2deme.length).foldl (sizesStep (reindex_observed g).indiv2deme)
        (List.replicate (reindex_observed g).oDemes.toNat 0)
    rw [r1, ho, hs1, hys]

/-- C19: `reindex_demes` is idempotent: a state returned by `reindex_demes` is
accepted by `reindex_demes`, which returns it unchanged (`DemeCoord`,
`DemePairs`, `indiv2deme` and `DemeSizes`); the permutation of the second run is
the identity. -/
theorem reindex_demes_idempotent (g g' : Graph) (h : reindex_demes g = .ok g') :
    reindex_demes g' = .ok g' ∧
    ∀ k : Nat, k < g'.DemeCoord.length → coeff (reindex_newIndex g') (k : Int) = (k : Int) := by
  obtain ⟨hg', _, _⟩ := reindex_demes_ok g g' h
  obtain ⟨hne, hx⟩ := reindex_demes_samples g g' h
  obtain ⟨hpe, hp⟩ := reindex_demes_edges g g' h
  obtain ⟨f1, f2, f3, f4, f5, f6⟩ := reindex_body_fixed g hx hp
  subst hg'
  have hne1 : coeffs (reindex_body g).DemePairs ≠ [] := by
    intro hnil
    have hl : 0 < (reindex_body g).DemePairs.length := by
      rw [f4]; exact List.length_pos.mpr hpe
    obtain ⟨p, hpm⟩ := List.exists_mem_of_length_pos hl
    have := (mem_coeffs (reindex_body g).DemePairs p.1).mpr ⟨p, hpm, Or.inl rfl⟩
    rw [hnil] at this
    exact absurd this (List.not_mem_nil _)
  have hne2 : (reindex_body g).indiv2deme ≠ [] := by
    intro hnil
    have hl : 0 < (reindex_body g).indiv2deme.length := by
      rw [f5]; exact List.length_pos.mpr hne
    rw [hnil] at hl
    exact absurd hl (by simp)
  obtain ⟨c1, hc1, hc1'⟩ := inRange_iff (coeffs (reindex_body g).DemePairs)
    ((reindex_body g).DemeCoord.length : Int) hne1
  obtain ⟨c2, hc2, hc2'⟩ := inRange_iff (reindex_body g).indiv2deme
    ((reindex_body g).DemeCoord.length : Int) hne2
  have e1 : c1 = true := hc1'.mpr (by
    intro x hxm
    obtain ⟨p, hpm, hxp⟩ := (mem_coeffs _ _).mp hxm
    obtain ⟨q1, q2⟩ := f2 p hpm
    rcases hxp with e | e
    · rw [e]; exact q1
    · rw [e]; exact q2)
  have e2 : c2 = true := hc2'.mpr f3
  rw [e1] at hc1
  rw [e2] at hc2
  refine ⟨?_, ?_⟩
  · rw [reindex_demes_of_inRange _ hc1 hc2, f1]
  · intro k hk
    rw [coeff_natCast]
    exact f6 k hk

/-- An instance of C19: the line graph. -/
theorem reindex_demes_idempotent_witness :
    reindex_demes lineGraph = .ok lineGraphReindexed ∧
    reindex_demes lineGraphReindexed = .ok lineGraphReindexed :=
  ⟨rfl, (reindex_demes_idempotent lineGraph lineGraphReindexed rfl).1⟩

end Eems
